import Mathlib

/-!
# Verification of the grid search algorithms

A shallow embedding of `search_algorithms.py`: six uninformed search
procedures (BFS, DFS, UCS, DLS, IDDFS, bidirectional) over an
obstacle-free `(rows, cols)` grid with six moves, plus the step-wise
(generator) variants that drive the visualizer.

Modelling conventions, chosen to stay faithful to the Python source:

* A cell is a pair of integers `(row, col)`; grid sizes are integer pairs.
* Move costs are Python floats `1` and `1.5`; all arithmetic the program
  performs on them (sums of halves, comparisons) is exact in binary
  floating point, so we scale every cost by 2 and compute in `Nat`
  (orthogonal moves cost 2, diagonal moves cost 3).
* Python sets of cells become `Finset Cell` (insertion order is never
  observed by the algorithms' control flow); the `f_explored`/`b_explored`
  dicts become association lists queried by first match.
* The recursive depth-limited search mutates one shared set across
  sibling calls; the embedding threads that set through and returns it.
* `dls` is called with a nonnegative depth limit (`limit : Nat`); the
  Python guard `limit <= 0` becomes the `Nat` zero case, which agrees
  with the source on every nonnegative limit.
* The unbounded `while frontier:` loops receive explicit fuel; running
  out of fuel is the distinguished outcome `SearchOut.out`, and the
  termination theorems prove the supplied fuel never runs out.
* Python's LIFO frontier list pushes and pops at the right end; the
  embedding keeps the stack reversed (head of the list = top of the
  stack), which is the same data accessed from the other side.
* Python's `heapq` is embedded operation by operation (`heappush`,
  `heappop`, `_siftdown`, `_siftup`) on a `List Node`, comparing nodes
  by `Node.__lt__`, i.e. by cumulative cost.
* Step-wise variants return the finite list of events they yield.  The
  events' drawing payloads (current cell, frontier and explored
  snapshots) are never consumed by any control flow; only the event kind
  and the final path payload are, so events are embedded as their kind
  together with the path payload.
-/

namespace SearchViz

/-- A grid cell `(row, col)`, integer coordinates as in the source. -/
abbrev Cell := Int × Int

/-- Grid dimensions `(rows, cols)`. -/
abbrev GridSize := Int × Int

/-- The six named moves, in the fixed order of `get_successors`. -/
inductive Action : Type where
  | up | right | bottom | bottomRight | left | topLeft
deriving DecidableEq

/-- The `(Δrow, Δcol)` of each move, from the `actions` table. -/
def delta : Action → Int × Int
  | .up => (-1, 0)
  | .right => (0, 1)
  | .bottom => (1, 0)
  | .bottomRight => (1, 1)
  | .left => (0, -1)
  | .topLeft => (-1, -1)

/-- Move costs from the `actions` table, scaled by 2 into `Nat`
(orthogonal `1 ↦ 2`, diagonal `1.5 ↦ 3`). -/
def costH : Action → Nat
  | .bottomRight => 3
  | .topLeft => 3
  | _ => 2

/-- The bounds check `0 <= new_row < rows and 0 <= new_col < cols`. -/
def inBounds (gs : GridSize) (c : Cell) : Prop :=
  0 ≤ c.1 ∧ c.1 < gs.1 ∧ 0 ≤ c.2 ∧ c.2 < gs.2

instance (gs : GridSize) (c : Cell) : Decidable (inBounds gs c) := by
  unfold inBounds; infer_instance

/-- Applying a move's delta to a cell. -/
def applyMove (c : Cell) (a : Action) : Cell :=
  (c.1 + (delta a).1, c.2 + (delta a).2)

/-- The fixed move order Up, Right, Bottom, Bottom-Right, Left, Top-Left. -/
def actionOrder : List Action :=
  [.up, .right, .bottom, .bottomRight, .left, .topLeft]

/-- `get_successors`: the in-bounds `(neighbor, move, cost)` triples, in
the fixed move order. -/
def get_successors (state : Cell) (gs : GridSize) : List (Cell × Action × Nat) :=
  actionOrder.filterMap fun a =>
    if inBounds gs (applyMove state a) then some (applyMove state a, a, costH a)
    else none

/-- The `Node` class: state, parent link, action, cumulative cost, depth.
A root node is `Node(start)` (no parent, cost 0, depth 0). -/
inductive Node : Type where
  | root (state : Cell)
  | child (state : Cell) (parent : Node) (action : Action) (cost : Nat) (depth : Nat)
deriving DecidableEq

/-- `self.state`. -/
def Node.state : Node → Cell
  | .root s => s
  | .child s _ _ _ _ => s

@[simp] theorem Node.state_root (s : Cell) : (Node.root s).state = s := rfl

@[simp] theorem Node.state_child (s : Cell) (p : Node) (a : Action) (c d : Nat) :
    (Node.child s p a c d).state = s := rfl

/-- `self.cost` (0 for a root node). -/
def Node.cost : Node → Nat
  | .root _ => 0
  | .child _ _ _ c _ => c

@[simp] theorem Node.cost_root (s : Cell) : (Node.root s).cost = 0 := rfl

@[simp] theorem Node.cost_child (s : Cell) (p : Node) (a : Action) (c d : Nat) :
    (Node.child s p a c d).cost = c := rfl

/-- `self.depth` (0 for a root node). -/
def Node.depth : Node → Nat
  | .root _ => 0
  | .child _ _ _ _ d => d

@[simp] theorem Node.depth_root (s : Cell) : (Node.root s).depth = 0 := rfl

@[simp] theorem Node.depth_child (s : Cell) (p : Node) (a : Action) (c d : Nat) :
    (Node.child s p a c d).depth = d := rfl

/-- The parent-walk of `reconstruct_path` before the final reversal:
actions from the node back to the root. -/
def reconAux : Node → List Action
  | .root _ => []
  | .child _ p a _ _ => a :: reconAux p

/-- `reconstruct_path`: collect actions along parent links, reversed into
start-to-goal order. -/
def reconstruct_path (n : Node) : List Action := (reconAux n).reverse

/-- `get_inverse_action` (the `inverses` table; every action has an entry). -/
def get_inverse_action : Action → Action
  | .up => .bottom
  | .bottom => .up
  | .left => .right
  | .right => .left
  | .topLeft => .bottomRight
  | .bottomRight => .topLeft

/-- The backward half of `merge_paths`: walk parent links from the meeting
node of the backward search, inverting each action, without reversing. -/
def backPath : Node → List Action
  | .root _ => []
  | .child _ p a _ _ => get_inverse_action a :: backPath p

/-- `merge_paths`: forward reconstruction plus inverted backward walk. -/
def merge_paths (f b : Node) : List Action :=
  reconstruct_path f ++ backPath b

/-- Result of a batch search: a path, the not-found sentinel `None`, or
the fuel-exhaustion marker of the embedding (shown unreachable). -/
inductive SearchOut : Type where
  | found (p : List Action)
  | noPath
  | out
deriving DecidableEq

/-- Result of `recursive_dls`: a path, `"cutoff"`, or `None`. -/
inductive DlsRes : Type where
  | found (p : List Action)
  | cutoff
  | noPath
deriving DecidableEq

/-! ## Breadth-first search (`bfs`) -/

/-- The states of the nodes in a frontier, `[n.state for n in frontier]`. -/
def states (q : List Node) : List Cell := q.map Node.state

/-- Inner successor loop of `bfs`: filter against explored and current
frontier contents, goal test at generation time. -/
def bfsScan (goal : Cell) (node : Node) :
    List (Cell × Action × Nat) → List Node → Finset Cell →
    (List Action) ⊕ (List Node)
  | [], q, _ => .inr q
  | (s, a, c) :: rest, q, E =>
    if s ∉ E ∧ s ∉ states q then
      let ch := Node.child s node a (node.cost + c) (node.depth + 1)
      if ch.state = goal then .inl (reconstruct_path ch)
      else bfsScan goal node rest (q ++ [ch]) E
    else bfsScan goal node rest q E

/-- The `while frontier:` loop of `bfs`. -/
def bfsLoop (goal : Cell) (gs : GridSize) :
    Nat → List Node → Finset Cell → SearchOut
  | 0, _, _ => .out
  | _ + 1, [], _ => .noPath
  | fuel + 1, node :: rest, E =>
    let E' := insert node.state E
    match bfsScan goal node (get_successors node.state gs) rest E' with
    | .inl p => .found p
    | .inr q' => bfsLoop goal gs fuel q' E'

/-- Fuel for `bfs`: one more than the largest possible number of loop
iterations (each iteration explores a new cell of the grid, or start). -/
def bfsFuel (gs : GridSize) : Nat := gs.1.toNat * gs.2.toNat + 3

/-- `bfs`. -/
def bfs (start goal : Cell) (gs : GridSize) : SearchOut :=
  if start = goal then .found []
  else bfsLoop goal gs (bfsFuel gs) [Node.root start] ∅

/-! ## Depth-first search (`dfs`) -/

/-- The children pushed by one `dfs` expansion.  Python iterates
`reversed(neighbors)` pushing at the right end of the stack; with the
stack kept head-first this is the filtered neighbor list in order,
prepended to the stack. -/
def dfsChildren (node : Node) (gs : GridSize) (E : Finset Cell) : List Node :=
  (get_successors node.state gs).filterMap fun sac =>
    if sac.1 ∈ E then none
    else some (Node.child sac.1 node sac.2.1 (node.cost + sac.2.2) (node.depth + 1))

/-- The `while frontier:` loop of `dfs`: goal test at pop time, explored
set guards re-expansion. -/
def dfsLoop (goal : Cell) (gs : GridSize) :
    Nat → List Node → Finset Cell → SearchOut
  | 0, _, _ => .out
  | _ + 1, [], _ => .noPath
  | fuel + 1, node :: rest, E =>
    if node.state = goal then .found (reconstruct_path node)
    else if node.state ∈ E then dfsLoop goal gs fuel rest E
    else dfsLoop goal gs fuel (dfsChildren node gs (insert node.state E) ++ rest)
      (insert node.state E)

/-- Fuel for `dfs`: every iteration either shrinks the stack or explores a
new cell while pushing at most six children. -/
def dfsFuel (gs : GridSize) : Nat := 7 * (gs.1.toNat * gs.2.toNat) + 16

/-- `dfs`. -/
def dfs (start goal : Cell) (gs : GridSize) : SearchOut :=
  dfsLoop goal gs (dfsFuel gs) [Node.root start] ∅

/-! ## The `heapq` priority queue, as used by `ucs`

CPython's `heapq` on a list of `Node`s, which compares by `__lt__`,
i.e. by cumulative cost.  Reads at a position use a default node; the
algorithms only ever read in range. -/

/-- Default node for out-of-range reads (never reached by the code). -/
def dummy : Node := .root (0, 0)

/-- `heapq._siftdown(heap, startpos, pos)`: bubble `newitem` toward the
root, moving larger parents down (`parentpos = (pos - 1) >> 1`, and the
parent is `heap[parentpos]`). -/
def siftdown (newitem : Node) (startpos : Nat) (pos : Nat) (l : List Node) :
    List Node :=
  if h : startpos < pos then
    if newitem.cost < (l.getD ((pos - 1) / 2) dummy).cost then
      siftdown newitem startpos ((pos - 1) / 2)
        (l.set pos (l.getD ((pos - 1) / 2) dummy))
    else l.set pos newitem
  else l.set pos newitem
termination_by pos
decreasing_by omega

/-- The child index chosen by `heapq._siftup`: the right child when it
exists and the left child is not smaller, otherwise the left child. -/
def siftupChild (len : Nat) (pos : Nat) (l : List Node) : Nat :=
  if 2 * pos + 1 + 1 < len ∧
      ¬ (l.getD (2 * pos + 1) dummy).cost < (l.getD (2 * pos + 1 + 1) dummy).cost
  then 2 * pos + 1 + 1
  else 2 * pos + 1

/-- The child-promoting loop of `heapq._siftup`: follow the smaller child
down to a leaf, returning the final position and the shifted list. -/
def siftupLoop (len : Nat) (pos : Nat) (l : List Node) : Nat × List Node :=
  if _h : 2 * pos + 1 < len then
    siftupLoop len (siftupChild len pos l) (l.set pos (l.getD (siftupChild len pos l) dummy))
  else (pos, l)
termination_by len - pos
decreasing_by unfold siftupChild; split <;> omega

/-- `heapq._siftup(heap, pos)`: promote children to a leaf, place the
displaced item there, then sift it back down toward `pos`. -/
def siftup (pos : Nat) (l : List Node) : List Node :=
  siftdown (l.getD pos dummy) pos (siftupLoop l.length pos l).1
    ((siftupLoop l.length pos l).2.set (siftupLoop l.length pos l).1
      (l.getD pos dummy))

/-- `heapq.heappush`. -/
def heappush (l : List Node) (item : Node) : List Node :=
  siftdown item 0 l.length (l ++ [item])

/-- `heapq.heappop`: remove the last element; if the heap is still
nonempty, move it to the root and sift up.  `none` on an empty heap
(Python would raise; the loops guard against it). -/
def heappop (l : List Node) : Option (Node × List Node) :=
  match l.getLast? with
  | none => none
  | some lastelt =>
    if l.dropLast.isEmpty then some (lastelt, [])
    else some (l.dropLast.getD 0 dummy, siftup 0 (l.dropLast.set 0 lastelt))

/-! ## Uniform-cost search (`ucs`) -/

/-- One `ucs` expansion: push each not-explored successor. -/
def ucsPush (node : Node) (gs : GridSize) (E : Finset Cell) (h : List Node) :
    List Node :=
  (get_successors node.state gs).foldl
    (fun h sac =>
      if sac.1 ∈ E then h
      else heappush h
        (Node.child sac.1 node sac.2.1 (node.cost + sac.2.2) (node.depth + 1)))
    h

/-- The `while frontier:` loop of `ucs`: goal test at pop time. -/
def ucsLoop (goal : Cell) (gs : GridSize) :
    Nat → List Node → Finset Cell → SearchOut
  | 0, _, _ => .out
  | fuel + 1, heap, E =>
    match heappop heap with
    | none => .noPath
    | some (node, heap') =>
      if node.state = goal then .found (reconstruct_path node)
      else if node.state ∈ E then ucsLoop goal gs fuel heap' E
      else ucsLoop goal gs fuel (ucsPush node gs (insert node.state E) heap')
        (insert node.state E)

/-- Fuel for `ucs`, by the same measure as `dfs`. -/
def ucsFuel (gs : GridSize) : Nat := 7 * (gs.1.toNat * gs.2.toNat) + 16

/-- `ucs`. -/
def ucs (start goal : Cell) (gs : GridSize) : SearchOut :=
  ucsLoop goal gs (ucsFuel gs) [Node.root start] ∅

/-! ## Depth-limited search (`dls`) and iterative deepening (`iddfs`) -/

/-- The successor loop of `recursive_dls`: recurse (via `rec`, the search
one level deeper) on children not on the current path, tracking whether a
cutoff occurred; remove the node's state on backtrack. -/
def dlsGo (rec : Node → Finset Cell → DlsRes × Finset Cell) (node : Node) :
    List (Cell × Action × Nat) → Finset Cell → Bool → DlsRes × Finset Cell
  | [], ps, cut => ((if cut then .cutoff else .noPath), ps.erase node.state)
  | (s, a, c) :: rest, ps, cut =>
    if s ∈ ps then dlsGo rec node rest ps cut
    else
      match rec (Node.child s node a (node.cost + c) (node.depth + 1)) ps with
      | (.found p, ps') => (.found p, ps')
      | (.cutoff, ps') => dlsGo rec node rest ps' true
      | (.noPath, ps') => dlsGo rec node rest ps' cut

/-- `recursive_dls`.  The Python function mutates the shared `path_states`
set; the embedding threads it and returns the updated set.  Recursion is
structural on the (nonnegative) limit. -/
def recursive_dls (node : Node) (goal : Cell) (gs : GridSize) (limit : Nat)
    (ps : Finset Cell) : DlsRes × Finset Cell :=
  if node.state = goal then (.found (reconstruct_path node), ps)
  else
    match limit with
    | 0 => (.cutoff, ps)
    | lim + 1 =>
      dlsGo (fun n ps' => recursive_dls n goal gs lim ps') node
        (get_successors node.state gs) (insert node.state ps) false

/-- `dls`: run `recursive_dls` from a fresh root node and empty path set,
returning just the result (the set is internal). -/
def dls (start goal : Cell) (gs : GridSize) (limit : Nat) : DlsRes :=
  (recursive_dls (Node.root start) goal gs limit ∅).1

/-- The `for depth in range(max_depth)` loop of `iddfs`: return the first
result that is neither `"cutoff"` nor `None`. -/
def iddfsGo (start goal : Cell) (gs : GridSize) : List Nat → SearchOut
  | [] => .noPath
  | d :: ds =>
    match dls start goal gs d with
    | .found p => .found p
    | _ => iddfsGo start goal gs ds

/-- `iddfs` with its default depth ceiling 1000. -/
def iddfs (start goal : Cell) (gs : GridSize) (max_depth : Nat := 1000) :
    SearchOut :=
  iddfsGo start goal gs (List.range max_depth)

/-! ## Bidirectional search (`bidirectional_search`) -/

/-- First-match lookup in an association list (the `f_explored` and
`b_explored` dicts mapping states to their owning nodes). -/
def lookupA (c : Cell) : List (Cell × Node) → Option Node
  | [] => none
  | (k, n) :: rest => if k = c then some n else lookupA c rest

/-- One forward expansion of `bidirectional_search`: record and enqueue
each state new to `f_explored`; if the state is already in `b_explored`,
merge immediately.  Children are created without a depth argument in the
source, so their `depth` defaults to 0. -/
def bidiScanF (node : Node) :
    List (Cell × Action × Nat) → List Node → List (Cell × Node) →
    List (Cell × Node) → (List Action) ⊕ (List Node × List (Cell × Node))
  | [], q, fE, _ => .inr (q, fE)
  | (s, a, c) :: rest, q, fE, bE =>
    if (lookupA s fE).isSome then bidiScanF node rest q fE bE
    else
      let ch := Node.child s node a (node.cost + c) 0
      match lookupA s bE with
      | some bn => .inl (merge_paths ch bn)
      | none => bidiScanF node rest (q ++ [ch]) ((s, ch) :: fE) bE

/-- One backward expansion, merging `f_explored`'s node with the new
backward child when the frontiers meet. -/
def bidiScanB (node : Node) :
    List (Cell × Action × Nat) → List Node → List (Cell × Node) →
    List (Cell × Node) → (List Action) ⊕ (List Node × List (Cell × Node))
  | [], q, bE, _ => .inr (q, bE)
  | (s, a, c) :: rest, q, bE, fE =>
    if (lookupA s bE).isSome then bidiScanB node rest q bE fE
    else
      let ch := Node.child s node a (node.cost + c) 0
      match lookupA s fE with
      | some fn => .inl (merge_paths fn ch)
      | none => bidiScanB node rest (q ++ [ch]) ((s, ch) :: bE) fE

/-- The `while f_frontier and b_frontier:` loop: one forward expansion,
then one backward expansion, per iteration. -/
def bidiLoop (gs : GridSize) :
    Nat → List Node → List (Cell × Node) → List Node → List (Cell × Node) →
    SearchOut
  | 0, _, _, _, _ => .out
  | _ + 1, [], _, _, _ => .noPath
  | _ + 1, _ :: _, _, [], _ => .noPath
  | fuel + 1, fnode :: frest, fE, bnode :: brest, bE =>
    match bidiScanF fnode (get_successors fnode.state gs) frest fE bE with
    | .inl p => .found p
    | .inr (fq', fE') =>
      match bidiScanB bnode (get_successors bnode.state gs) brest bE fE' with
      | .inl p => .found p
      | .inr (bq', bE') => bidiLoop gs fuel fq' fE' bq' bE'

/-- Fuel for `bidirectional_search`: each iteration pops one node from
each frontier, and each frontier receives each cell at most once. -/
def bidiFuel (gs : GridSize) : Nat := gs.1.toNat * gs.2.toNat + 3

/-- `bidirectional_search`. -/
def bidirectional_search (start goal : Cell) (gs : GridSize) : SearchOut :=
  if start = goal then .found []
  else
    bidiLoop gs (bidiFuel gs)
      [Node.root start] [(start, Node.root start)]
      [Node.root goal] [(goal, Node.root goal)]

/-! ## Replaying a path

The semantics the spec's path properties are stated against: applying a
move succeeds when the target cell is within grid bounds. -/

/-- Apply one move, `none` if the target leaves the grid. -/
def stepMove (gs : GridSize) (c : Cell) (a : Action) : Option Cell :=
  if inBounds gs (applyMove c a) then some (applyMove c a) else none

/-- Replay a move sequence from a cell; `some final` exactly when every
intermediate cell stays within bounds. -/
def replay (gs : GridSize) (c : Cell) : List Action → Option Cell
  | [] => some c
  | a :: as' =>
    match stepMove gs c a with
    | none => none
    | some t => replay gs t as'

/-- The full cell trace `[c, c₁, …]` of a replay, `none` on a bounds
violation. -/
def traceFrom (gs : GridSize) (c : Cell) : List Action → Option (List Cell)
  | [] => some [c]
  | a :: as' =>
    match stepMove gs c a with
    | none => none
    | some t => (traceFrom gs t as').map (c :: ·)

/-- A move sequence is a path from `s` to `g` on grid `gs`. -/
def ValidPath (gs : GridSize) (s g : Cell) (p : List Action) : Prop :=
  replay gs s p = some g

/-- Scaled total cost of a move sequence (half-units). -/
def costOf (p : List Action) : Nat := (p.map costH).sum

/-- `d` is the minimal move count over all paths from `s` to `g`. -/
def IsMinDist (gs : GridSize) (s g : Cell) (d : Nat) : Prop :=
  (∃ p, ValidPath gs s g p ∧ p.length = d) ∧
    ∀ p, ValidPath gs s g p → d ≤ p.length

/-- Well-formed parent chain rooted at `r`: each link's action moves the
parent's state to the node's state within bounds, and costs accumulate. -/
def chainOk (gs : GridSize) (r : Cell) : Node → Prop
  | .root s => s = r
  | .child s p a c _ =>
    chainOk gs r p ∧ stepMove gs p.state a = some s ∧ c = p.cost + costH a

/-- Depth bookkeeping along a chain: each child's depth is its parent's
depth plus one (true for all algorithms except `bidirectional_search`). -/
def depthOk : Node → Prop
  | .root _ => True
  | .child _ p _ _ d => depthOk p ∧ d = p.depth + 1

/-! ## Step-wise (generator) variants

Each suspendable variant is embedded as the finite list of events it
yields.  Events are embedded by kind plus the final path payload; the
drawing payloads of `step` events are never consumed by control flow. -/

/-- A yielded event: a `step` checkpoint, a `log` message, or the final
`path` event carrying a path or the not-found `None`. -/
inductive SEvent : Type where
  | step
  | log
  | pathE (p : Option (List Action))
deriving DecidableEq

/-- Is this the `path` event? -/
def SEvent.isPath : SEvent → Bool
  | .pathE _ => true
  | _ => false

/-- Outcome of a step-loop besides its events. -/
inductive StepOutc : Type where
  | found (p : List Action)
  | exhausted
  | out
deriving DecidableEq

/-- Successor loop of `bfs_step`'s first `while`: unlike `bfs`, it also
marks generated states explored. -/
def bfsStepScan (goal : Cell) (node : Node) :
    List (Cell × Action × Nat) → List Node → Finset Cell →
    (List Action) ⊕ (List Node × Finset Cell)
  | [], q, E => .inr (q, E)
  | (s, a, c) :: rest, q, E =>
    if s ∉ E ∧ s ∉ states q then
      let ch := Node.child s node a (node.cost + c) (node.depth + 1)
      if ch.state = goal then .inl (reconstruct_path ch)
      else bfsStepScan goal node rest (q ++ [ch]) (insert s E)
    else bfsStepScan goal node rest q E

/-- First `while frontier:` loop of `bfs_step`: a `step` event per
dequeue. -/
def bfsStepLoop1 (goal : Cell) (gs : GridSize) :
    Nat → List Node → Finset Cell → List SEvent × StepOutc
  | 0, _, _ => ([], .out)
  | _ + 1, [], _ => ([], .exhausted)
  | fuel + 1, node :: rest, E =>
    match bfsStepScan goal node (get_successors node.state gs) rest E with
    | .inl p => ([.step], .found p)
    | .inr (q', E') =>
      let r := bfsStepLoop1 goal gs fuel q' E'
      (.step :: r.1, r.2)

/-- Second `while frontier:` loop of `bfs_step` (the re-run with `bfs`'s
own bookkeeping, reached only when the first loop exhausts). -/
def bfsStepLoop2 (goal : Cell) (gs : GridSize) :
    Nat → List Node → Finset Cell → List SEvent × StepOutc
  | 0, _, _ => ([], .out)
  | _ + 1, [], _ => ([], .exhausted)
  | fuel + 1, node :: rest, E =>
    let E' := insert node.state E
    match bfsScan goal node (get_successors node.state gs) rest E' with
    | .inl p => ([.step], .found p)
    | .inr q' =>
      let r := bfsStepLoop2 goal gs fuel q' E'
      (.step :: r.1, r.2)

/-- Fuel for the `bfs_step` loops. -/
def bfsStepFuel (gs : GridSize) : Nat := 7 * (gs.1.toNat * gs.2.toNat) + 16

/-- `bfs_step`: event list of the generator. -/
def bfs_step (start goal : Cell) (gs : GridSize) : List SEvent :=
  if start = goal then [.pathE (some [])]
  else
    match bfsStepLoop1 goal gs (bfsStepFuel gs) [Node.root start] {start} with
    | (evs, .found p) => .step :: (evs ++ [.pathE (some p)])
    | (evs, .out) => .step :: evs
    | (evs, .exhausted) =>
      match bfsStepLoop2 goal gs (bfsStepFuel gs) [Node.root start] ∅ with
      | (evs2, .found p) => .step :: (evs ++ evs2 ++ [.pathE (some p)])
      | (evs2, .exhausted) => .step :: (evs ++ evs2 ++ [.pathE none])
      | (evs2, .out) => .step :: (evs ++ evs2)

/-- The `while frontier:` loop of `dfs_step`: identical traversal to
`dfs`, with a `step` event per expansion and the `path` event yielded
in place. -/
def dfsStepLoop (goal : Cell) (gs : GridSize) :
    Nat → List Node → Finset Cell → List SEvent
  | 0, _, _ => []
  | _ + 1, [], _ => [.pathE none]
  | fuel + 1, node :: rest, E =>
    if node.state = goal then [.pathE (some (reconstruct_path node))]
    else if node.state ∈ E then dfsStepLoop goal gs fuel rest E
    else .step ::
      dfsStepLoop goal gs fuel (dfsChildren node gs (insert node.state E) ++ rest)
        (insert node.state E)

/-- `dfs_step`: one initial `step` event, then the loop. -/
def dfs_step (start goal : Cell) (gs : GridSize) : List SEvent :=
  .step :: dfsStepLoop goal gs (dfsFuel gs) [Node.root start] ∅

/-- The `while frontier:` loop of `ucs_step`: identical traversal to
`ucs`. -/
def ucsStepLoop (goal : Cell) (gs : GridSize) :
    Nat → List Node → Finset Cell → List SEvent
  | 0, _, _ => []
  | fuel + 1, heap, E =>
    match heappop heap with
    | none => [.pathE none]
    | some (node, heap') =>
      if node.state = goal then [.pathE (some (reconstruct_path node))]
      else if node.state ∈ E then ucsStepLoop goal gs fuel heap' E
      else .step ::
        ucsStepLoop goal gs fuel (ucsPush node gs (insert node.state E) heap')
          (insert node.state E)

/-- `ucs_step`: one initial `step` event, then the loop. -/
def ucs_step (start goal : Cell) (gs : GridSize) : List SEvent :=
  .step :: ucsStepLoop goal gs (ucsFuel gs) [Node.root start] ∅

/-- Successor loop of `recursive_dls_step`: forward the child's events
(children searched via `rec`, one level deeper); stop as soon as a child
signals found. -/
def dlsStepGo (rec : Node → Finset Cell → List SEvent × Bool × Finset Cell)
    (node : Node) :
    List (Cell × Action × Nat) → Finset Cell → List SEvent × Bool × Finset Cell
  | [], ps => ([], false, ps.erase node.state)
  | (s, a, c) :: rest, ps =>
    if s ∈ ps then dlsStepGo rec node rest ps
    else
      match rec (Node.child s node a (node.cost + c) (node.depth + 1)) ps with
      | (evs, true, ps') => (evs, true, ps')
      | (evs, false, ps') =>
        (evs ++ (dlsStepGo rec node rest ps').1, (dlsStepGo rec node rest ps').2)

/-- `recursive_dls_step`: a `step` event on entry to every visit; on
reaching the goal it yields the `path` event and signals found (`true`).
No `path` event is yielded on cutoff or exhaustion. -/
def recursive_dls_step (node : Node) (goal : Cell) (gs : GridSize)
    (limit : Nat) (ps : Finset Cell) : List SEvent × Bool × Finset Cell :=
  if node.state = goal then
    ([.step, .pathE (some (reconstruct_path node))], true, ps)
  else
    match limit with
    | 0 => ([.step], false, ps)
    | lim + 1 =>
      (.step :: (dlsStepGo (fun n ps' => recursive_dls_step n goal gs lim ps')
          node (get_successors node.state gs) (insert node.state ps)).1,
        (dlsStepGo (fun n ps' => recursive_dls_step n goal gs lim ps')
          node (get_successors node.state gs) (insert node.state ps)).2)

/-- `dls_step`: delegate to `recursive_dls_step` from a fresh root. -/
def dls_step (start goal : Cell) (gs : GridSize) (limit : Nat) : List SEvent :=
  (recursive_dls_step (Node.root start) goal gs limit ∅).1

/-- The depth loop of `iddfs_step`: a `log` event per depth, the depth's
`dls_step` events, stopping at the first depth that yields a `path`
event. -/
def iddfsStepGo (start goal : Cell) (gs : GridSize) : List Nat → List SEvent
  | [] => [.pathE none]
  | d :: ds =>
    if (dls_step start goal gs d).any SEvent.isPath then
      .log :: dls_step start goal gs d
    else .log :: (dls_step start goal gs d ++ iddfsStepGo start goal gs ds)

/-- `iddfs_step` with its default depth ceiling 1000. -/
def iddfs_step (start goal : Cell) (gs : GridSize) (max_depth : Nat := 1000) :
    List SEvent :=
  iddfsStepGo start goal gs (List.range max_depth)

/-- The loop of `bidirectional_search_step`: a `step` event per pop, the
`path` event yielded in place; identical traversal to
`bidirectional_search`. -/
def bidiStepLoop (gs : GridSize) :
    Nat → List Node → List (Cell × Node) → List Node → List (Cell × Node) →
    List SEvent
  | 0, _, _, _, _ => []
  | _ + 1, [], _, _, _ => [.pathE none]
  | _ + 1, _ :: _, _, [], _ => [.pathE none]
  | fuel + 1, fnode :: frest, fE, bnode :: brest, bE =>
    .step ::
      match bidiScanF fnode (get_successors fnode.state gs) frest fE bE with
      | .inl p => [.pathE (some p)]
      | .inr (fq', fE') =>
        .step ::
          match bidiScanB bnode (get_successors bnode.state gs) brest bE fE' with
          | .inl p => [.pathE (some p)]
          | .inr (bq', bE') => bidiStepLoop gs fuel fq' fE' bq' bE'

/-- `bidirectional_search_step`. -/
def bidirectional_search_step (start goal : Cell) (gs : GridSize) :
    List SEvent :=
  if start = goal then [.pathE (some [])]
  else
    bidiStepLoop gs (bidiFuel gs)
      [Node.root start] [(start, Node.root start)]
      [Node.root goal] [(goal, Node.root goal)]

/-! ## Helper notions for the properties -/

/-- The payload of a batch result, for comparison with a `path` event. -/
def SearchOut.payload : SearchOut → Option (List Action)
  | .found p => some p
  | _ => none

/-- The grid's cells as a finite set. -/
def cellsFin (gs : GridSize) : Finset Cell :=
  ((Finset.range gs.1.toNat) ×ˢ (Finset.range gs.2.toNat)).image
    fun p => ((p.1 : Int), (p.2 : Int))

/-- Cells reachable from `s` in at most `n` moves (cumulative layers). -/
def reachSet (gs : GridSize) (s : Cell) : Nat → Finset Cell
  | 0 => {s}
  | n + 1 =>
    reachSet gs s n ∪
      (reachSet gs s n).biUnion
        fun c => ((get_successors c gs).map (·.1)).toFinset

/-- Vertical move toward a displacement. -/
def vAct (d : Int) : Action := if d < 0 then .up else .bottom

/-- Horizontal move toward a displacement. -/
def hAct (d : Int) : Action := if d < 0 then .left else .right

/-- An orthogonal staircase path from `s` to `g`: all vertical moves,
then all horizontal moves. -/
def staircase (s g : Cell) : List Action :=
  List.replicate (g.1 - s.1).natAbs (vAct (g.1 - s.1)) ++
    List.replicate (g.2 - s.2).natAbs (hAct (g.2 - s.2))

/-- A move sequence with no diagonal moves. -/
def Orthogonal (p : List Action) : Prop :=
  ∀ a ∈ p, a ≠ Action.bottomRight ∧ a ≠ Action.topLeft

/-- The binary-heap ordering invariant maintained by `heapq`: every
element is at least its parent, comparing by `Node.cost` (the `__lt__`
key of the `Node` class). -/
def heapProp (l : List Node) : Prop :=
  ∀ i, 0 < i → i < l.length →
    (l.getD ((i - 1) / 2) dummy).cost ≤ (l.getD i dummy).cost

/-- `c` is the minimal scaled path cost from `s` to `g`. -/
def IsMinCost (gs : GridSize) (s g : Cell) (c : Nat) : Prop :=
  (∃ p, ValidPath gs s g p ∧ costOf p = c) ∧
    ∀ p, ValidPath gs s g p → c ≤ costOf p

/-- Scaled cost of a cheapest unobstructed route for a displacement:
every move costs 2 with `min |Δr| |Δc|` of them upgraded to diagonals
(cost 3 but covering both axes) when the displacements point the same
way along both axes. -/
def geoCost (dr dc : Int) : Nat :=
  2 * (dr.natAbs + dc.natAbs) -
    (if (0 < dr ∧ 0 < dc) ∨ (dr < 0 ∧ dc < 0) then min dr.natAbs dc.natAbs
     else 0)

/-- The number of moves of one kind in a move sequence (for counting
orthogonal versus diagonal moves). -/
def countA (a : Action) : List Action → Nat
  | [] => 0
  | b :: p => countA a p + (if b = a then 1 else 0)

/-- Chain and depth bookkeeping together. -/
def nodeOk (gs : GridSize) (r : Cell) (n : Node) : Prop :=
  chainOk gs r n ∧ depthOk n

/-- What a search can hand back: a well-formed chain ending at the goal. -/
def GoalChain (gs : GridSize) (r goal : Cell) (p : List Action) : Prop :=
  ∃ n : Node, nodeOk gs r n ∧ n.state = goal ∧ p = reconstruct_path n

/-- Invariant of an explored map rooted at `r`: every recorded node has a
well-formed chain and is keyed by its own state. -/
def mapOk (gs : GridSize) (r : Cell) (m : List (Cell × Node)) : Prop :=
  ∀ kn ∈ m, chainOk gs r kn.2 ∧ kn.2.state = kn.1

/-- A merged path: a forward chain from `start` and a backward chain from
`goal` meeting at a common state. -/
def BidiMerge (gs : GridSize) (start goal : Cell) (p : List Action) : Prop :=
  ∃ f b : Node, chainOk gs start f ∧ chainOk gs goal b ∧ f.state = b.state ∧
    p = merge_paths f b

/-- The set of keys recorded in an explored map. -/
def keysF (m : List (Cell × Node)) : Finset Cell := (m.map (·.1)).toFinset

/-- The batch outcome as a step-loop outcome. -/
def outcomeOf : SearchOut → StepOutc
  | .found p => .found p
  | .noPath => .exhausted
  | .out => .out

/-! ## Basic lemmas about moves, successors and chains -/

theorem stepMove_eq_some {gs : GridSize} {c t : Cell} {a : Action} :
    stepMove gs c a = some t ↔ applyMove c a = t ∧ inBounds gs t := by
  unfold stepMove
  split <;> rename_i h
  · constructor
    · rintro ⟨rfl⟩; exact ⟨rfl, h⟩
    · rintro ⟨rfl, -⟩; rfl
  · constructor
    · rintro ⟨⟩
    · rintro ⟨rfl, hb⟩; exact absurd hb h

theorem mem_actionOrder (a : Action) : a ∈ actionOrder := by
  cases a <;> simp [actionOrder]

theorem mem_get_successors {s : Cell} {gs : GridSize} {t : Cell} {a : Action}
    {c : Nat} :
    (t, a, c) ∈ get_successors s gs ↔ stepMove gs s a = some t ∧ c = costH a := by
  unfold get_successors
  rw [List.mem_filterMap]
  constructor
  · rintro ⟨a', -, h⟩
    split at h
    · rename_i hb
      simp only [Option.some.injEq, Prod.mk.injEq] at h
      obtain ⟨h1, h2, h3⟩ := h
      subst h2; subst h1
      exact ⟨stepMove_eq_some.mpr ⟨rfl, hb⟩, h3.symm⟩
    · simp at h
  · rintro ⟨hsm, rfl⟩
    obtain ⟨h1, h2⟩ := stepMove_eq_some.mp hsm
    exact ⟨a, mem_actionOrder a, by subst h1; rw [if_pos h2]⟩

/-- Every generated successor state lies within grid bounds. -/
theorem succ_inBounds {s : Cell} {gs : GridSize} {sac : Cell × Action × Nat}
    (h : sac ∈ get_successors s gs) : inBounds gs sac.1 := by
  obtain ⟨t, a, c⟩ := sac
  exact (stepMove_eq_some.mp (mem_get_successors.mp h).1).2

theorem replay_append (gs : GridSize) (c : Cell) (p q : List Action) :
    replay gs c (p ++ q) =
      match replay gs c p with
      | none => none
      | some m => replay gs m q := by
  induction p generalizing c with
  | nil => simp [replay]
  | cons a p ih =>
    simp only [List.cons_append, replay]
    cases stepMove gs c a with
    | none => rfl
    | some t => exact ih t

theorem reconstruct_child (s : Cell) (p : Node) (a : Action) (c d : Nat) :
    reconstruct_path (.child s p a c d) = reconstruct_path p ++ [a] := by
  simp [reconstruct_path, reconAux]

/-- A well-formed chain's reconstructed path replays from the root cell to
the node's state. -/
theorem chainOk_replay {gs : GridSize} {r : Cell} {n : Node}
    (h : chainOk gs r n) : replay gs r (reconstruct_path n) = some n.state := by
  induction n with
  | root s => simpa [reconstruct_path, reconAux, replay, Node.state] using h.symm
  | child s p a c d ih =>
    obtain ⟨hp, hs, -⟩ := h
    rw [reconstruct_child, replay_append, ih hp]
    simp [replay, hs]

/-- The total cost along a well-formed chain. -/
theorem chainOk_cost {gs : GridSize} {r : Cell} {n : Node}
    (h : chainOk gs r n) : n.cost = costOf (reconstruct_path n) := by
  induction n with
  | root s => simp [reconstruct_path, reconAux, costOf, Node.cost]
  | child s p a c d ih =>
    obtain ⟨hp, -, hc⟩ := h
    rw [reconstruct_child, Node.cost, hc, ih hp]
    simp [costOf]

/-- The length of a chain's path equals its depth when depths are
book-kept. -/
theorem depthOk_length {n : Node} (h : depthOk n) :
    (reconstruct_path n).length = n.depth := by
  induction n with
  | root s => simp [reconstruct_path, reconAux, Node.depth]
  | child s p a c d ih =>
    obtain ⟨hp, hd⟩ := h
    rw [reconstruct_child, Node.depth, hd]
    simp [ih hp]

/-- The inverse move undoes a move, coordinate-wise. -/
theorem applyMove_inverse (c : Cell) (a : Action) :
    applyMove (applyMove c a) (get_inverse_action a) = c := by
  obtain ⟨x, y⟩ := c
  cases a <;> simp [applyMove, get_inverse_action, delta]

/-- Along a well-formed chain every node's state is in bounds, provided
the root cell is. -/
theorem chainOk_state_inBounds {gs : GridSize} {r : Cell} {n : Node}
    (h : chainOk gs r n) (hr : inBounds gs r) : inBounds gs n.state := by
  cases n with
  | root s => rwa [Node.state, show s = r from h]
  | child s p a c d => exact (stepMove_eq_some.mp h.2.1).2

/-- The inverted backward walk replays from the node's state to the chain
root (used for the backward half of `merge_paths`). -/
theorem backPath_replay {gs : GridSize} {r : Cell} {n : Node}
    (h : chainOk gs r n) (hr : inBounds gs r) :
    replay gs n.state (backPath n) = some r := by
  induction n with
  | root s => simp [backPath, replay, Node.state, show s = r from h]
  | child s p a c d ih =>
    obtain ⟨hp, hs, -⟩ := h
    obtain ⟨ha, -⟩ := stepMove_eq_some.mp hs
    have hps : inBounds gs p.state := chainOk_state_inBounds hp hr
    have hstep : stepMove gs s (get_inverse_action a) = some p.state := by
      rw [stepMove_eq_some]
      refine ⟨?_, hps⟩
      rw [← ha, applyMove_inverse]
    rw [Node.state, backPath]
    simp only [replay, hstep]
    exact ih hp

/-! ## C9: `start == goal` returns the empty path immediately -/

theorem reconstruct_root (s : Cell) : reconstruct_path (.root s) = [] := rfl

/-- **C9.** For every in-bounds cell `c`, every grid size and every depth
limit, each of the six batch algorithms called with `start = goal = c`
returns the empty path at its first opportunity: `bfs` and
`bidirectional_search` by their explicit `start == goal` guards before
any expansion, `dfs` and `ucs` at the goal test of the very first pop,
and `recursive_dls` (hence `dls` at every limit, including 0, and
`iddfs` at depth 0) at the goal test that precedes the limit check. -/
theorem C9_start_eq_goal (gs : GridSize) (c : Cell) (_hc : inBounds gs c)
    (limit : Nat) :
    bfs c c gs = .found [] ∧ dfs c c gs = .found [] ∧ ucs c c gs = .found [] ∧
    dls c c gs limit = .found [] ∧ iddfs c c gs = .found [] ∧
    bidirectional_search c c gs = .found [] := by
  have hdls : ∀ l : Nat, dls c c gs l = .found [] := by
    intro l
    unfold dls
    rw [recursive_dls.eq_def]
    simp [reconstruct_root]
  refine ⟨by simp [bfs], ?_, ?_, hdls limit, ?_, by simp [bidirectional_search]⟩
  · have h1 : dfsFuel gs = (7 * (gs.1.toNat * gs.2.toNat) + 15) + 1 := by
      unfold dfsFuel; omega
    rw [dfs, h1]
    simp [dfsLoop, reconstruct_root]
  · have h1 : ucsFuel gs = (7 * (gs.1.toNat * gs.2.toNat) + 15) + 1 := by
      unfold ucsFuel; omega
    rw [ucs, h1]
    simp [ucsLoop, heappop, reconstruct_root]
  · rw [iddfs, show (1000 : Nat) = 999 + 1 by norm_num, List.range_succ_eq_map]
    simp [iddfsGo, hdls 0]

/-- Witness for C9 at a concrete cell and grid. -/
theorem C9_start_eq_goal_witness :
    inBounds ((3 : Int), (3 : Int)) ((1 : Int), (1 : Int)) ∧
      (bfs (1, 1) (1, 1) (3, 3) = .found [] ∧
        dfs (1, 1) (1, 1) (3, 3) = .found [] ∧
        ucs (1, 1) (1, 1) (3, 3) = .found [] ∧
        dls (1, 1) (1, 1) (3, 3) 0 = .found [] ∧
        iddfs (1, 1) (1, 1) (3, 3) = .found [] ∧
        bidirectional_search (1, 1) (1, 1) (3, 3) = .found []) :=
  ⟨by decide, C9_start_eq_goal (3, 3) (1, 1) (by decide) 0⟩

/-! ## C1: every returned path replays from start to goal

The per-algorithm invariant: every node the algorithm manipulates has a
well-formed parent chain back to the start (for the backward
bidirectional frontier: back to the goal). -/

theorem nodeOk_root (gs : GridSize) (r : Cell) : nodeOk gs r (.root r) :=
  ⟨rfl, trivial⟩

/-- Expanding a node by a generated successor preserves `nodeOk`. -/
theorem nodeOk_child {gs : GridSize} {r : Cell} {node : Node}
    (hn : nodeOk gs r node) {s : Cell} {a : Action} {c : Nat}
    (hs : (s, a, c) ∈ get_successors node.state gs) :
    nodeOk gs r (.child s node a (node.cost + c) (node.depth + 1)) := by
  obtain ⟨hsm, rfl⟩ := mem_get_successors.mp hs
  exact ⟨⟨hn.1, hsm, rfl⟩, hn.2, rfl⟩

/-- Same, without depth bookkeeping (for `bidirectional_search`, whose
children carry depth 0). -/
theorem chainOk_child {gs : GridSize} {r : Cell} {node : Node}
    (hn : chainOk gs r node) {s : Cell} {a : Action} {c d : Nat}
    (hs : (s, a, c) ∈ get_successors node.state gs) :
    chainOk gs r (.child s node a (node.cost + c) d) := by
  obtain ⟨hsm, rfl⟩ := mem_get_successors.mp hs
  exact ⟨hn, hsm, rfl⟩

theorem GoalChain.replay {gs : GridSize} {r goal : Cell} {p : List Action}
    (h : GoalChain gs r goal p) : replay gs r p = some goal := by
  obtain ⟨n, hn, hgoal, rfl⟩ := h
  rw [chainOk_replay hn.1, hgoal]

/-- The `bfs` successor scan returns well-formed data. -/
theorem bfsScan_ok {gs : GridSize} {r goal : Cell} {node : Node}
    (hn : nodeOk gs r node) :
    ∀ {succs : List (Cell × Action × Nat)} {q : List Node} {E : Finset Cell},
      (∀ sac ∈ succs, sac ∈ get_successors node.state gs) →
      (∀ n ∈ q, nodeOk gs r n) →
      (∀ p, bfsScan goal node succs q E = .inl p → GoalChain gs r goal p) ∧
      (∀ q', bfsScan goal node succs q E = .inr q' → ∀ n ∈ q', nodeOk gs r n) := by
  intro succs
  induction succs with
  | nil =>
    intro q E _ hq
    refine ⟨?_, ?_⟩
    · intro p h
      rw [bfsScan] at h
      cases h
    · intro q' h
      rw [bfsScan] at h
      cases h
      exact hq
  | cons sac rest ih =>
    intro q E hsub hq
    obtain ⟨s, a, c⟩ := sac
    have hmem : (s, a, c) ∈ get_successors node.state gs :=
      hsub _ (List.mem_cons_self ..)
    have hch : nodeOk gs r (.child s node a (node.cost + c) (node.depth + 1)) :=
      nodeOk_child hn hmem
    have hsub' : ∀ sac ∈ rest, sac ∈ get_successors node.state gs :=
      fun x hx => hsub x (List.mem_cons_of_mem _ hx)
    simp only [bfsScan]
    split
    · split
      · rename_i hgoal
        constructor
        · intro p h
          injection h with h
          exact ⟨_, hch, hgoal, h.symm⟩
        · intro q' h; cases h
      · exact ih hsub'
          (fun n hm => by
            rcases List.mem_append.mp hm with h | h
            · exact hq n h
            · rw [List.mem_singleton.mp h]; exact hch)
    · exact ih hsub' hq

/-- Any path found by the `bfs` loop is a goal chain. -/
theorem bfsLoop_ok {gs : GridSize} {r goal : Cell} :
    ∀ {fuel : Nat} {q : List Node} {E : Finset Cell},
      (∀ n ∈ q, nodeOk gs r n) →
      ∀ p, bfsLoop goal gs fuel q E = .found p → GoalChain gs r goal p := by
  intro fuel
  induction fuel with
  | zero => intro q E _ p h; cases h
  | succ fuel ih =>
    intro q E hq p h
    match q with
    | [] => cases h
    | node :: rest =>
      have hnode := hq node (List.mem_cons_self ..)
      have hrest : ∀ n ∈ rest, nodeOk gs r n :=
        fun n hm => hq n (List.mem_cons_of_mem _ hm)
      rw [bfsLoop] at h
      rcases hscan : bfsScan goal node (get_successors node.state gs) rest
          (insert node.state E) with p' | q'
      · rw [hscan] at h
        cases h
        exact (bfsScan_ok hnode (fun _ hx => hx) hrest).1 _ hscan
      · rw [hscan] at h
        exact ih ((bfsScan_ok hnode (fun _ hx => hx) hrest).2 _ hscan) p h

/-- `bfs` only returns goal chains. -/
theorem bfs_found_chain {start goal : Cell} {gs : GridSize} {p : List Action}
    (h : bfs start goal gs = .found p) : GoalChain gs start goal p := by
  unfold bfs at h
  split at h
  · rename_i heq
    cases h
    exact ⟨.root start, nodeOk_root gs start, heq, rfl⟩
  · exact bfsLoop_ok (fun n hm => by
      rw [List.mem_singleton.mp hm]; exact nodeOk_root gs start) p h

theorem bfs_found_goalChain {start goal : Cell} {gs : GridSize} {p : List Action}
    (h : bfs start goal gs = .found p) : replay gs start p = some goal :=
  (bfs_found_chain h).replay

/-- The children pushed by one `dfs` expansion are well-formed. -/
theorem dfsChildren_ok {gs : GridSize} {r : Cell} {node : Node}
    (hn : nodeOk gs r node) (E : Finset Cell) :
    ∀ n ∈ dfsChildren node gs E, nodeOk gs r n := by
  intro n hm
  obtain ⟨⟨s, a, c⟩, hs, hn'⟩ := List.mem_filterMap.mp hm
  split at hn'
  · cases hn'
  · cases hn'
    exact nodeOk_child hn hs

/-- Any path found by the `dfs` loop is a goal chain. -/
theorem dfsLoop_ok {gs : GridSize} {r goal : Cell} :
    ∀ {fuel : Nat} {q : List Node} {E : Finset Cell},
      (∀ n ∈ q, nodeOk gs r n) →
      ∀ p, dfsLoop goal gs fuel q E = .found p → GoalChain gs r goal p := by
  intro fuel
  induction fuel with
  | zero => intro q E _ p h; cases h
  | succ fuel ih =>
    intro q E hq p h
    match q with
    | [] => cases h
    | node :: rest =>
      have hnode := hq node (List.mem_cons_self ..)
      have hrest : ∀ n ∈ rest, nodeOk gs r n :=
        fun n hm => hq n (List.mem_cons_of_mem _ hm)
      rw [dfsLoop] at h
      split at h
      · rename_i hgoal
        cases h
        exact ⟨node, hnode, hgoal, rfl⟩
      · split at h
        · exact ih hrest p h
        · refine ih (fun n hm => ?_) p h
          rcases List.mem_append.mp hm with h' | h'
          · exact dfsChildren_ok hnode _ n h'
          · exact hrest n h'

/-- `dfs` only returns goal chains. -/
theorem dfs_found_chain {start goal : Cell} {gs : GridSize} {p : List Action}
    (h : dfs start goal gs = .found p) : GoalChain gs start goal p :=
  dfsLoop_ok (fun n hm => by
    rw [List.mem_singleton.mp hm]; exact nodeOk_root gs start) p h

theorem dfs_found_goalChain {start goal : Cell} {gs : GridSize} {p : List Action}
    (h : dfs start goal gs = .found p) : replay gs start p = some goal :=
  (dfs_found_chain h).replay

/-- Any path found by `recursive_dls` is a goal chain; proved mutually
with the corresponding fact about its successor loop. -/
theorem recursive_dls_ok {gs : GridSize} {r goal : Cell} :
    ∀ (limit : Nat) {node : Node} {ps : Finset Cell}, nodeOk gs r node →
      ∀ {p ps'}, recursive_dls node goal gs limit ps = (.found p, ps') →
      GoalChain gs r goal p := by
  intro limit
  induction limit with
  | zero =>
    intro node ps hn p ps' h
    rw [recursive_dls.eq_def] at h
    split at h
    · rename_i hgoal
      cases h
      exact ⟨node, hn, hgoal, rfl⟩
    · cases h
  | succ lim ih =>
    intro node ps hn p ps' h
    rw [recursive_dls.eq_def] at h
    split at h
    · rename_i hgoal
      cases h
      exact ⟨node, hn, hgoal, rfl⟩
    · -- the successor loop; induction over the successor list
      have go : ∀ (succs : List (Cell × Action × Nat)) (ps0 : Finset Cell)
          (cut : Bool), (∀ sac ∈ succs, sac ∈ get_successors node.state gs) →
          dlsGo (fun n ps'' => recursive_dls n goal gs lim ps'') node succs
            ps0 cut = (.found p, ps') →
          GoalChain gs r goal p := by
        intro succs
        induction succs with
        | nil =>
          intro ps0 cut _ hgo
          rw [dlsGo, Prod.mk.injEq] at hgo
          rcases hgo with ⟨h1, -⟩
          split at h1 <;> simp at h1
        | cons sac rest ihs =>
          intro ps0 cut hsub hgo
          obtain ⟨s, a, c⟩ := sac
          have hmem : (s, a, c) ∈ get_successors node.state gs :=
            hsub _ (List.mem_cons_self ..)
          have hsub' : ∀ sac ∈ rest, sac ∈ get_successors node.state gs :=
            fun x hx => hsub x (List.mem_cons_of_mem _ hx)
          simp only [dlsGo] at hgo
          split at hgo
          · exact ihs _ _ hsub' hgo
          · rcases hrec : recursive_dls
                (Node.child s node a (node.cost + c) (node.depth + 1))
                goal gs lim ps0 with ⟨res, psr⟩
            rw [hrec] at hgo
            match res, hgo with
            | .found p0, hgo =>
              cases hgo
              exact ih (nodeOk_child hn hmem) hrec
            | .cutoff, hgo => exact ihs _ _ hsub' hgo
            | .noPath, hgo => exact ihs _ _ hsub' hgo
      exact go _ _ _ (fun _ hx => hx) h

/-- `dls` only returns goal chains. -/
theorem dls_found_chain {start goal : Cell} {gs : GridSize} {limit : Nat}
    {p : List Action} (h : dls start goal gs limit = .found p) :
    GoalChain gs start goal p := by
  unfold dls at h
  rcases hrec : recursive_dls (Node.root start) goal gs limit ∅ with ⟨res, ps'⟩
  rw [hrec] at h
  cases res with
  | found p0 =>
    cases h
    exact recursive_dls_ok limit (nodeOk_root gs start) hrec
  | cutoff => cases h
  | noPath => cases h

theorem dls_found_goalChain {start goal : Cell} {gs : GridSize} {limit : Nat}
    {p : List Action} (h : dls start goal gs limit = .found p) :
    replay gs start p = some goal :=
  (dls_found_chain h).replay

/-- `iddfs` only returns goal chains. -/
theorem iddfs_found_chain {start goal : Cell} {gs : GridSize}
    {p : List Action} {md : Nat} (h : iddfs start goal gs md = .found p) :
    GoalChain gs start goal p := by
  unfold iddfs at h
  generalize List.range md = ds at h
  induction ds with
  | nil => cases h
  | cons d ds ihd =>
    rw [iddfsGo] at h
    rcases hd : dls start goal gs d with p0 | - | -
    · rw [hd] at h
      cases h
      exact dls_found_chain hd
    · rw [hd] at h
      exact ihd h
    · rw [hd] at h
      exact ihd h

theorem iddfs_found_goalChain {start goal : Cell} {gs : GridSize}
    {p : List Action} {md : Nat} (h : iddfs start goal gs md = .found p) :
    replay gs start p = some goal :=
  (iddfs_found_chain h).replay

/-! ## Membership and length facts about the `heapq` operations -/

theorem siftdown_length (newitem : Node) (sp : Nat) :
    ∀ (pos : Nat) (l : List Node),
      (siftdown newitem sp pos l).length = l.length := by
  intro pos
  induction pos using Nat.strong_induction_on with
  | _ pos ih =>
    intro l
    rw [siftdown]
    split
    · split
      · rw [ih _ (by omega)]
        exact List.length_set ..
      · exact List.length_set ..
    · exact List.length_set ..

theorem siftdown_mem (newitem : Node) (sp : Nat) :
    ∀ (pos : Nat) (l : List Node), pos < l.length →
      ∀ x ∈ siftdown newitem sp pos l, x ∈ l ∨ x = newitem := by
  intro pos
  induction pos using Nat.strong_induction_on with
  | _ pos ih =>
    intro l hpos x hx
    rw [siftdown] at hx
    split at hx
    · rename_i hsp
      split at hx
      · have hpar : (pos - 1) / 2 <
            (l.set pos (l.getD ((pos - 1) / 2) dummy)).length := by
          rw [List.length_set]; omega
        rcases ih _ (by omega) _ hpar x hx with h | h
        · rcases List.mem_or_eq_of_mem_set h with h' | h'
          · exact Or.inl h'
          · subst h'
            refine Or.inl ?_
            rw [List.getD_eq_getElem _ _ (by omega)]
            exact List.getElem_mem _
        · exact Or.inr h
      · rcases List.mem_or_eq_of_mem_set hx with h | h
        · exact Or.inl h
        · exact Or.inr h
    · rcases List.mem_or_eq_of_mem_set hx with h | h
      · exact Or.inl h
      · exact Or.inr h

theorem siftupChild_bounds {len pos : Nat} (l : List Node)
    (h : 2 * pos + 1 < len) :
    pos < siftupChild len pos l ∧ siftupChild len pos l < len := by
  unfold siftupChild; split <;> omega

theorem siftupLoop_facts (len : Nat) :
    ∀ (pos : Nat) (l : List Node), len = l.length → pos < len →
      (siftupLoop len pos l).1 < len ∧
      (siftupLoop len pos l).2.length = l.length ∧
      ∀ x ∈ (siftupLoop len pos l).2, x ∈ l := by
  have key : ∀ (k pos : Nat) (l : List Node), len - pos ≤ k →
      len = l.length → pos < len →
      (siftupLoop len pos l).1 < len ∧
      (siftupLoop len pos l).2.length = l.length ∧
      ∀ x ∈ (siftupLoop len pos l).2, x ∈ l := by
    intro k
    induction k with
    | zero => intro pos l hk _ hpos; exfalso; omega
    | succ k ihk =>
      intro pos l hk hlen hpos
      rw [siftupLoop]
      split
      · rename_i hchild
        obtain ⟨hgt, hlt⟩ := siftupChild_bounds l hchild
        have hlen' : len =
            (l.set pos (l.getD (siftupChild len pos l) dummy)).length := by
          rw [List.length_set]; exact hlen
        obtain ⟨h1, h2, h3⟩ := ihk (siftupChild len pos l) _ (by omega) hlen' hlt
        refine ⟨h1, by rw [h2, List.length_set], fun x hx => ?_⟩
        rcases List.mem_or_eq_of_mem_set (h3 x hx) with h' | h'
        · exact h'
        · subst h'
          rw [List.getD_eq_getElem _ _ (by omega)]
          exact List.getElem_mem _
      · exact ⟨hpos, rfl, fun x hx => hx⟩
  intro pos l
  exact key (len - pos) pos l le_rfl

theorem siftup_mem (pos : Nat) (l : List Node) (hpos : pos < l.length) :
    ∀ x ∈ siftup pos l, x ∈ l := by
  intro x hx
  rw [siftup] at hx
  obtain ⟨h1, h2, h3⟩ := siftupLoop_facts l.length pos l rfl hpos
  have hset : (siftupLoop l.length pos l).1 <
      ((siftupLoop l.length pos l).2.set (siftupLoop l.length pos l).1
        (l.getD pos dummy)).length := by
    rw [List.length_set, h2]; exact h1
  rcases siftdown_mem _ _ _ _ hset x hx with h | h
  · rcases List.mem_or_eq_of_mem_set h with h' | h'
    · exact h3 x h'
    · subst h'
      rw [List.getD_eq_getElem _ _ hpos]
      exact List.getElem_mem _
  · subst h
    rw [List.getD_eq_getElem _ _ hpos]
    exact List.getElem_mem _

theorem heappush_mem (l : List Node) (item : Node) :
    ∀ x ∈ heappush l item, x ∈ l ∨ x = item := by
  intro x hx
  rw [heappush] at hx
  have hlen : l.length < (l ++ [item]).length := by
    rw [List.length_append]; simp
  rcases siftdown_mem _ _ _ _ hlen x hx with h | h
  · rcases List.mem_append.mp h with h' | h'
    · exact Or.inl h'
    · exact Or.inr (List.mem_singleton.mp h')
  · exact Or.inr h

theorem heappop_mem {l : List Node} {n : Node} {l' : List Node}
    (h : heappop l = some (n, l')) : n ∈ l ∧ ∀ x ∈ l', x ∈ l := by
  unfold heappop at h
  split at h
  · cases h
  · rename_i lastelt hlast
    have hlmem : lastelt ∈ l := List.mem_of_mem_getLast? (by rw [hlast]; rfl)
    split at h
    · cases h
      exact ⟨hlmem, fun x hx => absurd hx (List.not_mem_nil x)⟩
    · rename_i hne
      cases h
      have hdroplen : 0 < l.dropLast.length := by
        cases hd : l.dropLast with
        | nil => rw [hd] at hne; simp at hne
        | cons y ys => simp
      constructor
      · rw [List.getD_eq_getElem _ _ hdroplen]
        exact (List.dropLast_sublist l).subset (List.getElem_mem _)
      · intro x hx
        have hpos : (0 : Nat) < (l.dropLast.set 0 lastelt).length := by
          rw [List.length_set]; exact hdroplen
        rcases List.mem_or_eq_of_mem_set (siftup_mem 0 _ hpos x hx) with h' | h'
        · exact (List.dropLast_sublist l).subset h'
        · subst h'; exact hlmem

/-- Pushing `ucs` children preserves well-formedness of the heap. -/
theorem ucsPush_ok {gs : GridSize} {r : Cell} {node : Node}
    (hn : nodeOk gs r node) (E : Finset Cell) {h : List Node}
    (hh : ∀ x ∈ h, nodeOk gs r x) :
    ∀ x ∈ ucsPush node gs E h, nodeOk gs r x := by
  have main : ∀ (succs : List (Cell × Action × Nat)),
      (∀ sac ∈ succs, sac ∈ get_successors node.state gs) →
      ∀ (h0 : List Node), (∀ x ∈ h0, nodeOk gs r x) →
      ∀ x ∈ succs.foldl (fun hp sac =>
          if sac.1 ∈ E then hp
          else heappush hp
            (Node.child sac.1 node sac.2.1 (node.cost + sac.2.2)
              (node.depth + 1))) h0,
        nodeOk gs r x := by
    intro succs
    induction succs with
    | nil => intro _ h0 hh0; exact hh0
    | cons sac rest ihs =>
      intro hsub h0 hh0
      rw [List.foldl_cons]
      refine ihs (fun y hy => hsub y (List.mem_cons_of_mem _ hy)) _ ?_
      split
      · exact hh0
      · intro x hx
        rcases heappush_mem _ _ x hx with h' | h'
        · exact hh0 x h'
        · subst h'
          exact nodeOk_child hn (hsub _ (List.mem_cons_self ..))
  exact main _ (fun _ hx => hx) h hh

/-- Any path found by the `ucs` loop is a goal chain. -/
theorem ucsLoop_ok {gs : GridSize} {r goal : Cell} :
    ∀ {fuel : Nat} {h : List Node} {E : Finset Cell},
      (∀ x ∈ h, nodeOk gs r x) →
      ∀ p, ucsLoop goal gs fuel h E = .found p → GoalChain gs r goal p := by
  intro fuel
  induction fuel with
  | zero => intro h E _ p hp; cases hp
  | succ fuel ih =>
    intro h E hh p hp
    rw [ucsLoop] at hp
    split at hp
    · cases hp
    · rename_i node heap' hpop
      obtain ⟨hnode, hrest⟩ := heappop_mem hpop
      have hn := hh node hnode
      have hh' : ∀ x ∈ heap', nodeOk gs r x := fun x hx => hh x (hrest x hx)
      split at hp
      · rename_i hgoal
        cases hp
        exact ⟨node, hn, hgoal, rfl⟩
      · split at hp
        · exact ih hh' p hp
        · exact ih (ucsPush_ok hn _ hh') p hp

/-- `ucs` only returns goal chains. -/
theorem ucs_found_chain {start goal : Cell} {gs : GridSize} {p : List Action}
    (h : ucs start goal gs = .found p) : GoalChain gs start goal p :=
  ucsLoop_ok (fun n hm => by
    rw [List.mem_singleton.mp hm]; exact nodeOk_root gs start) p h

theorem ucs_found_goalChain {start goal : Cell} {gs : GridSize} {p : List Action}
    (h : ucs start goal gs = .found p) : replay gs start p = some goal :=
  (ucs_found_chain h).replay

/-! ## Soundness of the bidirectional merge -/

theorem lookupA_ok {gs : GridSize} {r : Cell} {m : List (Cell × Node)}
    (hm : mapOk gs r m) {s : Cell} {n : Node} (h : lookupA s m = some n) :
    chainOk gs r n ∧ n.state = s := by
  induction m with
  | nil => cases h
  | cons kn rest ih =>
    rw [lookupA] at h
    split at h
    · rename_i hk
      cases h
      obtain ⟨h1, h2⟩ := hm kn (List.mem_cons_self ..)
      exact ⟨h1, by rw [h2, hk]⟩
    · exact ih (fun x hx => hm x (List.mem_cons_of_mem _ hx)) h

theorem BidiMerge.replay_merged {gs : GridSize} {start goal : Cell} {p : List Action}
    (h : BidiMerge gs start goal p) (hg : inBounds gs goal) :
    replay gs start p = some goal := by
  obtain ⟨f, b, hf, hb, hst, rfl⟩ := h
  rw [merge_paths, replay_append, chainOk_replay hf, hst]
  exact backPath_replay hb hg

theorem bidiScanF_ok {gs : GridSize} {start goal : Cell} {node : Node}
    (hn : chainOk gs start node) :
    ∀ {succs : List (Cell × Action × Nat)} {q : List Node}
      {fE bE : List (Cell × Node)},
      (∀ sac ∈ succs, sac ∈ get_successors node.state gs) →
      (∀ n ∈ q, chainOk gs start n) → mapOk gs start fE → mapOk gs goal bE →
      (∀ p, bidiScanF node succs q fE bE = .inl p →
        BidiMerge gs start goal p) ∧
      (∀ q' fE', bidiScanF node succs q fE bE = .inr (q', fE') →
        (∀ n ∈ q', chainOk gs start n) ∧ mapOk gs start fE') := by
  intro succs
  induction succs with
  | nil =>
    intro q fE bE _ hq hfE _
    constructor
    · intro p h; rw [bidiScanF] at h; cases h
    · intro q' fE' h
      rw [bidiScanF] at h
      cases h
      exact ⟨hq, hfE⟩
  | cons sac rest ih =>
    intro q fE bE hsub hq hfE hbE
    obtain ⟨s, a, c⟩ := sac
    have hmem : (s, a, c) ∈ get_successors node.state gs :=
      hsub _ (List.mem_cons_self ..)
    have hsub' : ∀ x ∈ rest, x ∈ get_successors node.state gs :=
      fun x hx => hsub x (List.mem_cons_of_mem _ hx)
    have hch : chainOk gs start (.child s node a (node.cost + c) 0) :=
      chainOk_child hn hmem
    rw [bidiScanF]
    split
    · exact ih hsub' hq hfE hbE
    · split
      · rename_i bn hbn
        constructor
        · intro p h
          injection h with h
          exact ⟨_, bn, hch, (lookupA_ok hbE hbn).1,
            by rw [Node.state_child, (lookupA_ok hbE hbn).2], h.symm⟩
        · intro q' fE' h; cases h
      · refine ih hsub' ?_ ?_ hbE
        · intro n hm
          rcases List.mem_append.mp hm with h' | h'
          · exact hq n h'
          · rw [List.mem_singleton.mp h']; exact hch
        · intro kn hkn
          rcases List.mem_cons.mp hkn with h' | h'
          · rw [h']; exact ⟨hch, rfl⟩
          · exact hfE kn h'

theorem bidiScanB_ok {gs : GridSize} {start goal : Cell} {node : Node}
    (hn : chainOk gs goal node) :
    ∀ {succs : List (Cell × Action × Nat)} {q : List Node}
      {bE fE : List (Cell × Node)},
      (∀ sac ∈ succs, sac ∈ get_successors node.state gs) →
      (∀ n ∈ q, chainOk gs goal n) → mapOk gs goal bE → mapOk gs start fE →
      (∀ p, bidiScanB node succs q bE fE = .inl p →
        BidiMerge gs start goal p) ∧
      (∀ q' bE', bidiScanB node succs q bE fE = .inr (q', bE') →
        (∀ n ∈ q', chainOk gs goal n) ∧ mapOk gs goal bE') := by
  intro succs
  induction succs with
  | nil =>
    intro q bE fE _ hq hbE _
    constructor
    · intro p h; rw [bidiScanB] at h; cases h
    · intro q' bE' h
      rw [bidiScanB] at h
      cases h
      exact ⟨hq, hbE⟩
  | cons sac rest ih =>
    intro q bE fE hsub hq hbE hfE
    obtain ⟨s, a, c⟩ := sac
    have hmem : (s, a, c) ∈ get_successors node.state gs :=
      hsub _ (List.mem_cons_self ..)
    have hsub' : ∀ x ∈ rest, x ∈ get_successors node.state gs :=
      fun x hx => hsub x (List.mem_cons_of_mem _ hx)
    have hch : chainOk gs goal (.child s node a (node.cost + c) 0) :=
      chainOk_child hn hmem
    rw [bidiScanB]
    split
    · exact ih hsub' hq hbE hfE
    · split
      · rename_i fn hfn
        constructor
        · intro p h
          injection h with h
          exact ⟨fn, _, (lookupA_ok hfE hfn).1, hch,
            by rw [Node.state_child, (lookupA_ok hfE hfn).2], h.symm⟩
        · intro q' bE' h; cases h
      · refine ih hsub' ?_ ?_ hfE
        · intro n hm
          rcases List.mem_append.mp hm with h' | h'
          · exact hq n h'
          · rw [List.mem_singleton.mp h']; exact hch
        · intro kn hkn
          rcases List.mem_cons.mp hkn with h' | h'
          · rw [h']; exact ⟨hch, rfl⟩
          · exact hbE kn h'

theorem bidiLoop_ok {gs : GridSize} {start goal : Cell} :
    ∀ {fuel : Nat} {fq : List Node} {fE : List (Cell × Node)}
      {bq : List Node} {bE : List (Cell × Node)},
      (∀ n ∈ fq, chainOk gs start n) → mapOk gs start fE →
      (∀ n ∈ bq, chainOk gs goal n) → mapOk gs goal bE →
      ∀ p, bidiLoop gs fuel fq fE bq bE = .found p →
        BidiMerge gs start goal p := by
  intro fuel
  induction fuel with
  | zero => intro fq fE bq bE _ _ _ _ p h; cases h
  | succ fuel ih =>
    intro fq fE bq bE hfq hfE hbq hbE p h
    match fq, bq with
    | [], _ => cases h
    | _ :: _, [] => cases h
    | fnode :: frest, bnode :: brest =>
      have hfn := hfq fnode (List.mem_cons_self ..)
      have hfrest : ∀ n ∈ frest, chainOk gs start n :=
        fun n hm => hfq n (List.mem_cons_of_mem _ hm)
      have hbn := hbq bnode (List.mem_cons_self ..)
      have hbrest : ∀ n ∈ brest, chainOk gs goal n :=
        fun n hm => hbq n (List.mem_cons_of_mem _ hm)
      rw [bidiLoop] at h
      split at h
      · rename_i p0 hscanF
        cases h
        exact (bidiScanF_ok hfn (fun _ hx => hx) hfrest hfE hbE).1 _ hscanF
      · rename_i fq' fE' hscanF
        obtain ⟨hfq', hfE'⟩ :=
          (bidiScanF_ok hfn (fun _ hx => hx) hfrest hfE hbE).2 _ _ hscanF
        split at h
        · rename_i p0 hscanB
          cases h
          exact (bidiScanB_ok hbn (fun _ hx => hx) hbrest hbE hfE').1 _ hscanB
        · rename_i bq' bE' hscanB
          obtain ⟨hbq', hbE'⟩ :=
            (bidiScanB_ok hbn (fun _ hx => hx) hbrest hbE hfE').2 _ _ hscanB
          exact ih hfq' hfE' hbq' hbE' p h

/-- `bidirectional_search` only returns correctly merged paths. -/
theorem bidirectional_found_replay {start goal : Cell} {gs : GridSize}
    {p : List Action} (hg : inBounds gs goal)
    (h : bidirectional_search start goal gs = .found p) :
    replay gs start p = some goal := by
  unfold bidirectional_search at h
  split at h
  · rename_i heq
    cases h
    simp [replay, heq]
  · refine (bidiLoop_ok ?_ ?_ ?_ ?_ p h).replay_merged hg
    · intro n hm; rw [List.mem_singleton.mp hm]; rfl
    · intro kn hkn; rw [List.mem_singleton.mp hkn]; exact ⟨rfl, rfl⟩
    · intro n hm; rw [List.mem_singleton.mp hm]; rfl
    · intro kn hkn; rw [List.mem_singleton.mp hkn]; exact ⟨rfl, rfl⟩

/-- **C1.** For in-bounds `start` and `goal`, every path returned by any
of the six batch algorithms (at any depth limit for `dls`, any ceiling
for `iddfs`), replayed move by move from `start`, stays within grid
bounds at every step and ends exactly on `goal`; in particular the merged
path of `bidirectional_search` lands exactly on `goal`.  (`replay`
returns `some` precisely when no intermediate cell leaves the grid.) -/
theorem C1_paths_replay_to_goal (start goal : Cell) (gs : GridSize)
    (_hs : inBounds gs start) (hg : inBounds gs goal) (limit md : Nat) :
    (∀ p, bfs start goal gs = .found p → replay gs start p = some goal) ∧
    (∀ p, dfs start goal gs = .found p → replay gs start p = some goal) ∧
    (∀ p, ucs start goal gs = .found p → replay gs start p = some goal) ∧
    (∀ p, dls start goal gs limit = .found p → replay gs start p = some goal) ∧
    (∀ p, iddfs start goal gs md = .found p → replay gs start p = some goal) ∧
    (∀ p, bidirectional_search start goal gs = .found p →
      replay gs start p = some goal) :=
  ⟨fun _ h => bfs_found_goalChain h,
   fun _ h => dfs_found_goalChain h,
   fun _ h => ucs_found_goalChain h,
   fun _ h => dls_found_goalChain h,
   fun _ h => iddfs_found_goalChain h,
   fun _ h => bidirectional_found_replay hg h⟩

/-- Witness for C1 on a concrete grid (paths exist and replay to goal). -/
theorem C1_paths_replay_to_goal_witness :
    inBounds ((3 : Int), (3 : Int)) ((0 : Int), (0 : Int)) ∧
    inBounds ((3 : Int), (3 : Int)) ((2 : Int), (2 : Int)) ∧
    ((∀ p, bfs (0, 0) (2, 2) (3, 3) = .found p →
        replay (3, 3) (0, 0) p = some (2, 2)) ∧
      (∀ p, dfs (0, 0) (2, 2) (3, 3) = .found p →
        replay (3, 3) (0, 0) p = some (2, 2)) ∧
      (∀ p, ucs (0, 0) (2, 2) (3, 3) = .found p →
        replay (3, 3) (0, 0) p = some (2, 2)) ∧
      (∀ p, dls (0, 0) (2, 2) (3, 3) 5 = .found p →
        replay (3, 3) (0, 0) p = some (2, 2)) ∧
      (∀ p, iddfs (0, 0) (2, 2) (3, 3) 1000 = .found p →
        replay (3, 3) (0, 0) p = some (2, 2)) ∧
      (∀ p, bidirectional_search (0, 0) (2, 2) (3, 3) = .found p →
        replay (3, 3) (0, 0) p = some (2, 2))) :=
  ⟨by decide, by decide,
    C1_paths_replay_to_goal (0, 0) (2, 2) (3, 3) (by decide) (by decide) 5 1000⟩

/-! ## C8: cost and depth bookkeeping of created nodes

The claim fails on the code: `bidirectional_search` creates its children
as `Node(state, node, action, node.cost + cost)` — the `depth` argument
is omitted and defaults to 0, so the depth half of the invariant is
violated by every bidirectional child.  The cost half holds everywhere,
and the depth half holds for all other algorithms. -/

/-- **C8 (counterexample).** In `bidirectional_search((0,0), (0,2))` on a
1×3 grid, the very first forward expansion creates the child node for
state `(0,1)` with `depth = 0`, not `parent.depth + 1 = 1`. -/
theorem C8_counterexample :
    bidiScanF (Node.root (0, 0)) (get_successors (0, 0) ((1 : Int), (3 : Int)))
        [] [((0, 0), Node.root (0, 0))] [((0, 2), Node.root (0, 2))] =
      .inr ([Node.child (0, 1) (Node.root (0, 0)) Action.right 2 0],
        [((0, 1), Node.child (0, 1) (Node.root (0, 0)) Action.right 2 0),
          ((0, 0), Node.root (0, 0))]) ∧
    (Node.child (0, 1) (Node.root (0, 0)) Action.right 2 0).depth ≠
      (Node.root (0, 0)).depth + 1 ∧
    (Node.child (0, 1) (Node.root (0, 0)) Action.right 2 0).cost =
      (Node.root (0, 0)).cost + costH Action.right := by
  refine ⟨?_, by decide, by decide⟩
  decide

/-- **C8 (amended).** Every node created with a parent by `bfs`, `dfs`,
`ucs`, `dls`/`iddfs` (and their step forms) satisfies both invariants:
its cost is the parent's cost plus the move's cost and its depth is the
parent's depth plus one, recursively along the whole chain (`nodeOk`);
consequently every path these five algorithms return is reconstructed
from a fully invariant chain ending at the goal.  `bidirectional_search`
maintains the cost half of the invariant on all its nodes (`chainOk`),
but creates every child with `depth = 0` instead of the parent's depth
plus one. -/
theorem C8_node_invariants (gs : GridSize) (start goal : Cell)
    (limit md : Nat) :
    (∀ (node : Node) (s : Cell) (a : Action) (c : Nat),
      nodeOk gs start node → (s, a, c) ∈ get_successors node.state gs →
        nodeOk gs start (Node.child s node a (node.cost + c) (node.depth + 1))) ∧
    (∀ p, bfs start goal gs = .found p → GoalChain gs start goal p) ∧
    (∀ p, dfs start goal gs = .found p → GoalChain gs start goal p) ∧
    (∀ p, ucs start goal gs = .found p → GoalChain gs start goal p) ∧
    (∀ p, dls start goal gs limit = .found p → GoalChain gs start goal p) ∧
    (∀ p, iddfs start goal gs md = .found p → GoalChain gs start goal p) ∧
    (∀ (node : Node) (s : Cell) (a : Action) (c : Nat),
      chainOk gs start node → (s, a, c) ∈ get_successors node.state gs →
        chainOk gs start (Node.child s node a (node.cost + c) 0)) ∧
    (∀ (node : Node) (s : Cell) (a : Action) (c : Nat),
      (Node.child s node a (node.cost + c) 0).depth = 0) :=
  ⟨fun _ _ _ _ hn hm => nodeOk_child hn hm,
   fun _ h => bfs_found_chain h,
   fun _ h => dfs_found_chain h,
   fun _ h => ucs_found_chain h,
   fun _ h => dls_found_chain h,
   fun _ h => iddfs_found_chain h,
   fun _ _ _ _ hn hm => chainOk_child hn hm,
   fun _ _ _ _ => rfl⟩

/-- Witness for the amended C8: a concrete expansion of the start node on
a 3×3 grid carries the invariant. -/
theorem C8_node_invariants_witness :
    nodeOk ((3 : Int), (3 : Int)) ((0 : Int), (0 : Int))
      (Node.child (0, 1) (Node.root (0, 0)) Action.right
        ((Node.root (0, 0)).cost + 2) ((Node.root (0, 0)).depth + 1)) :=
  (C8_node_invariants (3, 3) (0, 0) (2, 2) 0 0).1 (Node.root (0, 0)) (0, 1)
    Action.right 2 ⟨rfl, trivial⟩ (by decide)

/-! ## C10: the frontier loops cannot exhaust their fuel

The fuel supplied to each `while` loop is shown sufficient on every
input: each iteration of `bfs` explores a new cell; each iteration of
`dfs`/`ucs` either shrinks the frontier or explores a new cell while
pushing at most six children; each `bidirectional_search` iteration pops
a forward node, and each cell enters the forward frontier at most once.
`recursive_dls` and `iddfs` are structurally recursive (on the limit and
on the depth range), so their embeddings are total without fuel. -/

theorem mem_cellsFin {gs : GridSize} {c : Cell} (h : inBounds gs c) :
    c ∈ cellsFin gs := by
  obtain ⟨x, y⟩ := c
  obtain ⟨h1, h2, h3, h4⟩ := h
  refine Finset.mem_image.mpr ⟨(x.toNat, y.toNat), ?_, ?_⟩
  · rw [Finset.mem_product]
    constructor <;> rw [Finset.mem_range] <;> omega
  · simp only [Prod.mk.injEq]
    constructor <;> omega

theorem card_cellsFin (gs : GridSize) :
    (cellsFin gs).card ≤ gs.1.toNat * gs.2.toNat := by
  refine le_trans (Finset.card_image_le) ?_
  rw [Finset.card_product, Finset.card_range, Finset.card_range]

theorem get_successors_length (s : Cell) (gs : GridSize) :
    (get_successors s gs).length ≤ 6 :=
  le_trans (List.length_filterMap_le _ _) (by rfl)

theorem states_append (a b : List Node) :
    states (a ++ b) = states a ++ states b := List.map_append ..

/-- `bfsScan` keeps the frontier's states distinct, unexplored and inside
the state bound. -/
theorem bfsScan_term {goal : Cell} {node : Node} {gs : GridSize}
    {S : Finset Cell} (hS : ∀ c', inBounds gs c' → c' ∈ S) :
    ∀ {succs : List (Cell × Action × Nat)} {q : List Node} {E : Finset Cell}
      {q' : List Node},
      (∀ sac ∈ succs, sac ∈ get_successors node.state gs) →
      (∀ n ∈ q, n.state ∉ E) → (states q).Nodup → (∀ n ∈ q, n.state ∈ S) →
      bfsScan goal node succs q E = .inr q' →
      (∀ n ∈ q', n.state ∉ E) ∧ (states q').Nodup ∧ ∀ n ∈ q', n.state ∈ S := by
  intro succs
  induction succs with
  | nil =>
    intro q E q' _ hdisj hnd hqS h
    rw [bfsScan] at h
    cases h
    exact ⟨hdisj, hnd, hqS⟩
  | cons sac rest ih =>
    intro q E q' hsub hdisj hnd hqS h
    obtain ⟨s, a, c⟩ := sac
    have hmem : (s, a, c) ∈ get_successors node.state gs :=
      hsub _ (List.mem_cons_self ..)
    have hsub' : ∀ x ∈ rest, x ∈ get_successors node.state gs :=
      fun x hx => hsub x (List.mem_cons_of_mem _ hx)
    simp only [bfsScan] at h
    split at h
    · rename_i hcond
      split at h
      · cases h
      · refine ih hsub' ?_ ?_ ?_ h
        · intro n hm
          rcases List.mem_append.mp hm with h' | h'
          · exact hdisj n h'
          · rw [List.mem_singleton.mp h', Node.state_child]
            exact hcond.1
        · rw [states_append]
          refine List.Nodup.append hnd (by simp [states]) ?_
          intro x hx hy
          simp only [states, List.map_cons, List.map_nil, Node.state_child,
            List.mem_singleton] at hy
          subst hy
          exact hcond.2 hx
        · intro n hm
          rcases List.mem_append.mp hm with h' | h'
          · exact hqS n h'
          · rw [List.mem_singleton.mp h', Node.state_child]
            exact hS _ (succ_inBounds hmem)
    · exact ih hsub' hdisj hnd hqS h

/-- The `bfs` loop never exhausts its fuel: each iteration explores a new
state within the bound `S`. -/
theorem bfsLoop_no_out {goal : Cell} {gs : GridSize} {S : Finset Cell}
    (hS : ∀ c', inBounds gs c' → c' ∈ S) :
    ∀ {fuel : Nat} {q : List Node} {E : Finset Cell},
      (∀ n ∈ q, n.state ∉ E) → (states q).Nodup → (∀ n ∈ q, n.state ∈ S) →
      E ⊆ S → S.card + 2 ≤ fuel + E.card →
      bfsLoop goal gs fuel q E ≠ .out := by
  intro fuel
  induction fuel with
  | zero =>
    intro q E _ _ _ hES hf
    exact absurd (Finset.card_le_card hES) (by omega)
  | succ fuel ih =>
    intro q E hdisj hnd hqS hES hf
    match q with
    | [] =>
      rw [bfsLoop]
      intro h; cases h
    | node :: rest =>
      rw [bfsLoop]
      have hnodeS : node.state ∈ S := hqS node (List.mem_cons_self ..)
      have hnodeE : node.state ∉ E := hdisj node (List.mem_cons_self ..)
      rcases hscan : bfsScan goal node (get_successors node.state gs) rest
          (insert node.state E) with p | q'
      · intro h; cases h
      · have hrestdisj : ∀ n ∈ rest, n.state ∉ insert node.state E := by
          intro n hm
          rw [Finset.mem_insert]
          rintro (h' | h')
          · rcases List.nodup_cons.mp hnd with ⟨hn1, -⟩
            exact hn1 (h' ▸ List.mem_map_of_mem Node.state hm)
          · exact hdisj n (List.mem_cons_of_mem _ hm) h'
        have hrestnd : (states rest).Nodup := (List.nodup_cons.mp hnd).2
        have hrestS : ∀ n ∈ rest, n.state ∈ S :=
          fun n hm => hqS n (List.mem_cons_of_mem _ hm)
        obtain ⟨h1, h2, h3⟩ :=
          bfsScan_term hS (fun _ hx => hx) hrestdisj hrestnd hrestS hscan
        have hcard : (insert node.state E).card = E.card + 1 :=
          Finset.card_insert_of_not_mem hnodeE
        exact ih h1 h2 h3 (Finset.insert_subset hnodeS hES) (by omega)

/-- `bfs` never runs out of fuel. -/
theorem bfs_no_out (start goal : Cell) (gs : GridSize) :
    bfs start goal gs ≠ .out := by
  unfold bfs
  split
  · intro h; cases h
  · refine bfsLoop_no_out (S := insert start (cellsFin gs))
      (fun c' hc' => Finset.mem_insert_of_mem (mem_cellsFin hc')) ?_ ?_ ?_ ?_ ?_
    · intro n _
      exact Finset.not_mem_empty _
    · simp [states]
    · intro n hm
      rw [List.mem_singleton.mp hm, Node.state_root]
      exact Finset.mem_insert_self ..
    · exact Finset.empty_subset _
    · have h1 : (insert start (cellsFin gs)).card ≤ (cellsFin gs).card + 1 :=
        Finset.card_insert_le ..
      have h2 := card_cellsFin gs
      have h3 : bfsFuel gs = gs.1.toNat * gs.2.toNat + 3 := rfl
      simp only [Finset.card_empty]
      omega

theorem dfsChildren_length (node : Node) (gs : GridSize) (E : Finset Cell) :
    (dfsChildren node gs E).length ≤ 6 :=
  le_trans (List.length_filterMap_le _ _) (get_successors_length _ _)

theorem dfsChildren_inBounds {node : Node} {gs : GridSize} {E : Finset Cell} :
    ∀ n ∈ dfsChildren node gs E, inBounds gs n.state := by
  intro n hm
  obtain ⟨⟨s, a, c⟩, hs, hn'⟩ := List.mem_filterMap.mp hm
  split at hn'
  · cases hn'
  · cases hn'
    exact succ_inBounds hs

/-- The `dfs` loop never exhausts its fuel: each iteration shrinks the
stack or explores a new state while pushing at most six children. -/
theorem dfsLoop_no_out {goal : Cell} {gs : GridSize} {S : Finset Cell}
    (hS : ∀ c', inBounds gs c' → c' ∈ S) :
    ∀ {fuel : Nat} {q : List Node} {E : Finset Cell},
      (∀ n ∈ q, n.state ∈ S) → E ⊆ S →
      7 * S.card + q.length + 2 ≤ fuel + 7 * E.card →
      dfsLoop goal gs fuel q E ≠ .out := by
  intro fuel
  induction fuel with
  | zero =>
    intro q E _ hES hf
    exact absurd (Finset.card_le_card hES) (by omega)
  | succ fuel ih =>
    intro q E hqS hES hf
    match q with
    | [] =>
      rw [dfsLoop]
      intro h; cases h
    | node :: rest =>
      rw [dfsLoop]
      have hnodeS : node.state ∈ S := hqS node (List.mem_cons_self ..)
      have hrestS : ∀ n ∈ rest, n.state ∈ S :=
        fun n hm => hqS n (List.mem_cons_of_mem _ hm)
      split
      · intro h; cases h
      · split
        · refine ih hrestS hES ?_
          simp only [List.length_cons] at hf
          omega
        · rename_i hne
          have hcard : (insert node.state E).card = E.card + 1 :=
            Finset.card_insert_of_not_mem hne
          refine ih ?_ (Finset.insert_subset hnodeS hES) ?_
          · intro n hm
            rcases List.mem_append.mp hm with h' | h'
            · exact hS _ (dfsChildren_inBounds n h')
            · exact hrestS n h'
          · have hlen : (dfsChildren node gs (insert node.state E) ++ rest).length ≤
                6 + rest.length := by
              rw [List.length_append]
              have := dfsChildren_length node gs (insert node.state E)
              omega
            simp only [List.length_cons] at hf
            omega

/-- `dfs` never runs out of fuel. -/
theorem dfs_no_out (start goal : Cell) (gs : GridSize) :
    dfs start goal gs ≠ .out := by
  unfold dfs
  refine dfsLoop_no_out (S := insert start (cellsFin gs))
    (fun c' hc' => Finset.mem_insert_of_mem (mem_cellsFin hc')) ?_
    (Finset.empty_subset _) ?_
  · intro n hm
    rw [List.mem_singleton.mp hm, Node.state_root]
    exact Finset.mem_insert_self ..
  · have h1 : (insert start (cellsFin gs)).card ≤ (cellsFin gs).card + 1 :=
      Finset.card_insert_le ..
    have h2 := card_cellsFin gs
    have h3 : dfsFuel gs = 7 * (gs.1.toNat * gs.2.toNat) + 16 := rfl
    simp only [Finset.card_empty, List.length_singleton]
    omega

/-! ### Termination of `ucs` (length bookkeeping for the heap) -/

theorem heappush_length (l : List Node) (item : Node) :
    (heappush l item).length = l.length + 1 := by
  rw [heappush, siftdown_length, List.length_append, List.length_singleton]

theorem siftup_length (pos : Nat) (l : List Node) (hpos : pos < l.length) :
    (siftup pos l).length = l.length := by
  obtain ⟨-, h2, -⟩ := siftupLoop_facts l.length pos l rfl hpos
  rw [siftup, siftdown_length, List.length_set, h2]

theorem heappop_length {l : List Node} {n : Node} {l' : List Node}
    (h : heappop l = some (n, l')) : l.length = l'.length + 1 := by
  unfold heappop at h
  split at h
  · cases h
  · rename_i lastelt hlast
    have hne : l ≠ [] := by
      intro hnil
      rw [hnil] at hlast
      cases hlast
    have hlen : 0 < l.length := List.length_pos.mpr hne
    split at h
    · rename_i hemp
      cases h
      have : l.dropLast.length = 0 := by
        rw [List.isEmpty_iff] at hemp
        rw [hemp]; rfl
      rw [List.length_dropLast] at this
      simp only [List.length_nil]
      omega
    · rename_i hemp
      cases h
      have hd : 0 < l.dropLast.length := by
        rcases hq : l.dropLast with - | ⟨y, ys⟩
        · rw [hq] at hemp; simp at hemp
        · simp [hq]
      have hpos : (0 : Nat) < (l.dropLast.set 0 lastelt).length := by
        rw [List.length_set]; exact hd
      rw [siftup_length _ _ hpos, List.length_set, List.length_dropLast]
      omega

theorem ucsPush_length (node : Node) (gs : GridSize) (E : Finset Cell)
    (h : List Node) : (ucsPush node gs E h).length ≤ h.length + 6 := by
  have main : ∀ (succs : List (Cell × Action × Nat)) (h0 : List Node),
      (succs.foldl (fun hp sac =>
        if sac.1 ∈ E then hp
        else heappush hp
          (Node.child sac.1 node sac.2.1 (node.cost + sac.2.2)
            (node.depth + 1))) h0).length ≤ h0.length + succs.length := by
    intro succs
    induction succs with
    | nil => intro h0; simp
    | cons sac rest ihs =>
      intro h0
      rw [List.foldl_cons]
      refine le_trans (ihs _) ?_
      split
      · simp only [List.length_cons]; omega
      · rw [heappush_length]
        simp only [List.length_cons]
        omega
  exact le_trans (main _ h) (by
    have := get_successors_length node.state gs
    omega)

theorem ucsPush_states {gs : GridSize} {S : Finset Cell}
    (hS : ∀ c', inBounds gs c' → c' ∈ S) (node : Node) (E : Finset Cell)
    {h : List Node} (hh : ∀ x ∈ h, x.state ∈ S) :
    ∀ x ∈ ucsPush node gs E h, x.state ∈ S := by
  have main : ∀ (succs : List (Cell × Action × Nat)),
      (∀ sac ∈ succs, sac ∈ get_successors node.state gs) →
      ∀ (h0 : List Node), (∀ x ∈ h0, x.state ∈ S) →
      ∀ x ∈ succs.foldl (fun hp sac =>
          if sac.1 ∈ E then hp
          else heappush hp
            (Node.child sac.1 node sac.2.1 (node.cost + sac.2.2)
              (node.depth + 1))) h0,
        x.state ∈ S := by
    intro succs
    induction succs with
    | nil => intro _ h0 hh0; exact hh0
    | cons sac rest ihs =>
      intro hsub h0 hh0
      rw [List.foldl_cons]
      refine ihs (fun y hy => hsub y (List.mem_cons_of_mem _ hy)) _ ?_
      split
      · exact hh0
      · intro x hx
        rcases heappush_mem _ _ x hx with h' | h'
        · exact hh0 x h'
        · subst h'
          rw [Node.state_child]
          exact hS _ (succ_inBounds (hsub _ (List.mem_cons_self ..)))
  exact main _ (fun _ hx => hx) h hh

/-- The `ucs` loop never exhausts its fuel. -/
theorem ucsLoop_no_out {goal : Cell} {gs : GridSize} {S : Finset Cell}
    (hS : ∀ c', inBounds gs c' → c' ∈ S) :
    ∀ {fuel : Nat} {h : List Node} {E : Finset Cell},
      (∀ x ∈ h, x.state ∈ S) → E ⊆ S →
      7 * S.card + h.length + 2 ≤ fuel + 7 * E.card →
      ucsLoop goal gs fuel h E ≠ .out := by
  intro fuel
  induction fuel with
  | zero =>
    intro h E _ hES hf
    exact absurd (Finset.card_le_card hES) (by omega)
  | succ fuel ih =>
    intro h E hhS hES hf
    rw [ucsLoop]
    split
    · intro hc; cases hc
    · rename_i node heap' hpop
      obtain ⟨hnode, hrest⟩ := heappop_mem hpop
      have hlen := heappop_length hpop
      have hnodeS : node.state ∈ S := hhS node hnode
      have hheapS : ∀ x ∈ heap', x.state ∈ S := fun x hx => hhS x (hrest x hx)
      split
      · intro hc; cases hc
      · split
        · exact ih hheapS hES (by omega)
        · rename_i hne
          have hcard : (insert node.state E).card = E.card + 1 :=
            Finset.card_insert_of_not_mem hne
          refine ih (ucsPush_states hS node _ hheapS)
            (Finset.insert_subset hnodeS hES) ?_
          have := ucsPush_length node gs (insert node.state E) heap'
          omega

/-- `ucs` never runs out of fuel. -/
theorem ucs_no_out (start goal : Cell) (gs : GridSize) :
    ucs start goal gs ≠ .out := by
  unfold ucs
  refine ucsLoop_no_out (S := insert start (cellsFin gs))
    (fun c' hc' => Finset.mem_insert_of_mem (mem_cellsFin hc')) ?_
    (Finset.empty_subset _) ?_
  · intro n hm
    rw [List.mem_singleton.mp hm, Node.state_root]
    exact Finset.mem_insert_self ..
  · have h1 : (insert start (cellsFin gs)).card ≤ (cellsFin gs).card + 1 :=
      Finset.card_insert_le ..
    have h2 := card_cellsFin gs
    have h3 : ucsFuel gs = 7 * (gs.1.toNat * gs.2.toNat) + 16 := rfl
    simp only [Finset.card_empty, List.length_singleton]
    omega

/-! ### Termination of `bidirectional_search` -/

theorem lookupA_isSome_iff {s : Cell} {m : List (Cell × Node)} :
    (lookupA s m).isSome ↔ s ∈ keysF m := by
  induction m with
  | nil => simp [lookupA, keysF]
  | cons kn rest ih =>
    rw [lookupA]
    split
    · rename_i hk
      simp only [Option.isSome_some, true_iff]
      rw [keysF, List.map_cons, List.mem_toFinset, hk]
      exact List.mem_cons_self ..
    · rename_i hk
      rw [ih, keysF, keysF, List.map_cons]
      simp only [List.mem_toFinset, List.mem_cons]
      constructor
      · exact Or.inr
      · rintro (h' | h')
        · exact absurd h'.symm hk
        · exact h'

/-- The forward scan only grows the explored map within the bound, and
keeps `frontier length + unexplored budget` from growing. -/
theorem bidiScanF_term {gs : GridSize} {node : Node} {S : Finset Cell}
    (hS : ∀ c', inBounds gs c' → c' ∈ S) :
    ∀ {succs : List (Cell × Action × Nat)} {q : List Node}
      {fE bE : List (Cell × Node)} {q' : List Node} {fE' : List (Cell × Node)},
      (∀ sac ∈ succs, sac ∈ get_successors node.state gs) →
      keysF fE ⊆ S →
      bidiScanF node succs q fE bE = .inr (q', fE') →
      keysF fE' ⊆ S ∧ (keysF fE).card ≤ (keysF fE').card ∧
        q'.length + (keysF fE).card ≤ q.length + (keysF fE').card := by
  intro succs
  induction succs with
  | nil =>
    intro q fE bE q' fE' _ hsubS h
    rw [bidiScanF] at h
    cases h
    exact ⟨hsubS, le_rfl, le_rfl⟩
  | cons sac rest ih =>
    intro q fE bE q' fE' hsub hsubS h
    obtain ⟨s, a, c⟩ := sac
    have hmem : (s, a, c) ∈ get_successors node.state gs :=
      hsub _ (List.mem_cons_self ..)
    have hsub' : ∀ x ∈ rest, x ∈ get_successors node.state gs :=
      fun x hx => hsub x (List.mem_cons_of_mem _ hx)
    simp only [bidiScanF] at h
    split at h
    · exact ih hsub' hsubS h
    · rename_i habs
      split at h
      · cases h
      · have hnew : s ∉ keysF fE := by
          intro hmemk
          exact habs (lookupA_isSome_iff.mpr hmemk)
        have hkeys : keysF ((s, Node.child s node a (node.cost + c) 0) :: fE) =
            insert s (keysF fE) := by
          rw [keysF, keysF, List.map_cons, List.toFinset_cons]
        have hcard : (keysF ((s, Node.child s node a (node.cost + c) 0) :: fE)).card =
            (keysF fE).card + 1 := by
          rw [hkeys, Finset.card_insert_of_not_mem hnew]
        obtain ⟨h1, h2, h3⟩ := ih hsub' (by
          rw [hkeys]
          exact Finset.insert_subset (hS _ (succ_inBounds hmem)) hsubS) h
        refine ⟨h1, by omega, ?_⟩
        rw [List.length_append, List.length_singleton] at h3
        omega

/-- The bidirectional loop never exhausts its fuel: every iteration pops
one forward node, and each cell enters the forward frontier at most
once. -/
theorem bidiLoop_no_out {gs : GridSize} {S : Finset Cell}
    (hS : ∀ c', inBounds gs c' → c' ∈ S) :
    ∀ {fuel : Nat} {fq : List Node} {fE : List (Cell × Node)}
      {bq : List Node} {bE : List (Cell × Node)},
      keysF fE ⊆ S → fq.length + S.card + 1 ≤ fuel + (keysF fE).card →
      bidiLoop gs fuel fq fE bq bE ≠ .out := by
  intro fuel
  induction fuel with
  | zero =>
    intro fq fE bq bE hsubS hf
    exact absurd (Finset.card_le_card hsubS) (by omega)
  | succ fuel ih =>
    intro fq fE bq bE hsubS hf
    match fq, bq with
    | [], _ =>
      rw [bidiLoop]
      intro h; cases h
    | _ :: _, [] =>
      rw [bidiLoop]
      intro h; cases h
    | fnode :: frest, bnode :: brest =>
      rw [bidiLoop]
      split
      · intro h; cases h
      · rename_i fq' fE' hscanF
        obtain ⟨h1, h2, h3⟩ :=
          bidiScanF_term hS (fun _ hx => hx) hsubS hscanF
        split
        · intro h; cases h
        · rename_i bq' bE' hscanB
          refine ih h1 ?_
          simp only [List.length_cons] at hf
          omega

/-- `bidirectional_search` never runs out of fuel. -/
theorem bidirectional_no_out (start goal : Cell) (gs : GridSize) :
    bidirectional_search start goal gs ≠ .out := by
  unfold bidirectional_search
  split
  · intro h; cases h
  · refine bidiLoop_no_out (S := insert start (cellsFin gs))
      (fun c' hc' => Finset.mem_insert_of_mem (mem_cellsFin hc')) ?_ ?_
    · intro k hk
      rw [keysF] at hk
      simp only [List.map_cons, List.map_nil, List.toFinset_cons,
        List.toFinset_nil] at hk
      rcases Finset.mem_insert.mp hk with h' | h'
      · rw [h']; exact Finset.mem_insert_self ..
      · exact absurd h' (Finset.not_mem_empty _)
    · have h1 : (insert start (cellsFin gs)).card ≤ (cellsFin gs).card + 1 :=
        Finset.card_insert_le ..
      have h2 := card_cellsFin gs
      have h3 : bidiFuel gs = gs.1.toNat * gs.2.toNat + 3 := rfl
      have h4 : (keysF [(start, Node.root start)]).card = 1 := by
        rw [keysF]; rfl
      simp only [List.length_singleton]
      omega

/-- **C10.** For every grid size and every `start`/`goal` pair (even
out-of-bounds ones, for which no path exists), each batch search
terminates: the four frontier loops of `bfs`, `dfs`, `ucs` and
`bidirectional_search` never exhaust the fuel supplied to them (the
explored sets grow inside the finite cell set), while `recursive_dls`
recurses on a strictly decreasing limit and `iddfs` folds over the
bounded depth range, so their embeddings are total by structural
recursion and need no fuel at all. -/
theorem C10_loops_terminate (start goal : Cell) (gs : GridSize) :
    bfs start goal gs ≠ .out ∧ dfs start goal gs ≠ .out ∧
    ucs start goal gs ≠ .out ∧ bidirectional_search start goal gs ≠ .out :=
  ⟨bfs_no_out start goal gs, dfs_no_out start goal gs,
   ucs_no_out start goal gs, bidirectional_no_out start goal gs⟩

/-! ## C2 and C7: step-wise variants versus batch forms

The step loops of `dfs`, `ucs` and `bidirectional_search` share the
batch loops' control flow exactly; `bfs_step` additionally marks states
explored at generation time, which filters the same children; the
depth-limited step form reproduces the batch traversal but only emits a
`path` event on success. -/

theorem getLast?_cons_of_some {α : Type} {l : List α} {b : α}
    (h : l.getLast? = some b) (a : α) : (a :: l).getLast? = some b := by
  cases l with
  | nil => cases h
  | cons x xs => rw [List.getLast?_cons_cons]; exact h

theorem getLast?_append_of_some {α : Type} {l1 l2 : List α} {b : α}
    (h : l2.getLast? = some b) : (l1 ++ l2).getLast? = some b := by
  rw [List.getLast?_append, h]; rfl

/-- The step-wise `dfs` loop replays the batch loop and ends with the
batch result as its `path` event. -/
theorem dfsStepLoop_sim (goal : Cell) (gs : GridSize) :
    ∀ {fuel : Nat} {q : List Node} {E : Finset Cell},
      dfsLoop goal gs fuel q E ≠ .out →
      (dfsStepLoop goal gs fuel q E).getLast? =
        some (.pathE (dfsLoop goal gs fuel q E).payload) := by
  intro fuel
  induction fuel with
  | zero => intro q E h; exact absurd rfl h
  | succ fuel ih =>
    intro q E h
    match q with
    | [] =>
      rw [dfsLoop, dfsStepLoop]
      rfl
    | node :: rest =>
      rw [dfsLoop] at h
      rw [dfsStepLoop, dfsLoop]
      by_cases hg : node.state = goal
      · simp only [if_pos hg]
        rfl
      · simp only [if_neg hg] at h ⊢
        by_cases hE : node.state ∈ E
        · simp only [if_pos hE] at h ⊢
          exact ih h
        · simp only [if_neg hE] at h ⊢
          exact getLast?_cons_of_some (ih h) _

/-- The step-wise `ucs` loop replays the batch loop. -/
theorem ucsStepLoop_sim (goal : Cell) (gs : GridSize) :
    ∀ {fuel : Nat} {h : List Node} {E : Finset Cell},
      ucsLoop goal gs fuel h E ≠ .out →
      (ucsStepLoop goal gs fuel h E).getLast? =
        some (.pathE (ucsLoop goal gs fuel h E).payload) := by
  intro fuel
  induction fuel with
  | zero => intro h E hno; exact absurd rfl hno
  | succ fuel ih =>
    intro h E hno
    rw [ucsLoop] at hno
    rw [ucsStepLoop, ucsLoop]
    rcases hpop : heappop h with - | ⟨node, heap'⟩
    · simp only [hpop]
      rfl
    · simp only [hpop] at hno ⊢
      by_cases hg : node.state = goal
      · simp only [if_pos hg]
        rfl
      · simp only [if_neg hg] at hno ⊢
        by_cases hE : node.state ∈ E
        · simp only [if_pos hE] at hno ⊢
          exact ih hno
        · simp only [if_neg hE] at hno ⊢
          exact getLast?_cons_of_some (ih hno) _

/-- The step-wise bidirectional loop replays the batch loop. -/
theorem bidiStepLoop_sim (gs : GridSize) :
    ∀ {fuel : Nat} {fq : List Node} {fE : List (Cell × Node)}
      {bq : List Node} {bE : List (Cell × Node)},
      bidiLoop gs fuel fq fE bq bE ≠ .out →
      (bidiStepLoop gs fuel fq fE bq bE).getLast? =
        some (.pathE (bidiLoop gs fuel fq fE bq bE).payload) := by
  intro fuel
  induction fuel with
  | zero => intro fq fE bq bE hno; exact absurd rfl hno
  | succ fuel ih =>
    intro fq fE bq bE hno
    match fq, bq with
    | [], _ =>
      rw [bidiLoop, bidiStepLoop]
      rfl
    | _ :: _, [] =>
      rw [bidiLoop, bidiStepLoop]
      rfl
    | fnode :: frest, bnode :: brest =>
      rw [bidiLoop] at hno
      rw [bidiStepLoop, bidiLoop]
      rcases hF : bidiScanF fnode (get_successors fnode.state gs) frest fE bE
        with p | ⟨fq', fE'⟩
      · simp only [hF]
        rfl
      · simp only [hF] at hno ⊢
        rcases hB : bidiScanB bnode (get_successors bnode.state gs) brest bE fE'
          with p | ⟨bq', bE'⟩
        · simp only [hB]
          rfl
        · simp only [hB] at hno ⊢
          exact getLast?_cons_of_some (getLast?_cons_of_some (ih hno) _) _

/-- `dfs_step`'s terminal event carries `dfs`'s result. -/
theorem dfs_step_final (start goal : Cell) (gs : GridSize) :
    (dfs_step start goal gs).getLast? =
      some (.pathE (dfs start goal gs).payload) :=
  getLast?_cons_of_some (dfsStepLoop_sim goal gs (dfs_no_out start goal gs)) _

/-- `ucs_step`'s terminal event carries `ucs`'s result. -/
theorem ucs_step_final (start goal : Cell) (gs : GridSize) :
    (ucs_step start goal gs).getLast? =
      some (.pathE (ucs start goal gs).payload) :=
  getLast?_cons_of_some (ucsStepLoop_sim goal gs (ucs_no_out start goal gs)) _

/-- `recursive_dls_step` replays `recursive_dls`: on success it signals
found and its last event is the `path` event with the found path; on
cutoff or exhaustion it signals not-found, leaves the path set exactly
as the batch recursion does, and yields no `path` event at all. -/
theorem recursive_dls_step_sim (goal : Cell) (gs : GridSize) :
    ∀ (limit : Nat) (node : Node) (ps : Finset Cell),
      (∀ p ps', recursive_dls node goal gs limit ps = (.found p, ps') →
        (recursive_dls_step node goal gs limit ps).2.1 = true ∧
        (recursive_dls_step node goal gs limit ps).1.getLast? =
          some (.pathE (some p))) ∧
      ((recursive_dls node goal gs limit ps).1 = .cutoff ∨
          (recursive_dls node goal gs limit ps).1 = .noPath →
        (recursive_dls_step node goal gs limit ps).2.1 = false ∧
        (recursive_dls_step node goal gs limit ps).2.2 =
          (recursive_dls node goal gs limit ps).2 ∧
        ∀ e ∈ (recursive_dls_step node goal gs limit ps).1,
          e.isPath = false) := by
  intro limit
  induction limit with
  | zero =>
    intro node ps
    by_cases hg : node.state = goal
    · have hb : recursive_dls node goal gs 0 ps =
          (.found (reconstruct_path node), ps) := by
        rw [recursive_dls.eq_def]; simp only [if_pos hg]
      have hs : recursive_dls_step node goal gs 0 ps =
          ([.step, .pathE (some (reconstruct_path node))], true, ps) := by
        rw [recursive_dls_step.eq_def]; simp only [if_pos hg]
      rw [hb, hs]
      constructor
      · intro p ps' h
        simp only [Prod.mk.injEq, DlsRes.found.injEq] at h
        obtain ⟨h1, -⟩ := h
        subst h1
        exact ⟨rfl, rfl⟩
      · rintro (h | h) <;> simp at h
    · have hb : recursive_dls node goal gs 0 ps = (.cutoff, ps) := by
        rw [recursive_dls.eq_def]; simp only [if_neg hg]
      have hs : recursive_dls_step node goal gs 0 ps = ([.step], false, ps) := by
        rw [recursive_dls_step.eq_def]; simp only [if_neg hg]
      rw [hb, hs]
      constructor
      · intro p ps' h
        simp at h
      · intro
        refine ⟨rfl, rfl, ?_⟩
        intro e he
        rw [List.mem_singleton.mp he]
        rfl
  | succ lim ih =>
    intro node ps
    -- the successor loops agree, for every value of the batch cut flag
    have go : ∀ (succs : List (Cell × Action × Nat)) (ps0 : Finset Cell)
        (cut : Bool),
        (∀ p ps', dlsGo (fun n ps2 => recursive_dls n goal gs lim ps2) node succs ps0 cut = (.found p, ps') →
          (dlsStepGo (fun n ps2 => recursive_dls_step n goal gs lim ps2) node succs ps0).2.1 = true ∧
          (dlsStepGo (fun n ps2 => recursive_dls_step n goal gs lim ps2) node succs ps0).1.getLast? =
            some (.pathE (some p))) ∧
        ((dlsGo (fun n ps2 => recursive_dls n goal gs lim ps2) node succs ps0 cut).1 = .cutoff ∨
            (dlsGo (fun n ps2 => recursive_dls n goal gs lim ps2) node succs ps0 cut).1 = .noPath →
          (dlsStepGo (fun n ps2 => recursive_dls_step n goal gs lim ps2) node succs ps0).2.1 = false ∧
          (dlsStepGo (fun n ps2 => recursive_dls_step n goal gs lim ps2) node succs ps0).2.2 =
            (dlsGo (fun n ps2 => recursive_dls n goal gs lim ps2) node succs ps0 cut).2 ∧
          ∀ e ∈ (dlsStepGo (fun n ps2 => recursive_dls_step n goal gs lim ps2) node succs ps0).1,
            e.isPath = false) := by
      intro succs
      induction succs with
      | nil =>
        intro ps0 cut
        rw [dlsGo, dlsStepGo]
        constructor
        · intro p ps' h
          rw [Prod.mk.injEq] at h
          obtain ⟨h1, -⟩ := h
          split at h1 <;> cases h1
        · intro
          exact ⟨rfl, by split <;> rfl,
            fun e he => absurd he (List.not_mem_nil e)⟩
      | cons sac rest ihs =>
        intro ps0 cut
        obtain ⟨s, a, c⟩ := sac
        by_cases hmem : s ∈ ps0
        · have hb : dlsGo (fun n ps2 => recursive_dls n goal gs lim ps2) node ((s, a, c) :: rest) ps0 cut =
              dlsGo (fun n ps2 => recursive_dls n goal gs lim ps2) node rest ps0 cut := by
            rw [dlsGo]; simp only [if_pos hmem]
          have hs : dlsStepGo (fun n ps2 => recursive_dls_step n goal gs lim ps2) node ((s, a, c) :: rest) ps0 =
              dlsStepGo (fun n ps2 => recursive_dls_step n goal gs lim ps2) node rest ps0 := by
            rw [dlsStepGo]; simp only [if_pos hmem]
          rw [hb, hs]
          exact ihs ps0 cut
        · rcases hrec : recursive_dls
              (Node.child s node a (node.cost + c) (node.depth + 1))
              goal gs lim ps0 with ⟨res, psr⟩
          rcases hrs : recursive_dls_step
              (Node.child s node a (node.cost + c) (node.depth + 1))
              goal gs lim ps0 with ⟨evs, fb, psS⟩
          obtain ⟨ihFound, ihMiss⟩ :=
            ih (Node.child s node a (node.cost + c) (node.depth + 1)) ps0
          rw [hrec, hrs] at ihFound ihMiss
          cases res with
          | found p0 =>
            obtain ⟨hfb, hlast⟩ := ihFound p0 psr rfl
            have hfb' : fb = true := hfb
            subst hfb'
            have hb : dlsGo (fun n ps2 => recursive_dls n goal gs lim ps2) node ((s, a, c) :: rest) ps0 cut =
                (.found p0, psr) := by
              rw [dlsGo]; simp only [if_neg hmem, hrec]
            have hs : dlsStepGo (fun n ps2 => recursive_dls_step n goal gs lim ps2) node ((s, a, c) :: rest) ps0 =
                (evs, true, psS) := by
              rw [dlsStepGo]; simp only [if_neg hmem, hrs]
            rw [hb, hs]
            constructor
            · intro p ps' h
              simp only [Prod.mk.injEq, DlsRes.found.injEq] at h
              obtain ⟨h1, -⟩ := h
              subst h1
              exact ⟨rfl, hlast⟩
            · rintro (h | h) <;> simp at h
          | cutoff =>
            obtain ⟨hfb, hps, hclean⟩ := ihMiss (Or.inl rfl)
            have hfb' : fb = false := hfb
            subst hfb'
            have hps' : psS = psr := hps
            have hb : dlsGo (fun n ps2 => recursive_dls n goal gs lim ps2) node ((s, a, c) :: rest) ps0 cut =
                dlsGo (fun n ps2 => recursive_dls n goal gs lim ps2) node rest psr true := by
              rw [dlsGo]; simp only [if_neg hmem, hrec]
            have hs : dlsStepGo (fun n ps2 => recursive_dls_step n goal gs lim ps2) node ((s, a, c) :: rest) ps0 =
                (evs ++ (dlsStepGo (fun n ps2 => recursive_dls_step n goal gs lim ps2) node rest psS).1,
                  (dlsStepGo (fun n ps2 => recursive_dls_step n goal gs lim ps2) node rest psS).2) := by
              rw [dlsStepGo]; simp only [if_neg hmem, hrs]
            rw [hb, hs, hps']
            obtain ⟨ihsFound, ihsMiss⟩ := ihs psr true
            constructor
            · intro p ps' h
              obtain ⟨h1, h2⟩ := ihsFound p ps' h
              exact ⟨h1, getLast?_append_of_some h2⟩
            · intro hmiss
              obtain ⟨h1, h2, h3⟩ := ihsMiss hmiss
              refine ⟨h1, h2, ?_⟩
              intro e he
              rcases List.mem_append.mp he with h' | h'
              · exact hclean e h'
              · exact h3 e h'
          | noPath =>
            obtain ⟨hfb, hps, hclean⟩ := ihMiss (Or.inr rfl)
            have hfb' : fb = false := hfb
            subst hfb'
            have hps' : psS = psr := hps
            have hb : dlsGo (fun n ps2 => recursive_dls n goal gs lim ps2) node ((s, a, c) :: rest) ps0 cut =
                dlsGo (fun n ps2 => recursive_dls n goal gs lim ps2) node rest psr cut := by
              rw [dlsGo]; simp only [if_neg hmem, hrec]
            have hs : dlsStepGo (fun n ps2 => recursive_dls_step n goal gs lim ps2) node ((s, a, c) :: rest) ps0 =
                (evs ++ (dlsStepGo (fun n ps2 => recursive_dls_step n goal gs lim ps2) node rest psS).1,
                  (dlsStepGo (fun n ps2 => recursive_dls_step n goal gs lim ps2) node rest psS).2) := by
              rw [dlsStepGo]; simp only [if_neg hmem, hrs]
            rw [hb, hs, hps']
            obtain ⟨ihsFound, ihsMiss⟩ := ihs psr cut
            constructor
            · intro p ps' h
              obtain ⟨h1, h2⟩ := ihsFound p ps' h
              exact ⟨h1, getLast?_append_of_some h2⟩
            · intro hmiss
              obtain ⟨h1, h2, h3⟩ := ihsMiss hmiss
              refine ⟨h1, h2, ?_⟩
              intro e he
              rcases List.mem_append.mp he with h' | h'
              · exact hclean e h'
              · exact h3 e h'
    by_cases hg : node.state = goal
    · have hb : recursive_dls node goal gs (lim + 1) ps =
          (.found (reconstruct_path node), ps) := by
        rw [recursive_dls.eq_def]; simp only [if_pos hg]
      have hs : recursive_dls_step node goal gs (lim + 1) ps =
          ([.step, .pathE (some (reconstruct_path node))], true, ps) := by
        rw [recursive_dls_step.eq_def]; simp only [if_pos hg]
      rw [hb, hs]
      constructor
      · intro p ps' h
        simp only [Prod.mk.injEq, DlsRes.found.injEq] at h
        obtain ⟨h1, -⟩ := h
        subst h1
        exact ⟨rfl, rfl⟩
      · rintro (h | h) <;> simp at h
    · have hb : recursive_dls node goal gs (lim + 1) ps =
          dlsGo (fun n ps2 => recursive_dls n goal gs lim ps2) node (get_successors node.state gs)
            (insert node.state ps) false := by
        rw [recursive_dls.eq_def]; simp only [if_neg hg]
      have hs : recursive_dls_step node goal gs (lim + 1) ps =
          (.step :: (dlsStepGo (fun n ps2 => recursive_dls_step n goal gs lim ps2) node (get_successors node.state gs)
              (insert node.state ps)).1,
            (dlsStepGo (fun n ps2 => recursive_dls_step n goal gs lim ps2) node (get_successors node.state gs)
              (insert node.state ps)).2) := by
        rw [recursive_dls_step.eq_def]; simp only [if_neg hg]
      rw [hb, hs]
      obtain ⟨goFound, goMiss⟩ :=
        go (get_successors node.state gs) (insert node.state ps) false
      constructor
      · intro p ps' h
        obtain ⟨h1, h2⟩ := goFound p ps' h
        exact ⟨h1, getLast?_cons_of_some h2 _⟩
      · intro hmiss
        obtain ⟨h1, h2, h3⟩ := goMiss hmiss
        refine ⟨h1, h2, ?_⟩
        intro e he
        rcases List.mem_cons.mp he with h' | h'
        · rw [h']; rfl
        · exact h3 e h'

/-- On success, `dls_step`'s last event is the `path` event carrying the
path `dls` returns. -/
theorem dls_step_found (start goal : Cell) (gs : GridSize) (limit : Nat)
    (p : List Action) (h : dls start goal gs limit = .found p) :
    (dls_step start goal gs limit).getLast? = some (.pathE (some p)) := by
  unfold dls at h
  unfold dls_step
  rcases hrec : recursive_dls (Node.root start) goal gs limit ∅ with ⟨res, ps'⟩
  rw [hrec] at h
  simp only at h
  subst h
  exact ((recursive_dls_step_sim goal gs limit (Node.root start) ∅).1 p ps'
    hrec).2

/-- On cutoff or exhaustion, `dls_step` produces no `path` event at
all. -/
theorem dls_step_not_found (start goal : Cell) (gs : GridSize) (limit : Nat)
    (h : dls start goal gs limit = .cutoff ∨
      dls start goal gs limit = .noPath) :
    ∀ e ∈ dls_step start goal gs limit, e.isPath = false := by
  unfold dls at h
  unfold dls_step
  exact ((recursive_dls_step_sim goal gs limit (Node.root start) ∅).2 h).2.2

/-- `iddfs_step`'s terminal event carries `iddfs`'s result. -/
theorem iddfs_step_final (start goal : Cell) (gs : GridSize) (md : Nat) :
    (iddfs_step start goal gs md).getLast? =
      some (.pathE (iddfs start goal gs md).payload) := by
  unfold iddfs_step iddfs
  generalize List.range md = ds
  induction ds with
  | nil => rfl
  | cons d ds ihd =>
    rw [iddfsStepGo, iddfsGo]
    rcases hd : dls start goal gs d with p | - | -
    · have hlast := dls_step_found start goal gs d p hd
      have hany : (dls_step start goal gs d).any SEvent.isPath = true :=
        List.any_eq_true.mpr
          ⟨SEvent.pathE (some p),
            List.mem_of_mem_getLast? (by rw [hlast]; rfl), rfl⟩
      rw [if_pos hany]
      exact getLast?_cons_of_some hlast _
    · have hclean := dls_step_not_found start goal gs d (Or.inl hd)
      have hany : ¬ (dls_step start goal gs d).any SEvent.isPath = true := by
        rw [List.any_eq_true]
        rintro ⟨e, he, hp⟩
        rw [hclean e he] at hp
        cases hp
      rw [if_neg hany]
      exact getLast?_cons_of_some (getLast?_append_of_some ihd) _
    · have hclean := dls_step_not_found start goal gs d (Or.inr hd)
      have hany : ¬ (dls_step start goal gs d).any SEvent.isPath = true := by
        rw [List.any_eq_true]
        rintro ⟨e, he, hp⟩
        rw [hclean e he] at hp
        cases hp
      rw [if_neg hany]
      exact getLast?_cons_of_some (getLast?_append_of_some ihd) _

/-- The second `bfs_step` loop is the batch loop with events. -/
theorem bfsStepLoop2_sim (goal : Cell) (gs : GridSize) :
    ∀ {fuel : Nat} {q : List Node} {E : Finset Cell},
      (bfsStepLoop2 goal gs fuel q E).2 =
        outcomeOf (bfsLoop goal gs fuel q E) := by
  intro fuel
  induction fuel with
  | zero => intro q E; rfl
  | succ fuel ih =>
    intro q E
    match q with
    | [] => rfl
    | node :: rest =>
      rw [bfsStepLoop2, bfsLoop]
      rcases hscan : bfsScan goal node (get_successors node.state gs) rest
          (insert node.state E) with p | q'
      · rfl
      · exact ih

/-- Once the `bfs` loop has enough fuel to finish, more fuel does not
change the result. -/
theorem bfsLoop_fuel_stable (goal : Cell) (gs : GridSize) :
    ∀ {fuel : Nat} {q : List Node} {E : Finset Cell},
      bfsLoop goal gs fuel q E ≠ .out →
      ∀ {fuel' : Nat}, fuel ≤ fuel' →
        bfsLoop goal gs fuel' q E = bfsLoop goal gs fuel q E := by
  intro fuel
  induction fuel with
  | zero => intro q E hno; exact absurd rfl hno
  | succ fuel ih =>
    intro q E hno fuel' hle
    match fuel', hle with
    | f' + 1, hle =>
      match q with
      | [] => rw [bfsLoop, bfsLoop]
      | node :: rest =>
        rw [bfsLoop] at hno ⊢
        rw [bfsLoop]
        rcases hscan : bfsScan goal node (get_successors node.state gs) rest
            (insert node.state E) with p | q'
        · simp only [hscan]
        · simp only [hscan] at hno ⊢
          exact ih hno (by omega)

/-- The first `bfs_step` loop simulates the batch loop: its explored set
is the batch explored set plus the frontier states plus the start. -/
theorem bfsScan_sim {goal start : Cell} {node : Node} :
    ∀ {succs : List (Cell × Action × Nat)} {q : List Node} {Eb : Finset Cell},
      (start ∈ Eb ∨ start ∈ states q) →
      bfsStepScan goal node succs q (Eb ∪ (states q).toFinset ∪ {start}) =
        (match bfsScan goal node succs q Eb with
         | .inl p => .inl p
         | .inr q' => .inr (q', Eb ∪ (states q').toFinset ∪ {start})) := by
  intro succs
  induction succs with
  | nil =>
    intro q Eb _
    rw [bfsStepScan, bfsScan]
  | cons sac rest ih =>
    intro q Eb hstart
    obtain ⟨s, a, c⟩ := sac
    rw [bfsStepScan, bfsScan]
    by_cases hcb : s ∉ Eb ∧ s ∉ states q
    · have hne : s ≠ start := by
        rintro rfl
        rcases hstart with h' | h'
        · exact hcb.1 h'
        · exact hcb.2 h'
      have hcs : s ∉ Eb ∪ (states q).toFinset ∪ {start} ∧ s ∉ states q := by
        refine ⟨?_, hcb.2⟩
        simp only [Finset.mem_union, Finset.mem_singleton, List.mem_toFinset]
        rintro ((h' | h') | h')
        · exact hcb.1 h'
        · exact hcb.2 h'
        · exact hne h'
      simp only [if_pos hcb, if_pos hcs]
      by_cases hg : (Node.child s node a (node.cost + c) (node.depth + 1)).state = goal
      · simp only [if_pos hg]
      · simp only [if_neg hg]
        have hsets : insert s (Eb ∪ (states q).toFinset ∪ {start}) =
            Eb ∪ (states (q ++ [Node.child s node a (node.cost + c)
              (node.depth + 1)])).toFinset ∪ {start} := by
          ext x
          simp only [Finset.mem_insert, Finset.mem_union, Finset.mem_singleton,
            List.mem_toFinset, states, List.map_append, List.map_cons,
            List.map_nil, List.mem_append, List.mem_cons, List.mem_singleton,
            List.not_mem_nil, or_false, Node.state_child]
          tauto
        rw [hsets]
        exact ih (by
          rcases hstart with h' | h'
          · exact Or.inl h'
          · exact Or.inr (by
              rw [states_append, List.mem_append]
              exact Or.inl h'))
    · have hcs : ¬ (s ∉ Eb ∪ (states q).toFinset ∪ {start} ∧ s ∉ states q) := by
        intro hcs
        refine hcb ⟨?_, hcs.2⟩
        intro hmem
        exact hcs.1 (by
          simp only [Finset.mem_union, Finset.mem_singleton, List.mem_toFinset]
          exact Or.inl (Or.inl hmem))
      simp only [if_neg hcb, if_neg hcs]
      exact ih hstart

/-- `bfsScan` only appends to the frontier it is given. -/
theorem bfsScan_extends {goal : Cell} {node : Node} :
    ∀ {succs : List (Cell × Action × Nat)} {q : List Node} {E : Finset Cell}
      {q' : List Node},
      bfsScan goal node succs q E = .inr q' → ∃ tail, q' = q ++ tail := by
  intro succs
  induction succs with
  | nil =>
    intro q E q' h
    rw [bfsScan] at h
    cases h
    exact ⟨[], (List.append_nil q).symm⟩
  | cons sac rest ih =>
    intro q E q' h
    obtain ⟨s, a, c⟩ := sac
    simp only [bfsScan] at h
    split at h
    · split at h
      · cases h
      · obtain ⟨tail, htail⟩ := ih h
        exact ⟨Node.child s node a (node.cost + c) (node.depth + 1) :: tail,
          by rw [htail, List.append_assoc]; rfl⟩
    · exact ih h

/-- Outcome equivalence of the first `bfs_step` loop and the batch
loop. -/
theorem bfsStepLoop1_sim {goal start : Cell} {gs : GridSize} :
    ∀ {fuel : Nat} {q : List Node} {Eb : Finset Cell},
      (start ∈ Eb ∨ start ∈ states q) →
      (bfsStepLoop1 goal gs fuel q (Eb ∪ (states q).toFinset ∪ {start})).2 =
        outcomeOf (bfsLoop goal gs fuel q Eb) := by
  intro fuel
  induction fuel with
  | zero => intro q Eb _; rfl
  | succ fuel ih =>
    intro q Eb hstart
    match q with
    | [] => rfl
    | node :: rest =>
      rw [bfsStepLoop1, bfsLoop]
      have hsets : Eb ∪ (states (node :: rest)).toFinset ∪ {start} =
          insert node.state Eb ∪ (states rest).toFinset ∪ {start} := by
        ext x
        simp only [Finset.mem_union, Finset.mem_singleton, List.mem_toFinset,
          states, List.map_cons, List.mem_cons, Finset.mem_insert]
        tauto
      have hstart' : start ∈ insert node.state Eb ∨ start ∈ states rest := by
        rcases hstart with h' | h'
        · exact Or.inl (Finset.mem_insert_of_mem h')
        · rcases List.mem_cons.mp h' with h'' | h''
          · exact Or.inl (by rw [h'']; exact Finset.mem_insert_self ..)
          · exact Or.inr h''
      rw [hsets, bfsScan_sim hstart']
      rcases hscan : bfsScan goal node (get_successors node.state gs) rest
          (insert node.state Eb) with p | q'
      · rfl
      · obtain ⟨tail, rfl⟩ := bfsScan_extends hscan
        exact ih (by
          rcases hstart' with h' | h'
          · exact Or.inl h'
          · exact Or.inr (by
              rw [states_append, List.mem_append]
              exact Or.inl h'))

/-- `bfs_step`'s terminal event carries `bfs`'s result. -/
theorem bfs_step_final (start goal : Cell) (gs : GridSize) :
    (bfs_step start goal gs).getLast? =
      some (.pathE (bfs start goal gs).payload) := by
  unfold bfs_step bfs
  by_cases hc : start = goal
  · simp only [if_pos hc]
    rfl
  · simp only [if_neg hc]
    -- the batch loop finishes at both fuel levels, with the same result
    have hno : ∀ fuel, gs.1.toNat * gs.2.toNat + 3 ≤ fuel →
        bfsLoop goal gs fuel [Node.root start] ∅ ≠ .out := by
      intro fuel hf
      refine bfsLoop_no_out (S := insert start (cellsFin gs))
        (fun c' hc' => Finset.mem_insert_of_mem (mem_cellsFin hc')) ?_ ?_ ?_
        (Finset.empty_subset _) ?_
      · intro n _
        exact Finset.not_mem_empty _
      · simp [states]
      · intro n hm
        rw [List.mem_singleton.mp hm, Node.state_root]
        exact Finset.mem_insert_self ..
      · have h1 : (insert start (cellsFin gs)).card ≤ (cellsFin gs).card + 1 :=
          Finset.card_insert_le ..
        have h2 := card_cellsFin gs
        simp only [Finset.card_empty]
        omega
    have hnoStep : bfsLoop goal gs (bfsStepFuel gs) [Node.root start] ∅ ≠ .out :=
      hno _ (by unfold bfsStepFuel; omega)
    have hnoBatch : bfsLoop goal gs (bfsFuel gs) [Node.root start] ∅ ≠ .out :=
      hno _ (by unfold bfsFuel; omega)
    have hstab : bfsLoop goal gs (bfsStepFuel gs) [Node.root start] ∅ =
        bfsLoop goal gs (bfsFuel gs) [Node.root start] ∅ :=
      bfsLoop_fuel_stable goal gs hnoBatch
        (by unfold bfsFuel bfsStepFuel; omega)
    have hsets : ({start} : Finset Cell) =
        (∅ : Finset Cell) ∪ (states [Node.root start]).toFinset ∪ {start} := by
      ext x
      simp [states]
    have hsim := @bfsStepLoop1_sim goal start gs (bfsStepFuel gs)
      [Node.root start] ∅ (Or.inr (by simp [states]))
    rw [← hsets, hstab] at hsim
    rcases hl1 : bfsStepLoop1 goal gs (bfsStepFuel gs) [Node.root start]
        {start} with ⟨evs, o⟩
    rw [hl1] at hsim
    rcases hres : bfsLoop goal gs (bfsFuel gs) [Node.root start] ∅
        with p | - | -
    · rw [hres] at hsim
      have ho : o = .found p := hsim
      subst ho
      simp only []
      have hone : ([SEvent.pathE (some p)] : List SEvent).getLast? =
          some (.pathE (some p)) := rfl
      exact getLast?_cons_of_some (getLast?_append_of_some hone) _
    · rw [hres] at hsim
      have ho : o = .exhausted := hsim
      subst ho
      simp only []
      have hsim2 := @bfsStepLoop2_sim goal gs (bfsStepFuel gs)
        [Node.root start] ∅
      rw [hstab, hres] at hsim2
      rcases hl2 : bfsStepLoop2 goal gs (bfsStepFuel gs) [Node.root start] ∅
          with ⟨evs2, o2⟩
      rw [hl2] at hsim2
      have ho2 : o2 = .exhausted := hsim2
      subst ho2
      simp only []
      have hone : ([SEvent.pathE none] : List SEvent).getLast? =
          some (.pathE none) := rfl
      exact getLast?_cons_of_some (getLast?_append_of_some hone) _
    · exact absurd hres hnoBatch

/-- `bidirectional_search_step`'s terminal event carries the batch
result. -/
theorem bidi_step_final (start goal : Cell) (gs : GridSize) :
    (bidirectional_search_step start goal gs).getLast? =
      some (.pathE (bidirectional_search start goal gs).payload) := by
  have hno := bidirectional_no_out start goal gs
  unfold bidirectional_search at hno ⊢
  unfold bidirectional_search_step
  by_cases hc : start = goal
  · simp only [if_pos hc]
    rfl
  · simp only [if_neg hc] at hno ⊢
    exact bidiStepLoop_sim gs hno

/-- **C7 (counterexample).** `dls_step((0,0), (0,1))` on a 1×2 grid with
`limit = 0` exhausts after a single `step` event and never yields a
`path` event, although the batch `dls` reports `"cutoff"`. -/
theorem C7_counterexample :
    dls_step (0, 0) (0, 1) ((1 : Int), (2 : Int)) 0 = [SEvent.step] ∧
    SEvent.step.isPath = false ∧
    dls (0, 0) (0, 1) ((1 : Int), (2 : Int)) 0 = .cutoff := by
  refine ⟨?_, rfl, ?_⟩ <;> decide

/-- **C7 (amended).** The step-wise variants of `bfs`, `dfs`, `ucs`,
`iddfs` and `bidirectional_search` always end their event sequence with
a terminal `path` event on every input; `dls_step` ends with a `path`
event exactly when `dls` finds a path within the limit, and produces no
`path` event at all on cutoff or exhaustion. -/
theorem C7_step_terminal_path (start goal : Cell) (gs : GridSize)
    (limit md : Nat) :
    (∃ po, (bfs_step start goal gs).getLast? = some (.pathE po)) ∧
    (∃ po, (dfs_step start goal gs).getLast? = some (.pathE po)) ∧
    (∃ po, (ucs_step start goal gs).getLast? = some (.pathE po)) ∧
    (∃ po, (iddfs_step start goal gs md).getLast? = some (.pathE po)) ∧
    (∃ po, (bidirectional_search_step start goal gs).getLast? =
      some (.pathE po)) ∧
    ((∃ p, dls start goal gs limit = .found p) ↔
      ∃ p, (dls_step start goal gs limit).getLast? =
        some (.pathE (some p))) := by
  refine ⟨⟨_, bfs_step_final start goal gs⟩, ⟨_, dfs_step_final start goal gs⟩,
    ⟨_, ucs_step_final start goal gs⟩, ⟨_, iddfs_step_final start goal gs md⟩,
    ⟨_, bidi_step_final start goal gs⟩, ?_, ?_⟩
  · rintro ⟨p, hp⟩
    exact ⟨p, dls_step_found start goal gs limit p hp⟩
  · rintro ⟨p, hp⟩
    rcases hd : dls start goal gs limit with p0 | - | -
    · exact ⟨p0, rfl⟩
    · have hfalse := dls_step_not_found start goal gs limit (Or.inl hd) _
        (List.mem_of_mem_getLast? (by rw [hp]; rfl))
      exact absurd hfalse (by simp [SEvent.isPath])
    · have hfalse := dls_step_not_found start goal gs limit (Or.inr hd) _
        (List.mem_of_mem_getLast? (by rw [hp]; rfl))
      exact absurd hfalse (by simp [SEvent.isPath])

/-- Witness for the amended C7 at a concrete input. -/
theorem C7_step_terminal_path_witness :
    (∃ po, (bfs_step (0, 0) (1, 1) ((2 : Int), (2 : Int))).getLast? =
      some (.pathE po)) ∧
    (∃ po, (dfs_step (0, 0) (1, 1) (2, 2)).getLast? = some (.pathE po)) ∧
    (∃ po, (ucs_step (0, 0) (1, 1) (2, 2)).getLast? = some (.pathE po)) ∧
    (∃ po, (iddfs_step (0, 0) (1, 1) (2, 2) 4).getLast? = some (.pathE po)) ∧
    (∃ po, (bidirectional_search_step (0, 0) (1, 1) (2, 2)).getLast? =
      some (.pathE po)) ∧
    ((∃ p, dls (0, 0) (1, 1) (2, 2) 3 = .found p) ↔
      ∃ p, (dls_step (0, 0) (1, 1) (2, 2) 3).getLast? =
        some (.pathE (some p))) :=
  C7_step_terminal_path (0, 0) (1, 1) (2, 2) 3 4

/-- **C2 (counterexample).** On a 1×3 grid with `limit = 1`, the batch
`dls((0,0), (0,2))` returns `"cutoff"`, but `dls_step` on the same input
exhausts after two `step` events with no terminal `path` event, so the
step-wise form does not reproduce the batch outcome. -/
theorem C2_counterexample :
    dls (0, 0) (0, 2) ((1 : Int), (3 : Int)) 1 = .cutoff ∧
    dls_step (0, 0) (0, 2) ((1 : Int), (3 : Int)) 1 =
      [SEvent.step, SEvent.step] := by
  constructor <;> decide

/-- **C2 (amended).** For `bfs`, `dfs`, `ucs`, `iddfs` and
`bidirectional_search`, on every input the step-wise variant's terminal
`path` event carries exactly the batch form's result (the found path, or
the not-found `None`).  For `dls`, this holds whenever the batch form
finds a path; on cutoff or exhaustion the step-wise form emits no
terminal `path` event (see the counterexample). -/
theorem C2_step_batch_agree (start goal : Cell) (gs : GridSize)
    (limit md : Nat) :
    (bfs_step start goal gs).getLast? =
      some (.pathE (bfs start goal gs).payload) ∧
    (dfs_step start goal gs).getLast? =
      some (.pathE (dfs start goal gs).payload) ∧
    (ucs_step start goal gs).getLast? =
      some (.pathE (ucs start goal gs).payload) ∧
    (iddfs_step start goal gs md).getLast? =
      some (.pathE (iddfs start goal gs md).payload) ∧
    (bidirectional_search_step start goal gs).getLast? =
      some (.pathE (bidirectional_search start goal gs).payload) ∧
    (∀ p, dls start goal gs limit = .found p →
      (dls_step start goal gs limit).getLast? = some (.pathE (some p))) :=
  ⟨bfs_step_final start goal gs, dfs_step_final start goal gs,
   ucs_step_final start goal gs, iddfs_step_final start goal gs md,
   bidi_step_final start goal gs, fun p hp =>
     dls_step_found start goal gs limit p hp⟩

/-- Witness for the amended C2 at a concrete input. -/
theorem C2_step_batch_agree_witness :
    (bfs_step (0, 1) (2, 0) ((3 : Int), (2 : Int))).getLast? =
      some (.pathE (bfs (0, 1) (2, 0) (3, 2)).payload) ∧
    (dfs_step (0, 1) (2, 0) (3, 2)).getLast? =
      some (.pathE (dfs (0, 1) (2, 0) (3, 2)).payload) ∧
    (ucs_step (0, 1) (2, 0) (3, 2)).getLast? =
      some (.pathE (ucs (0, 1) (2, 0) (3, 2)).payload) ∧
    (iddfs_step (0, 1) (2, 0) (3, 2) 8).getLast? =
      some (.pathE (iddfs (0, 1) (2, 0) (3, 2) 8).payload) ∧
    (bidirectional_search_step (0, 1) (2, 0) (3, 2)).getLast? =
      some (.pathE (bidirectional_search (0, 1) (2, 0) (3, 2)).payload) ∧
    (∀ p, dls (0, 1) (2, 0) (3, 2) 4 = .found p →
      (dls_step (0, 1) (2, 0) (3, 2) 4).getLast? =
        some (.pathE (some p))) :=
  C2_step_batch_agree (0, 1) (2, 0) (3, 2) 4 8

/-! ## Traces and simple paths

Machinery for C5 and C6: every replayable move sequence can be shortened
to one whose cell trace has no repeats, preserving the endpoint. -/

theorem traceFrom_head {gs : GridSize} {c : Cell} {p : List Action}
    {tr : List Cell} (h : traceFrom gs c p = some tr) :
    ∃ cs, tr = c :: cs := by
  cases p with
  | nil =>
    rw [traceFrom] at h
    cases h
    exact ⟨[], rfl⟩
  | cons a p' =>
    rw [traceFrom] at h
    cases hsm : stepMove gs c a with
    | none => simp [hsm] at h
    | some t =>
      simp only [hsm] at h
      rcases htr : traceFrom gs t p' with - | tr'
      · simp [htr] at h
      · simp only [htr, Option.map_some'] at h
        injection h with h
        exact ⟨tr', h.symm⟩

theorem traceFrom_getLast {gs : GridSize} :
    ∀ {p : List Action} {c : Cell} {tr : List Cell},
      traceFrom gs c p = some tr → replay gs c p = tr.getLast? := by
  intro p
  induction p with
  | nil =>
    intro c tr h
    rw [traceFrom] at h
    cases h
    rfl
  | cons a p' ih =>
    intro c tr h
    rw [traceFrom] at h
    rw [replay]
    cases hsm : stepMove gs c a with
    | none => simp [hsm] at h
    | some t =>
      simp only [hsm] at h ⊢
      rcases htr : traceFrom gs t p' with - | tr'
      · simp [htr] at h
      · simp only [htr, Option.map_some'] at h
        injection h with h
        subst h
        obtain ⟨cs, rfl⟩ := traceFrom_head htr
        rw [ih htr, List.getLast?_cons_cons]

theorem replay_traceFrom {gs : GridSize} :
    ∀ {p : List Action} {c g : Cell}, replay gs c p = some g →
      ∃ tr, traceFrom gs c p = some tr := by
  intro p
  induction p with
  | nil => exact fun _ => ⟨_, rfl⟩
  | cons a p' ih =>
    intro c g h
    rw [replay] at h
    cases hsm : stepMove gs c a with
    | none => simp [hsm] at h
    | some t =>
      simp only [hsm] at h
      obtain ⟨tr', htr'⟩ := ih h
      exact ⟨c :: tr', by rw [traceFrom]; simp [hsm, htr']⟩

/-- The trace from any cell occurring on a trace is a suffix of it. -/
theorem traceFrom_suffix_of_mem {gs : GridSize} :
    ∀ {p : List Action} {s : Cell} {tr : List Cell} {c : Cell},
      traceFrom gs s p = some tr → c ∈ tr →
      ∃ q tq, q.length ≤ p.length ∧ traceFrom gs c q = some tq ∧
        tq.getLast? = tr.getLast? ∧ tq <:+ tr := by
  intro p
  induction p with
  | nil =>
    intro s tr c h hc
    rw [traceFrom] at h
    cases h
    rw [List.mem_singleton] at hc
    subst hc
    exact ⟨[], [c], le_rfl, rfl, rfl, List.suffix_rfl⟩
  | cons a p' ih =>
    intro s tr c h hc
    rw [traceFrom] at h
    cases hsm : stepMove gs s a with
    | none => simp [hsm] at h
    | some t =>
      simp only [hsm] at h
      rcases htr : traceFrom gs t p' with - | tr'
      · simp [htr] at h
      · simp only [htr, Option.map_some'] at h
        injection h with h
        subst h
        rcases List.mem_cons.mp hc with rfl | hc'
        · exact ⟨a :: p', c :: tr', le_rfl,
            by rw [traceFrom]; simp [hsm, htr], rfl, List.suffix_rfl⟩
        · obtain ⟨q, tq, hlen, htq, hlast, hsuf⟩ := ih htr hc'
          obtain ⟨cs, rfl⟩ := traceFrom_head htr
          exact ⟨q, tq, hlen.trans (Nat.le_succ _), htq,
            by rw [hlast, List.getLast?_cons_cons],
            hsuf.trans (List.suffix_cons _ _)⟩

/-- Loop cutting: any trace can be shortened to a repeat-free one with
the same endpoint. -/
theorem exists_simple_trace {gs : GridSize} :
    ∀ {p : List Action} {c : Cell} {tr : List Cell},
      traceFrom gs c p = some tr →
      ∃ q tq, q.length ≤ p.length ∧ traceFrom gs c q = some tq ∧
        tq.Nodup ∧ tq.getLast? = tr.getLast? := by
  intro p
  induction p with
  | nil =>
    intro c tr h
    rw [traceFrom] at h
    cases h
    exact ⟨[], [c], le_rfl, rfl, List.nodup_singleton c, rfl⟩
  | cons a p' ih =>
    intro c tr h
    rw [traceFrom] at h
    cases hsm : stepMove gs c a with
    | none => simp [hsm] at h
    | some t =>
      simp only [hsm] at h
      rcases htr : traceFrom gs t p' with - | tr'
      · simp [htr] at h
      · simp only [htr, Option.map_some'] at h
        injection h with h
        subst h
        obtain ⟨q1, tq1, hlen1, htq1, hnd1, hlast1⟩ := ih htr
        obtain ⟨cs1, rfl⟩ := traceFrom_head htq1
        have hlast' : (t :: cs1).getLast? = (c :: tr').getLast? := by
          obtain ⟨cs', rfl⟩ := traceFrom_head htr
          rw [hlast1, List.getLast?_cons_cons]
        by_cases hcm : c ∈ t :: cs1
        · obtain ⟨q2, tq2, hlen2, htq2, hlast2, hsuf2⟩ :=
            traceFrom_suffix_of_mem htq1 hcm
          exact ⟨q2, tq2, (hlen2.trans hlen1).trans (Nat.le_succ _), htq2,
            hnd1.sublist hsuf2.sublist, hlast2.trans hlast'⟩
        · refine ⟨a :: q1, c :: t :: cs1, Nat.succ_le_succ hlen1,
            by rw [traceFrom]; simp [hsm, htq1], ?_, ?_⟩
          · exact List.nodup_cons.mpr ⟨hcm, hnd1⟩
          · rw [List.getLast?_cons_cons]
            exact hlast'

/-! ## Reachability layers and the minimum distance

`reachSet` computes the cells reachable within `n` moves, giving a
decidable characterisation of `IsMinDist` usable on concrete inputs. -/

theorem self_mem_reachSet (gs : GridSize) (s : Cell) (n : Nat) :
    s ∈ reachSet gs s n := by
  induction n with
  | zero => simp [reachSet]
  | succ n ih =>
    rw [reachSet]
    exact Finset.mem_union_left _ ih

theorem reachSet_mono_succ (gs : GridSize) (s : Cell) (n : Nat) :
    reachSet gs s n ⊆ reachSet gs s (n + 1) := by
  intro x hx
  rw [reachSet]
  exact Finset.mem_union_left _ hx

theorem reachSet_succ_of_succ {gs : GridSize} {s t : Cell} {a : Action}
    (hst : stepMove gs s a = some t) :
    ∀ n : Nat, reachSet gs t n ⊆ reachSet gs s (n + 1) := by
  intro n
  induction n with
  | zero =>
    intro x hx
    rw [reachSet] at hx
    rw [Finset.mem_singleton] at hx
    subst hx
    rw [reachSet]
    apply Finset.mem_union_right
    rw [Finset.mem_biUnion]
    refine ⟨s, self_mem_reachSet gs s 0, ?_⟩
    rw [List.mem_toFinset, List.mem_map]
    exact ⟨(x, a, costH a), mem_get_successors.mpr ⟨hst, rfl⟩, rfl⟩
  | succ n ih =>
    intro x hx
    rw [reachSet] at hx
    rcases Finset.mem_union.mp hx with hx | hx
    · exact reachSet_mono_succ gs s (n + 1) (ih hx)
    · rw [Finset.mem_biUnion] at hx
      obtain ⟨c, hc, hxc⟩ := hx
      rw [reachSet]
      apply Finset.mem_union_right
      rw [Finset.mem_biUnion]
      exact ⟨c, ih hc, hxc⟩

theorem mem_reachSet_of_path {gs : GridSize} :
    ∀ {p : List Action} {s g : Cell} {n : Nat},
      replay gs s p = some g → p.length ≤ n → g ∈ reachSet gs s n := by
  intro p
  induction p with
  | nil =>
    intro s g n h _
    rw [replay] at h
    cases h
    exact self_mem_reachSet gs s n
  | cons a p' ih =>
    intro s g n h hlen
    rw [replay] at h
    cases hsm : stepMove gs s a with
    | none => simp [hsm] at h
    | some t =>
      simp only [hsm] at h
      obtain ⟨m, rfl⟩ : ∃ m, n = m + 1 := by
        rcases n with - | m
        · exact absurd hlen (by simp)
        · exact ⟨m, rfl⟩
      exact reachSet_succ_of_succ hsm m
        (ih h (Nat.le_of_succ_le_succ hlen))

theorem path_of_mem_reachSet {gs : GridSize} {s : Cell} :
    ∀ {n : Nat} {g : Cell}, g ∈ reachSet gs s n →
      ∃ p, replay gs s p = some g ∧ p.length ≤ n := by
  intro n
  induction n with
  | zero =>
    intro g hg
    rw [reachSet, Finset.mem_singleton] at hg
    subst hg
    exact ⟨[], rfl, le_rfl⟩
  | succ n ih =>
    intro g hg
    rw [reachSet] at hg
    rcases Finset.mem_union.mp hg with hg | hg
    · obtain ⟨p, hp, hl⟩ := ih hg
      exact ⟨p, hp, hl.trans (Nat.le_succ _)⟩
    · rw [Finset.mem_biUnion] at hg
      obtain ⟨c, hc, hgc⟩ := hg
      obtain ⟨p, hp, hl⟩ := ih hc
      rw [List.mem_toFinset, List.mem_map] at hgc
      obtain ⟨⟨t, a, cst⟩, hmem, ht⟩ := hgc
      obtain rfl : t = g := ht
      obtain ⟨hsm, -⟩ := mem_get_successors.mp hmem
      refine ⟨p ++ [a], ?_, ?_⟩
      · rw [replay_append, hp]
        show replay gs c [a] = some t
        rw [replay, hsm]
        rfl
      · rw [List.length_append]
        simpa using hl

theorem IsMinDist_iff_reach (gs : GridSize) (s g : Cell) (d : Nat) :
    IsMinDist gs s g d ↔
      g ∈ reachSet gs s d ∧ ∀ e, e < d → g ∉ reachSet gs s e := by
  constructor
  · rintro ⟨⟨p, hp, hl⟩, hmin⟩
    refine ⟨mem_reachSet_of_path hp hl.le, ?_⟩
    intro e he hg
    obtain ⟨q, hq, hql⟩ := path_of_mem_reachSet hg
    have := hmin q hq
    omega
  · rintro ⟨hg, hlt⟩
    have hmin : ∀ p, ValidPath gs s g p → d ≤ p.length := by
      intro p hp
      by_contra hcon
      push_neg at hcon
      exact hlt p.length hcon (mem_reachSet_of_path hp le_rfl)
    obtain ⟨p, hp, hl⟩ := path_of_mem_reachSet hg
    exact ⟨⟨p, hp, le_antisymm hl (hmin p hp)⟩, hmin⟩

/-! ## Depth-limited search: cutoff and completeness

`recursive_dls` blocks only the states on the current recursion path:
`path_states` gains `node.state` on entry and loses it again on every
non-found return, so sibling subtrees see the original set. -/

/-- Every non-found call leaves `path_states` exactly as it found it. -/
theorem recursive_dls_restore {goal : Cell} {gs : GridSize} :
    ∀ (limit : Nat) {node : Node} {ps : Finset Cell} {r : DlsRes}
      {ps' : Finset Cell}, node.state ∉ ps →
      recursive_dls node goal gs limit ps = (r, ps') →
      (∃ q, r = .found q) ∨ ps' = ps := by
  intro limit
  induction limit with
  | zero =>
    intro node ps r ps' _ h
    rw [recursive_dls.eq_def] at h
    split at h
    · cases h
      exact Or.inl ⟨_, rfl⟩
    · cases h
      exact Or.inr rfl
  | succ lim ih =>
    intro node ps r ps' hmem h
    rw [recursive_dls.eq_def] at h
    split at h
    · cases h
      exact Or.inl ⟨_, rfl⟩
    · have go : ∀ (succs : List (Cell × Action × Nat)) (ps0 : Finset Cell)
          (cut : Bool) {r : DlsRes} {ps' : Finset Cell},
          dlsGo (fun n ps2 => recursive_dls n goal gs lim ps2) node succs
            ps0 cut = (r, ps') →
          (∃ q, r = .found q) ∨ ps' = ps0.erase node.state := by
        intro succs
        induction succs with
        | nil =>
          intro ps0 cut r ps' hgo
          rw [dlsGo] at hgo
          cases hgo
          exact Or.inr rfl
        | cons sac rest ihs =>
          intro ps0 cut r ps' hgo
          obtain ⟨s, a, c⟩ := sac
          simp only [dlsGo] at hgo
          split at hgo
          · exact ihs _ _ hgo
          · rename_i hsmem
            rcases hrec : recursive_dls
                (Node.child s node a (node.cost + c) (node.depth + 1))
                goal gs lim ps0 with ⟨res, psr⟩
            rw [hrec] at hgo
            match res, hgo with
            | .found p0, hgo =>
              cases hgo
              exact Or.inl ⟨_, rfl⟩
            | .cutoff, hgo =>
              rcases ih hsmem hrec with ⟨q, hq⟩ | hpsr
              · cases hq
              · subst hpsr
                exact ihs _ _ hgo
            | .noPath, hgo =>
              rcases ih hsmem hrec with ⟨q, hq⟩ | hpsr
              · cases hq
              · subst hpsr
                exact ihs _ _ hgo
      rcases go _ _ _ h with hf | hps
      · exact Or.inl hf
      · rw [Finset.erase_insert hmem] at hps
        exact Or.inr hps

/-- Completeness: a repeat-free path to the goal avoiding the current
recursion path and fitting inside the limit is always found. -/
theorem recursive_dls_finds {goal : Cell} {gs : GridSize} :
    ∀ (limit : Nat) {node : Node} {ps : Finset Cell} {p : List Action}
      {cs : List Cell},
      traceFrom gs node.state p = some (node.state :: cs) →
      (node.state :: cs).Nodup →
      (∀ x ∈ cs, x ∉ ps) →
      (node.state :: cs).getLast? = some goal →
      p.length ≤ limit →
      ∃ q ps', recursive_dls node goal gs limit ps = (.found q, ps') := by
  intro limit
  induction limit with
  | zero =>
    intro node ps p cs htr _ _ hlast hlen
    obtain rfl : p = [] := List.length_eq_zero.mp (Nat.le_zero.mp hlen)
    rw [traceFrom] at htr
    injection htr with htr
    injection htr with h1 h2
    subst h2
    have hgoal : node.state = goal := by simpa using hlast
    exact ⟨_, _, by rw [recursive_dls.eq_def, if_pos hgoal]⟩
  | succ lim ih =>
    intro node ps p cs htr hnd hdis hlast hlen
    by_cases hgoal : node.state = goal
    · exact ⟨_, _, by rw [recursive_dls.eq_def, if_pos hgoal]⟩
    · cases p with
      | nil =>
        rw [traceFrom] at htr
        injection htr with htr
        injection htr with h1 h2
        subst h2
        exact absurd (by simpa using hlast) hgoal
      | cons a p' =>
        rw [traceFrom] at htr
        cases hsm : stepMove gs node.state a with
        | none => simp [hsm] at htr
        | some t =>
          simp only [hsm] at htr
          rcases htr' : traceFrom gs t p' with - | tr'
          · simp [htr'] at htr
          · simp only [htr', Option.map_some'] at htr
            injection htr with htr
            injection htr with h1 h2
            subst h2
            obtain ⟨cs', rfl⟩ := traceFrom_head htr'
            have hts : t ≠ node.state := by
              intro hts
              exact (List.nodup_cons.mp hnd).1 (hts ▸ List.mem_cons_self ..)
            have htps : t ∉ ps := hdis t (List.mem_cons_self ..)
            have ht_not : t ∉ insert node.state ps := by
              rw [Finset.mem_insert]
              rintro (h | h)
              exacts [hts h, htps h]
            have hfound : ∃ q ps',
                recursive_dls
                  (Node.child t node a (node.cost + costH a) (node.depth + 1))
                  goal gs lim (insert node.state ps) = (.found q, ps') := by
              refine @ih (Node.child t node a (node.cost + costH a)
                  (node.depth + 1)) (insert node.state ps) p' cs' htr'
                (List.nodup_cons.mp hnd).2 ?_ ?_ (Nat.le_of_succ_le_succ hlen)
              · intro x hx
                rw [Finset.mem_insert]
                rintro (h | h)
                · exact (List.nodup_cons.mp hnd).1
                    (h ▸ List.mem_cons_of_mem _ hx)
                · exact hdis x (List.mem_cons_of_mem _ hx) h
              · show (t :: cs').getLast? = some goal
                rw [← hlast, List.getLast?_cons_cons]
            have go : ∀ (succs : List (Cell × Action × Nat)) (cut : Bool),
                (t, a, costH a) ∈ succs →
                ∃ q ps', dlsGo (fun n ps2 => recursive_dls n goal gs lim ps2)
                  node succs (insert node.state ps) cut = (.found q, ps') := by
              intro succs
              induction succs with
              | nil =>
                intro cut hm
                cases hm
              | cons sac rest ihs =>
                intro cut hm
                obtain ⟨s', a', c'⟩ := sac
                simp only [dlsGo]
                by_cases hin : s' ∈ insert node.state ps
                · rw [if_pos hin]
                  rcases List.mem_cons.mp hm with heq | hm'
                  · injection heq with h1 h2
                    exact absurd hin (h1 ▸ ht_not)
                  · exact ihs cut hm'
                · rw [if_neg hin]
                  rcases hrec : recursive_dls
                      (Node.child s' node a' (node.cost + c') (node.depth + 1))
                      goal gs lim (insert node.state ps) with ⟨res, psr⟩
                  rcases res with p0 | - | -
                  · exact ⟨p0, psr, rfl⟩
                  · rcases recursive_dls_restore lim hin hrec with ⟨q, hq⟩ | hpsr
                    · cases hq
                    · subst hpsr
                      rcases List.mem_cons.mp hm with heq | hm'
                      · injection heq with h1 h23
                        injection h23 with h2 h3
                        subst h1; subst h2; subst h3
                        obtain ⟨q, psf, hf⟩ := hfound
                        rw [hf] at hrec
                        simp at hrec
                      · exact ihs true hm'
                  · rcases recursive_dls_restore lim hin hrec with ⟨q, hq⟩ | hpsr
                    · cases hq
                    · subst hpsr
                      rcases List.mem_cons.mp hm with heq | hm'
                      · injection heq with h1 h23
                        injection h23 with h2 h3
                        subst h1; subst h2; subst h3
                        obtain ⟨q, psf, hf⟩ := hfound
                        rw [hf] at hrec
                        simp at hrec
                      · exact ihs cut hm'
            have hmem_succ : (t, a, costH a) ∈ get_successors node.state gs :=
              mem_get_successors.mpr ⟨hsm, rfl⟩
            obtain ⟨q, ps', hgo⟩ := go _ false hmem_succ
            refine ⟨q, ps', ?_⟩
            rw [recursive_dls.eq_def, if_neg hgoal]
            exact hgo

/-- Once `cutoff_occurred` is set, the successor loop ends in a find or
a cutoff, never `None`. -/
theorem dlsGo_cut_true {goal : Cell} {gs : GridSize} {lim : Nat}
    {node : Node} :
    ∀ (succs : List (Cell × Action × Nat)) (ps0 : Finset Cell),
      (∃ q ps', dlsGo (fun n ps2 => recursive_dls n goal gs lim ps2) node
        succs ps0 true = (.found q, ps')) ∨
      (dlsGo (fun n ps2 => recursive_dls n goal gs lim ps2) node succs ps0
        true).1 = .cutoff := by
  intro succs
  induction succs with
  | nil =>
    intro ps0
    exact Or.inr rfl
  | cons sac rest ihs =>
    intro ps0
    obtain ⟨s, a, c⟩ := sac
    by_cases hin : s ∈ ps0
    · rcases ihs ps0 with h | h
      · exact Or.inl (by simpa only [dlsGo, if_pos hin] using h)
      · exact Or.inr (by simpa only [dlsGo, if_pos hin] using h)
    · rcases hrec : recursive_dls
          (Node.child s node a (node.cost + c) (node.depth + 1))
          goal gs lim ps0 with ⟨res, psr⟩
      rcases res with p0 | - | -
      · refine Or.inl ⟨p0, psr, ?_⟩
        simp only [dlsGo, if_neg hin]
        rw [hrec]
      · rcases ihs psr with h | h
        · obtain ⟨q, ps', h⟩ := h
          refine Or.inl ⟨q, ps', ?_⟩
          simp only [dlsGo, if_neg hin]
          rw [hrec]
          exact h
        · refine Or.inr ?_
          simp only [dlsGo, if_neg hin]
          rw [hrec]
          exact h
      · rcases ihs psr with h | h
        · obtain ⟨q, ps', h⟩ := h
          refine Or.inl ⟨q, ps', ?_⟩
          simp only [dlsGo, if_neg hin]
          rw [hrec]
          exact h
        · refine Or.inr ?_
          simp only [dlsGo, if_neg hin]
          rw [hrec]
          exact h

/-- With the limit exhausted along some repeat-free escape route, the
search ends in a find or a `"cutoff"`, never `None`. -/
theorem recursive_dls_cutoff {goal : Cell} {gs : GridSize} :
    ∀ (limit : Nat) {node : Node} {ps : Finset Cell} {p : List Action}
      {cs : List Cell},
      traceFrom gs node.state p = some (node.state :: cs) →
      (node.state :: cs).Nodup →
      (∀ x ∈ cs, x ∉ ps) →
      limit ≤ p.length →
      (∃ q ps', recursive_dls node goal gs limit ps = (.found q, ps')) ∨
        (recursive_dls node goal gs limit ps).1 = .cutoff := by
  intro limit
  induction limit with
  | zero =>
    intro node ps p cs _ _ _ _
    by_cases hgoal : node.state = goal
    · exact Or.inl ⟨_, _, by rw [recursive_dls.eq_def, if_pos hgoal]⟩
    · refine Or.inr ?_
      rw [recursive_dls.eq_def, if_neg hgoal]
  | succ lim ih =>
    intro node ps p cs htr hnd hdis hlen
    by_cases hgoal : node.state = goal
    · exact Or.inl ⟨_, _, by rw [recursive_dls.eq_def, if_pos hgoal]⟩
    · cases p with
      | nil => exact absurd hlen (by simp)
      | cons a p' =>
        rw [traceFrom] at htr
        cases hsm : stepMove gs node.state a with
        | none => simp [hsm] at htr
        | some t =>
          simp only [hsm] at htr
          rcases htr' : traceFrom gs t p' with - | tr'
          · simp [htr'] at htr
          · simp only [htr', Option.map_some'] at htr
            injection htr with htr
            injection htr with h1 h2
            subst h2
            obtain ⟨cs', rfl⟩ := traceFrom_head htr'
            have hts : t ≠ node.state := by
              intro hts
              exact (List.nodup_cons.mp hnd).1 (hts ▸ List.mem_cons_self ..)
            have htps : t ∉ ps := hdis t (List.mem_cons_self ..)
            have ht_not : t ∉ insert node.state ps := by
              rw [Finset.mem_insert]
              rintro (h | h)
              exacts [hts h, htps h]
            have hat : (∃ q ps', recursive_dls
                  (Node.child t node a (node.cost + costH a) (node.depth + 1))
                  goal gs lim (insert node.state ps) = (.found q, ps')) ∨
                (recursive_dls
                  (Node.child t node a (node.cost + costH a) (node.depth + 1))
                  goal gs lim (insert node.state ps)).1 = .cutoff := by
              refine @ih (Node.child t node a (node.cost + costH a)
                  (node.depth + 1)) (insert node.state ps) p' cs' htr'
                (List.nodup_cons.mp hnd).2 ?_ (Nat.le_of_succ_le_succ hlen)
              intro x hx
              rw [Finset.mem_insert]
              rintro (h | h)
              · exact (List.nodup_cons.mp hnd).1
                  (h ▸ List.mem_cons_of_mem _ hx)
              · exact hdis x (List.mem_cons_of_mem _ hx) h
            have go : ∀ (succs : List (Cell × Action × Nat)) (cut : Bool),
                (t, a, costH a) ∈ succs →
                (∃ q ps', dlsGo (fun n ps2 => recursive_dls n goal gs lim ps2)
                  node succs (insert node.state ps) cut = (.found q, ps')) ∨
                (dlsGo (fun n ps2 => recursive_dls n goal gs lim ps2)
                  node succs (insert node.state ps) cut).1 = .cutoff := by
              intro succs
              induction succs with
              | nil =>
                intro cut hm
                cases hm
              | cons sac rest ihs =>
                intro cut hm
                obtain ⟨s', a', c'⟩ := sac
                by_cases hin : s' ∈ insert node.state ps
                · have hm' : (t, a, costH a) ∈ rest := by
                    rcases List.mem_cons.mp hm with heq | hm'
                    · injection heq with hh1 hh2
                      exact absurd hin (hh1 ▸ ht_not)
                    · exact hm'
                  rcases ihs cut hm' with h | h
                  · exact Or.inl (by simpa only [dlsGo, if_pos hin] using h)
                  · exact Or.inr (by simpa only [dlsGo, if_pos hin] using h)
                · rcases hrec : recursive_dls
                      (Node.child s' node a' (node.cost + c') (node.depth + 1))
                      goal gs lim (insert node.state ps) with ⟨res, psr⟩
                  rcases res with p0 | - | -
                  · refine Or.inl ⟨p0, psr, ?_⟩
                    simp only [dlsGo, if_neg hin]
                    rw [hrec]
                  · rcases dlsGo_cut_true rest psr with h | h
                    · obtain ⟨q, ps', h⟩ := h
                      refine Or.inl ⟨q, ps', ?_⟩
                      simp only [dlsGo, if_neg hin]
                      rw [hrec]
                      exact h
                    · refine Or.inr ?_
                      simp only [dlsGo, if_neg hin]
                      rw [hrec]
                      exact h
                  · rcases recursive_dls_restore lim hin hrec with ⟨q, hq⟩ | hpsr
                    · cases hq
                    · subst hpsr
                      have hm' : (t, a, costH a) ∈ rest := by
                        rcases List.mem_cons.mp hm with heq | hm'
                        · injection heq with hh1 hh23
                          injection hh23 with hh2 hh3
                          subst hh1; subst hh2; subst hh3
                          rcases hat with ⟨q, psf, hf⟩ | hcut
                          · rw [hf] at hrec
                            simp at hrec
                          · rw [hrec] at hcut
                            simp at hcut
                        · exact hm'
                      rcases ihs cut hm' with h | h
                      · obtain ⟨q, ps', h⟩ := h
                        refine Or.inl ⟨q, ps', ?_⟩
                        simp only [dlsGo, if_neg hin]
                        rw [hrec]
                        exact h
                      · refine Or.inr ?_
                        simp only [dlsGo, if_neg hin]
                        rw [hrec]
                        exact h
            have hmem_succ : (t, a, costH a) ∈ get_successors node.state gs :=
              mem_get_successors.mpr ⟨hsm, rfl⟩
            rcases go _ false hmem_succ with h | h
            · obtain ⟨q, ps', h⟩ := h
              refine Or.inl ⟨q, ps', ?_⟩
              rw [recursive_dls.eq_def, if_neg hgoal]
              exact h
            · refine Or.inr ?_
              rw [recursive_dls.eq_def, if_neg hgoal]
              exact h

/-- Soundness of the limit: a found path is at most `limit` moves longer
than the node it was launched from. -/
theorem recursive_dls_found_len {goal : Cell} {gs : GridSize} :
    ∀ (limit : Nat) {node : Node} {ps : Finset Cell} {p : List Action}
      {ps' : Finset Cell}, depthOk node →
      recursive_dls node goal gs limit ps = (.found p, ps') →
      p.length ≤ node.depth + limit := by
  intro limit
  induction limit with
  | zero =>
    intro node ps p ps' hd h
    rw [recursive_dls.eq_def] at h
    split at h
    · cases h
      rw [depthOk_length hd]
      omega
    · cases h
  | succ lim ih =>
    intro node ps p ps' hd h
    rw [recursive_dls.eq_def] at h
    split at h
    · cases h
      rw [depthOk_length hd]
      omega
    · have go : ∀ (succs : List (Cell × Action × Nat)) (ps0 : Finset Cell)
          (cut : Bool) {p : List Action} {ps' : Finset Cell},
          dlsGo (fun n ps2 => recursive_dls n goal gs lim ps2) node succs
            ps0 cut = (.found p, ps') →
          p.length ≤ node.depth + (lim + 1) := by
        intro succs
        induction succs with
        | nil =>
          intro ps0 cut p ps' hgo
          rw [dlsGo, Prod.mk.injEq] at hgo
          rcases hgo with ⟨h1, -⟩
          split at h1 <;> simp at h1
        | cons sac rest ihs =>
          intro ps0 cut p ps' hgo
          obtain ⟨s, a, c⟩ := sac
          simp only [dlsGo] at hgo
          split at hgo
          · exact ihs _ _ hgo
          · rcases hrec : recursive_dls
                (Node.child s node a (node.cost + c) (node.depth + 1))
                goal gs lim ps0 with ⟨res, psr⟩
            rw [hrec] at hgo
            match res, hgo with
            | .found p0, hgo =>
              cases hgo
              have := @ih (Node.child s node a (node.cost + c)
                (node.depth + 1)) ps0 _ _ ⟨hd, rfl⟩ hrec
              simp only [Node.depth_child] at this
              omega
            | .cutoff, hgo => exact ihs _ _ hgo
            | .noPath, hgo => exact ihs _ _ hgo
      exact go _ _ _ h

/-- `dls` never returns a path longer than its limit. -/
theorem dls_found_len {start goal : Cell} {gs : GridSize} {limit : Nat}
    {p : List Action} (h : dls start goal gs limit = .found p) :
    p.length ≤ limit := by
  unfold dls at h
  rcases hrec : recursive_dls (Node.root start) goal gs limit ∅ with ⟨res, psf⟩
  rw [hrec] at h
  have hres : res = .found p := h
  subst hres
  have hlen := @recursive_dls_found_len goal gs limit (Node.root start) ∅ p
    psf True.intro hrec
  simpa using hlen

/-- With a limit below the minimum distance, `dls` reports `"cutoff"`. -/
theorem dls_cutoff_of_lt {start goal : Cell} {gs : GridSize} {d limit : Nat}
    (hmin : IsMinDist gs start goal d) (hlt : limit < d) :
    dls start goal gs limit = .cutoff := by
  obtain ⟨⟨p0, hp0, hl0⟩, hminle⟩ := hmin
  obtain ⟨tr, htr⟩ := replay_traceFrom hp0
  obtain ⟨p1, tq, hlen, htq, hnd, hlast⟩ := exists_simple_trace htr
  have hrep1 : replay gs start p1 = some goal := by
    rw [traceFrom_getLast htq, hlast, ← traceFrom_getLast htr]
    exact hp0
  have hd1 : d ≤ p1.length := hminle p1 hrep1
  obtain ⟨cs, rfl⟩ := traceFrom_head htq
  have hor := @recursive_dls_cutoff goal gs limit (Node.root start) ∅ p1 cs
    htq hnd (by simp) (by omega)
  rcases hor with ⟨q, psf, hf⟩ | hcut
  · exfalso
    have hq : dls start goal gs limit = .found q := by
      unfold dls
      rw [hf]
    have h1 := dls_found_len hq
    have h2 := hminle q (dls_found_goalChain hq)
    omega
  · unfold dls
    exact hcut

/-- With the limit at least the minimum distance, `dls` finds a path. -/
theorem dls_found_of_le {start goal : Cell} {gs : GridSize} {d limit : Nat}
    (hmin : IsMinDist gs start goal d) (hle : d ≤ limit) :
    ∃ p, dls start goal gs limit = .found p := by
  obtain ⟨⟨p0, hp0, hl0⟩, hminle⟩ := hmin
  obtain ⟨tr, htr⟩ := replay_traceFrom hp0
  obtain ⟨p1, tq, hlen, htq, hnd, hlast⟩ := exists_simple_trace htr
  have hrep1 : replay gs start p1 = some goal := by
    rw [traceFrom_getLast htq, hlast, ← traceFrom_getLast htr]
    exact hp0
  obtain ⟨cs, rfl⟩ := traceFrom_head htq
  have hlast' : (start :: cs).getLast? = some goal := by
    rw [← traceFrom_getLast htq]
    exact hrep1
  obtain ⟨q, psf, hf⟩ := @recursive_dls_finds goal gs limit (Node.root start)
    ∅ p1 cs htq hnd (by simp) hlast' (by omega)
  exact ⟨q, by unfold dls; rw [hf]⟩

/-- **C5.** For in-bounds `start ≠ goal` whose minimum move count is `d`:
`dls` with any `limit < d` returns the distinguished `"cutoff"` value
(never the not-found `None`), and `dls` with any `limit ≥ d` returns a
path. -/
theorem C5_dls_cutoff_threshold (start goal : Cell) (gs : GridSize)
    (d : Nat) (_hs : inBounds gs start) (_hg : inBounds gs goal)
    (_hne : start ≠ goal) (hmin : IsMinDist gs start goal d) :
    (∀ limit, limit < d → dls start goal gs limit = .cutoff) ∧
    (∀ limit, d ≤ limit → ∃ p, dls start goal gs limit = .found p) :=
  ⟨fun _ h => dls_cutoff_of_lt hmin h, fun _ h => dls_found_of_le hmin h⟩

/-- Witness for C5 on a 1×3 grid: the minimum distance from `(0,0)` to
`(0,2)` is 2, `dls` with limits 0 and 1 reports `"cutoff"`, and with
limit 2 (or more) finds a path. -/
theorem C5_dls_cutoff_threshold_witness :
    (inBounds ((1 : Int), (3 : Int)) ((0 : Int), (0 : Int)) ∧
      inBounds ((1 : Int), (3 : Int)) ((0 : Int), (2 : Int)) ∧
      ((0 : Int), (0 : Int)) ≠ ((0 : Int), (2 : Int)) ∧
      IsMinDist ((1 : Int), (3 : Int)) (0, 0) (0, 2) 2) ∧
    ((∀ limit, limit < 2 → dls (0, 0) (0, 2) (1, 3) limit = .cutoff) ∧
      (∀ limit, 2 ≤ limit → ∃ p, dls (0, 0) (0, 2) (1, 3) limit = .found p)) :=
  have hmin : IsMinDist ((1 : Int), (3 : Int)) (0, 0) (0, 2) 2 :=
    (IsMinDist_iff_reach ((1 : Int), (3 : Int)) (0, 0) (0, 2) 2).mpr
      (by decide)
  ⟨⟨by decide, by decide, by decide, hmin⟩,
    C5_dls_cutoff_threshold (0, 0) (0, 2) (1, 3) 2 (by decide) (by decide)
      (by decide) hmin⟩

/-! ## Iterative deepening: minimality -/

/-- The deepening loop skips every depth whose `dls` does not find. -/
theorem iddfsGo_append_skip {start goal : Cell} {gs : GridSize} :
    ∀ {es1 es2 : List Nat},
      (∀ e ∈ es1, ∀ p, dls start goal gs e ≠ .found p) →
      iddfsGo start goal gs (es1 ++ es2) = iddfsGo start goal gs es2 := by
  intro es1
  induction es1 with
  | nil => intro es2 _; rfl
  | cons e es ih =>
    intro es2 h
    rw [List.cons_append, iddfsGo]
    rcases hd : dls start goal gs e with p | - | -
    · exact absurd hd (h e (List.mem_cons_self ..) p)
    · exact ih fun x hx => h x (List.mem_cons_of_mem _ hx)
    · exact ih fun x hx => h x (List.mem_cons_of_mem _ hx)

theorem iddfsGo_none {start goal : Cell} {gs : GridSize} :
    ∀ {es : List Nat},
      (∀ e ∈ es, ∀ p, dls start goal gs e ≠ .found p) →
      iddfsGo start goal gs es = .noPath := by
  intro es h
  have := @iddfsGo_append_skip start goal gs es [] h
  rwa [List.append_nil] at this

theorem range_split (a b : Nat) :
    List.range (a + b) = List.range a ++ (List.range b).map (a + ·) := by
  induction b with
  | zero => simp
  | succ b ih =>
    rw [← Nat.add_assoc, List.range_succ, ih, List.range_succ, List.map_append,
      List.append_assoc]
    rfl

/-- `iddfs` finds a path of exactly the minimal move count, provided the
minimum is below the depth ceiling. -/
theorem iddfs_min_found {start goal : Cell} {gs : GridSize} {d md : Nat}
    (hmin : IsMinDist gs start goal d) (hd : d < md) :
    ∃ p, iddfs start goal gs md = .found p ∧ ValidPath gs start goal p ∧
      p.length = d := by
  obtain ⟨p, hp⟩ := dls_found_of_le hmin le_rfl
  have hvalid : ValidPath gs start goal p := dls_found_goalChain hp
  have hlen : p.length = d :=
    le_antisymm (dls_found_len hp) (hmin.2 p hvalid)
  refine ⟨p, ?_, hvalid, hlen⟩
  unfold iddfs
  obtain ⟨m, hm⟩ : ∃ m, md = d + (m + 1) := ⟨md - d - 1, by omega⟩
  rw [hm, range_split]
  rw [iddfsGo_append_skip]
  · simp only [List.range_succ_eq_map, List.map_cons]
    rw [iddfsGo, Nat.add_zero, hp]
  · intro e he q hq
    have he' : e < d := List.mem_range.mp he
    have h1 := dls_found_len hq
    have h2 := hmin.2 q (dls_found_goalChain hq)
    omega

/-- **C6.** With `d` the minimal move count from `start` to `goal`: when
`d` is below the depth ceiling 1000, `iddfs` returns a path of exactly
`d` moves (the same shortest length BFS reports); when every path needs
at least 1000 moves — the ceiling is exhausted with no path below it —
`iddfs` returns the not-found `None`, never a path. -/
theorem C6_iddfs_minimal (start goal : Cell) (gs : GridSize) (d : Nat)
    (hmin : IsMinDist gs start goal d) :
    (d < 1000 → ∃ p, iddfs start goal gs = .found p ∧
      ValidPath gs start goal p ∧ p.length = d) ∧
    (1000 ≤ d → iddfs start goal gs = .noPath) := by
  constructor
  · intro hd
    exact iddfs_min_found hmin hd
  · intro hd
    unfold iddfs
    apply iddfsGo_none
    intro e he p hp
    have he' : e < 1000 := List.mem_range.mp he
    have h1 := dls_found_len hp
    have h2 := hmin.2 p (dls_found_goalChain hp)
    omega

/-- Witness for C6 on a 1×3 grid: the minimal distance 2 is below the
ceiling, and `iddfs` finds a 2-move path. -/
theorem C6_iddfs_minimal_witness :
    IsMinDist ((1 : Int), (3 : Int)) (0, 0) (0, 2) 2 ∧
    (∃ p, iddfs (0, 0) (0, 2) ((1 : Int), (3 : Int)) = .found p ∧
      ValidPath ((1 : Int), (3 : Int)) (0, 0) (0, 2) p ∧ p.length = 2) :=
  have hmin : IsMinDist ((1 : Int), (3 : Int)) (0, 0) (0, 2) 2 :=
    (IsMinDist_iff_reach ((1 : Int), (3 : Int)) (0, 0) (0, 2) 2).mpr
      (by decide)
  ⟨hmin, (C6_iddfs_minimal (0, 0) (0, 2) (1, 3) 2 hmin).1 (by decide)⟩

/-! ## Minimum distances: uniqueness, existence and one-step bounds -/

theorem IsMinDist_unique {gs : GridSize} {s y : Cell} {k k' : Nat}
    (h : IsMinDist gs s y k) (h' : IsMinDist gs s y k') : k = k' := by
  obtain ⟨⟨p, hp, hl⟩, hmin⟩ := h
  obtain ⟨⟨p', hp', hl'⟩, hmin'⟩ := h'
  have h1 := hmin p' hp'
  have h2 := hmin' p hp
  omega

theorem exists_isMinDist {gs : GridSize} {s y : Cell} {p : List Action}
    (hp : ValidPath gs s y p) : ∃ k, IsMinDist gs s y k := by
  have hex : ∃ n, y ∈ reachSet gs s n :=
    ⟨p.length, mem_reachSet_of_path hp le_rfl⟩
  exact ⟨Nat.find hex, (IsMinDist_iff_reach gs s y (Nat.find hex)).mpr
    ⟨Nat.find_spec hex, fun e he => Nat.find_min hex he⟩⟩

theorem isMinDist_self (gs : GridSize) (s : Cell) : IsMinDist gs s s 0 :=
  ⟨⟨[], rfl, rfl⟩, fun _ _ => Nat.zero_le _⟩

theorem isMinDist_zero {gs : GridSize} {s y : Cell}
    (h : IsMinDist gs s y 0) : y = s := by
  obtain ⟨⟨p, hp, hl⟩, -⟩ := h
  obtain rfl : p = [] := List.length_eq_zero.mp hl
  have hp' : replay gs s [] = some y := hp
  rw [replay] at hp'
  injection hp' with hp'
  exact hp'.symm

theorem isMinDist_pos {gs : GridSize} {s y : Cell} {d : Nat}
    (h : IsMinDist gs s y d) (hne : s ≠ y) : 1 ≤ d := by
  rcases Nat.eq_zero_or_pos d with rfl | h1
  · exact absurd (isMinDist_zero h).symm hne
  · exact h1

/-- One move changes the minimum distance by at most one (upward). -/
theorem isMinDist_step_le {gs : GridSize} {s x y : Cell} {k : Nat}
    {a : Action} (hx : IsMinDist gs s x k) (hsm : stepMove gs x a = some y) :
    ∃ k', IsMinDist gs s y k' ∧ k' ≤ k + 1 := by
  obtain ⟨⟨p, hp, hl⟩, -⟩ := hx
  have hy : ValidPath gs s y (p ++ [a]) := by
    show replay gs s (p ++ [a]) = some y
    rw [replay_append, hp]
    show replay gs x [a] = some y
    rw [replay, hsm]
    rfl
  obtain ⟨k', hk'⟩ := exists_isMinDist hy
  refine ⟨k', hk', ?_⟩
  have hle := hk'.2 _ hy
  rw [List.length_append] at hle
  simp only [List.length_singleton] at hle
  omega

/-- Every cell at positive minimum distance has a predecessor exactly one
step closer. -/
theorem isMinDist_pred {gs : GridSize} {s y : Cell} {k : Nat}
    (h : IsMinDist gs s y (k + 1)) :
    ∃ x a, stepMove gs x a = some y ∧ IsMinDist gs s x k := by
  obtain ⟨⟨p, hp, hl⟩, hmin⟩ := h
  obtain ⟨p', a, rfl⟩ : ∃ p' a, p = p' ++ [a] := by
    rcases List.eq_nil_or_concat p with rfl | ⟨p', a, rfl⟩
    · simp at hl
    · exact ⟨p', a, List.concat_eq_append ..⟩
  have hrep : replay gs s (p' ++ [a]) = some y := hp
  rw [replay_append] at hrep
  rcases hx : replay gs s p' with - | x
  · rw [hx] at hrep
    cases hrep
  · rw [hx] at hrep
    have hrep' : replay gs x [a] = some y := hrep
    rw [replay] at hrep'
    rcases hsm : stepMove gs x a with - | t
    · rw [hsm] at hrep'
      cases hrep'
    · rw [hsm] at hrep'
      have ht : t = y := by
        have h2 : some t = some y := hrep'
        injection h2
      subst ht
      obtain ⟨k', hk'⟩ :=
        exists_isMinDist (show ValidPath gs s x p' from hx)
      have hl' : p'.length = k := by
        rw [List.length_append] at hl
        simpa using hl
      have h1 : k' ≤ k := hl' ▸ hk'.2 p' hx
      obtain ⟨k'', hk'', hk''le⟩ := isMinDist_step_le hk' hsm
      have h2 : k'' = k + 1 :=
        IsMinDist_unique hk'' ⟨⟨p' ++ [a], hp, hl⟩, hmin⟩
      obtain rfl : k' = k := by omega
      exact ⟨x, a, hsm, hk'⟩

/-! ## Reachability of every in-bounds pair (no obstacles) -/

theorem replay_rep_bottom {gs : GridSize} :
    ∀ (n : Nat) (x y : Int), inBounds gs (x, y) → inBounds gs (x + n, y) →
      replay gs (x, y) (List.replicate n .bottom) = some (x + n, y) := by
  intro n
  induction n with
  | zero =>
    intro x y _ _
    rw [List.replicate, replay]
    simp
  | succ n ih =>
    intro x y h0 h1
    have hmid : inBounds gs (x + 1, y) := by
      obtain ⟨a0, a1, a2, a3⟩ := h0
      obtain ⟨b0, b1, b2, b3⟩ := h1
      refine ⟨?_, ?_, a2, a3⟩ <;> [omega; skip]
      have : (((n : Nat) + 1 : Nat) : Int) = (n : Int) + 1 := by push_cast; ring
      omega
    rw [List.replicate, replay]
    have hsm : stepMove gs (x, y) .bottom = some (x + 1, y) := by
      rw [stepMove]
      have ha : applyMove (x, y) Action.bottom = (x + 1, y) := by
        simp [applyMove, delta]
      rw [ha, if_pos hmid]
    rw [hsm]
    have hxy : x + 1 + (n : Int) = x + ((n : Nat) + 1 : Nat) := by
      push_cast; ring
    have := ih (x + 1) y hmid (by rw [hxy]; exact h1)
    show replay gs (x + 1, y) (List.replicate n .bottom) =
      some (x + (((n : Nat) + 1 : Nat) : Int), y)
    rw [this, hxy]

theorem replay_rep_up {gs : GridSize} :
    ∀ (n : Nat) (x y : Int), inBounds gs (x, y) → inBounds gs (x - n, y) →
      replay gs (x, y) (List.replicate n .up) = some (x - n, y) := by
  intro n
  induction n with
  | zero =>
    intro x y _ _
    rw [List.replicate, replay]
    simp
  | succ n ih =>
    intro x y h0 h1
    have hmid : inBounds gs (x - 1, y) := by
      obtain ⟨a0, a1, a2, a3⟩ := h0
      obtain ⟨b0, b1, b2, b3⟩ := h1
      refine ⟨?_, by omega, a2, a3⟩
      have : (((n : Nat) + 1 : Nat) : Int) = (n : Int) + 1 := by push_cast; ring
      omega
    rw [List.replicate, replay]
    have hsm : stepMove gs (x, y) .up = some (x - 1, y) := by
      rw [stepMove]
      have ha : applyMove (x, y) Action.up = (x - 1, y) := by
        simp [applyMove, delta]
        ring
      rw [ha, if_pos hmid]
    rw [hsm]
    have hxy : x - 1 - (n : Int) = x - ((n : Nat) + 1 : Nat) := by
      push_cast; ring
    have := ih (x - 1) y hmid (by rw [hxy]; exact h1)
    show replay gs (x - 1, y) (List.replicate n .up) =
      some (x - (((n : Nat) + 1 : Nat) : Int), y)
    rw [this, hxy]

theorem replay_rep_right {gs : GridSize} :
    ∀ (n : Nat) (x y : Int), inBounds gs (x, y) → inBounds gs (x, y + n) →
      replay gs (x, y) (List.replicate n .right) = some (x, y + n) := by
  intro n
  induction n with
  | zero =>
    intro x y _ _
    rw [List.replicate, replay]
    simp
  | succ n ih =>
    intro x y h0 h1
    have hmid : inBounds gs (x, y + 1) := by
      obtain ⟨a0, a1, a2, a3⟩ := h0
      obtain ⟨b0, b1, b2, b3⟩ := h1
      refine ⟨a0, a1, by omega, ?_⟩
      have : (((n : Nat) + 1 : Nat) : Int) = (n : Int) + 1 := by push_cast; ring
      omega
    rw [List.replicate, replay]
    have hsm : stepMove gs (x, y) .right = some (x, y + 1) := by
      rw [stepMove]
      have ha : applyMove (x, y) Action.right = (x, y + 1) := by
        simp [applyMove, delta]
      rw [ha, if_pos hmid]
    rw [hsm]
    have hyy : y + 1 + (n : Int) = y + ((n : Nat) + 1 : Nat) := by
      push_cast; ring
    have := ih x (y + 1) hmid (by rw [hyy]; exact h1)
    show replay gs (x, y + 1) (List.replicate n .right) =
      some (x, y + (((n : Nat) + 1 : Nat) : Int))
    rw [this, hyy]

theorem replay_rep_left {gs : GridSize} :
    ∀ (n : Nat) (x y : Int), inBounds gs (x, y) → inBounds gs (x, y - n) →
      replay gs (x, y) (List.replicate n .left) = some (x, y - n) := by
  intro n
  induction n with
  | zero =>
    intro x y _ _
    rw [List.replicate, replay]
    simp
  | succ n ih =>
    intro x y h0 h1
    have hmid : inBounds gs (x, y - 1) := by
      obtain ⟨a0, a1, a2, a3⟩ := h0
      obtain ⟨b0, b1, b2, b3⟩ := h1
      refine ⟨a0, a1, ?_, by omega⟩
      have : (((n : Nat) + 1 : Nat) : Int) = (n : Int) + 1 := by push_cast; ring
      omega
    rw [List.replicate, replay]
    have hsm : stepMove gs (x, y) .left = some (x, y - 1) := by
      rw [stepMove]
      have ha : applyMove (x, y) Action.left = (x, y - 1) := by
        simp [applyMove, delta]
        ring
      rw [ha, if_pos hmid]
    rw [hsm]
    have hyy : y - 1 - (n : Int) = y - ((n : Nat) + 1 : Nat) := by
      push_cast; ring
    have := ih x (y - 1) hmid (by rw [hyy]; exact h1)
    show replay gs (x, y - 1) (List.replicate n .left) =
      some (x, y - (((n : Nat) + 1 : Nat) : Int))
    rw [this, hyy]

/-- On an obstacle-free grid the orthogonal staircase joins any two
in-bounds cells. -/
theorem staircase_valid {gs : GridSize} {s g : Cell}
    (hs : inBounds gs s) (hg : inBounds gs g) :
    ValidPath gs s g (staircase s g) := by
  obtain ⟨sx, sy⟩ := s
  obtain ⟨gx, gy⟩ := g
  show replay gs (sx, sy) (staircase (sx, sy) (gx, gy)) = some (gx, gy)
  rw [staircase, replay_append]
  have hmid : inBounds gs (gx, sy) :=
    ⟨hg.1, hg.2.1, hs.2.2.1, hs.2.2.2⟩
  have hv : replay gs (sx, sy)
      (List.replicate (gx - sx).natAbs (vAct (gx - sx))) = some (gx, sy) := by
    rw [vAct]
    split
    · rename_i hlt
      have hx : sx - (((gx - sx).natAbs : Nat) : Int) = gx := by omega
      have h2 := replay_rep_up (gx - sx).natAbs sx sy hs
        (by rw [hx]; exact hmid)
      rw [h2, hx]
    · rename_i hge
      have hx : sx + (((gx - sx).natAbs : Nat) : Int) = gx := by omega
      have h2 := replay_rep_bottom (gx - sx).natAbs sx sy hs
        (by rw [hx]; exact hmid)
      rw [h2, hx]
  rw [hv]
  show replay gs (gx, sy)
    (List.replicate (gy - sy).natAbs (hAct (gy - sy))) = some (gx, gy)
  rw [hAct]
  split
  · rename_i hlt
    have hy : sy - (((gy - sy).natAbs : Nat) : Int) = gy := by omega
    have h2 := replay_rep_left (gy - sy).natAbs gx sy hmid
      (by rw [hy]; exact hg)
    rw [h2, hy]
  · rename_i hge
    have hy : sy + (((gy - sy).natAbs : Nat) : Int) = gy := by omega
    have h2 := replay_rep_right (gy - sy).natAbs gx sy hmid
      (by rw [hy]; exact hg)
    rw [h2, hy]

/-- Every in-bounds pair has a well-defined minimum distance. -/
theorem reachable_of_inBounds {gs : GridSize} {s g : Cell}
    (hs : inBounds gs s) (hg : inBounds gs g) :
    ∃ d, IsMinDist gs s g d :=
  exists_isMinDist (staircase_valid hs hg)

/-! ## BFS explores the grid level by level -/

/-- One `bfs` expansion analysed level by level.  Under the loop
invariant (explored ⊇ all strictly closer cells, queue ⊇ all cells at
the current level), a found path has the expanded node's depth plus one;
otherwise the appended children sit exactly one level deeper at their
true minimum distance, every successor of the expanded node ends up
explored or queued, and no successor is the goal. -/
theorem bfsScan_level {gs : GridSize} {start goal : Cell} {D : Nat}
    {node : Node} {rest : List Node} {E : Finset Cell}
    (hnode : nodeOk gs start node)
    (hnd : IsMinDist gs start node.state D)
    (hgE : goal ∉ E)
    (hgnode : goal ≠ node.state)
    (cov5 : ∀ y k, IsMinDist gs start y k → k < D → y ≠ goal → y ∈ E)
    (cov6 : ∀ y k, IsMinDist gs start y k → k = D → y ≠ goal →
      y ∈ E ∨ y ∈ states (node :: rest)) :
    ∀ {succs : List (Cell × Action × Nat)} {q0 : List Node},
      (∀ sac ∈ succs, sac ∈ get_successors node.state gs) →
      (∃ chs0, q0 = rest ++ chs0 ∧ ∀ n ∈ chs0,
        n.depth = node.depth + 1 ∧ n.state ≠ goal ∧
        IsMinDist gs start n.state (D + 1)) →
      goal ∉ states q0 →
      (∀ p, bfsScan goal node succs q0 (insert node.state E) = .inl p →
        p.length = node.depth + 1) ∧
      (∀ q', bfsScan goal node succs q0 (insert node.state E) = .inr q' →
        (∃ chs, q' = rest ++ chs ∧ ∀ n ∈ chs,
          n.depth = node.depth + 1 ∧ n.state ≠ goal ∧
          IsMinDist gs start n.state (D + 1)) ∧
        (∀ y a c, (y, a, c) ∈ succs → y ≠ goal) ∧
        (∀ y a c, (y, a, c) ∈ succs →
          y ∈ insert node.state E ∨ y ∈ states q') ∧
        goal ∉ states q') := by
  intro succs
  induction succs with
  | nil =>
    intro q0 _ hq0 hgq0
    constructor
    · intro p h
      rw [bfsScan] at h
      cases h
    · intro q' h
      rw [bfsScan] at h
      cases h
      refine ⟨hq0, ?_, ?_, hgq0⟩
      · intro y a c hm
        cases hm
      · intro y a c hm
        cases hm
  | cons sac srest ihs =>
    intro q0 hsub hq0 hgq0
    obtain ⟨s, a, c⟩ := sac
    have hmem : (s, a, c) ∈ get_successors node.state gs :=
      hsub _ (List.mem_cons_self ..)
    have hsub' : ∀ x ∈ srest, x ∈ get_successors node.state gs :=
      fun x hx => hsub x (List.mem_cons_of_mem _ hx)
    simp only [bfsScan]
    split
    · rename_i hcond
      split
      · -- the generated child is the goal: found
        rename_i hgoal
        constructor
        · intro p h
          injection h with h
          rw [← h, reconstruct_child, List.length_append,
            depthOk_length hnode.2]
          simp
        · intro q' h
          cases h
      · -- a fresh non-goal child is appended
        rename_i hgoal'
        have hs_goal : s ≠ goal := fun he => hgoal' he
        obtain ⟨hsm, hceq⟩ := mem_get_successors.mp hmem
        obtain ⟨k, hk, hkle⟩ := isMinDist_step_le hnd hsm
        have hkD : k = D + 1 := by
          obtain ⟨hsE', hsq0⟩ := hcond
          have hnotE : s ∉ E := fun hin => hsE' (Finset.mem_insert_of_mem hin)
          by_contra hne'
          have hcases : k < D ∨ k = D := by omega
          rcases hcases with hklt | hkeq
          · exact hnotE (cov5 s k hk hklt hs_goal)
          · rcases cov6 s k hk hkeq hs_goal with h1 | h1
            · exact hnotE h1
            · simp only [states, List.map_cons] at h1
              rcases List.mem_cons.mp h1 with h2 | h2
              · exact hsE' (by rw [h2]; exact Finset.mem_insert_self ..)
              · obtain ⟨chs0, hq0eq, -⟩ := hq0
                exact hsq0 (by
                  rw [hq0eq, states_append]
                  exact List.mem_append_left _ h2)
        have hq0' : ∃ chs0, q0 ++
            [Node.child s node a (node.cost + c) (node.depth + 1)] =
              rest ++ chs0 ∧ ∀ n ∈ chs0,
            n.depth = node.depth + 1 ∧ n.state ≠ goal ∧
            IsMinDist gs start n.state (D + 1) := by
          obtain ⟨chs0, hq0eq, hchs0⟩ := hq0
          refine ⟨chs0 ++ [Node.child s node a (node.cost + c)
            (node.depth + 1)], by rw [hq0eq, List.append_assoc], ?_⟩
          intro n hn
          rcases List.mem_append.mp hn with h1 | h1
          · exact hchs0 n h1
          · rw [List.mem_singleton.mp h1]
            exact ⟨rfl, hs_goal, hkD ▸ hk⟩
        have hgq0' : goal ∉ states (q0 ++
            [Node.child s node a (node.cost + c) (node.depth + 1)]) := by
          rw [states_append]
          intro hmm
          rcases List.mem_append.mp hmm with h1 | h1
          · exact hgq0 h1
          · have h2 : goal = s := by simpa [states] using h1
            exact hs_goal h2.symm
        have hres := ihs hsub' hq0' hgq0'
        refine ⟨hres.1, ?_⟩
        intro q' h
        obtain ⟨hchs, hSc, hSb, hSd⟩ := hres.2 q' h
        obtain ⟨tail, htail⟩ := bfsScan_extends h
        refine ⟨hchs, ?_, ?_, hSd⟩
        · intro y a' c' hm
          rcases List.mem_cons.mp hm with heq | hm'
          · injection heq with e1 e2
            subst e1
            exact hs_goal
          · exact hSc _ _ _ hm'
        · intro y a' c' hm
          rcases List.mem_cons.mp hm with heq | hm'
          · injection heq with e1 e2
            subst e1
            refine Or.inr ?_
            rw [htail, states_append]
            refine List.mem_append_left _ ?_
            rw [states_append]
            exact List.mem_append_right _ (by simp [states])
          · exact hSb _ _ _ hm'
    · -- successor already explored or queued: skipped
      rename_i hcond
      have hsin : s ∈ insert node.state E ∨ s ∈ states q0 := by
        by_contra hno
        push_neg at hno
        exact hcond ⟨hno.1, hno.2⟩
      have hsg : s ≠ goal := by
        rintro rfl
        rcases hsin with h1 | h1
        · rcases Finset.mem_insert.mp h1 with h2 | h2
          · exact hgnode h2
          · exact hgE h2
        · exact hgq0 h1
      have hres := ihs hsub' hq0 hgq0
      refine ⟨hres.1, ?_⟩
      intro q' h
      obtain ⟨hchs, hSc, hSb, hSd⟩ := hres.2 q' h
      obtain ⟨tail, htail⟩ := bfsScan_extends h
      refine ⟨hchs, ?_, ?_, hSd⟩
      · intro y a' c' hm
        rcases List.mem_cons.mp hm with heq | hm'
        · injection heq with e1 e2
          subst e1
          exact hsg
        · exact hSc _ _ _ hm'
      · intro y a' c' hm
        rcases List.mem_cons.mp hm with heq | hm'
        · injection heq with e1 e2
          subst e1
          rcases hsin with h1 | h1
          · exact Or.inl h1
          · refine Or.inr ?_
            rw [htail, states_append]
            exact List.mem_append_left _ h1
        · exact hSb _ _ _ hm'

/-- Under the BFS level invariant the loop either runs out of fuel or
finds a path of at most the minimal `start`–`goal` distance `d`. -/
theorem bfsLoop_min {gs : GridSize} {start goal : Cell} {d : Nat}
    (hmin : IsMinDist gs start goal d) :
    ∀ (fuel : Nat) (q : List Node) (E : Finset Cell) (D : Nat)
      (qa qb : List Node),
      q = qa ++ qb →
      (∀ n ∈ qa, n.depth = D) →
      (∀ n ∈ qb, n.depth = D + 1) →
      (qb ≠ [] → qa ≠ []) →
      (∀ n ∈ q, nodeOk gs start n) →
      (∀ n ∈ q, IsMinDist gs start n.state n.depth) →
      (∀ n ∈ q, n.state ≠ goal) →
      goal ∉ E →
      D < d →
      (∀ y k, IsMinDist gs start y k → k < D → y ≠ goal → y ∈ E) →
      (∀ y k, IsMinDist gs start y k → k = D → y ≠ goal →
        y ∈ E ∨ y ∈ states q) →
      (∀ x ∈ E, ∀ y a c, (y, a, c) ∈ get_successors x gs → y ≠ goal →
        y ∈ E ∨ y ∈ states q) →
      (∀ x ∈ E, ∀ a, stepMove gs x a ≠ some goal) →
      bfsLoop goal gs fuel q E = .out ∨
        ∃ p, bfsLoop goal gs fuel q E = .found p ∧ p.length ≤ d := by
  intro fuel
  induction fuel with
  | zero =>
    intro q E D qa qb _ _ _ _ _ _ _ _ _ _ _ _ _
    exact Or.inl rfl
  | succ fuel ih =>
    intro q E D qa qb hsplit hqa hqb hba hok hdist hnotg hgE hDd cov5 cov6
      clos adj
    cases q with
    | nil =>
      exfalso
      have hall : ∀ k, k ≤ d → ∀ y, IsMinDist gs start y k → y ≠ goal →
          y ∈ E := by
        intro k
        induction k with
        | zero =>
          intro _ y hy hyg
          rcases Nat.lt_or_ge 0 D with h1 | h1
          · exact cov5 y 0 hy h1 hyg
          · rcases cov6 y 0 hy (by omega) hyg with h2 | h2
            · exact h2
            · simp [states] at h2
        | succ k ihk =>
          intro hkd y hy hyg
          rcases Nat.lt_or_ge (k + 1) D with h1 | h1
          · exact cov5 y (k + 1) hy h1 hyg
          · rcases Nat.eq_or_lt_of_le h1 with h2 | h2
            · rcases cov6 y (k + 1) hy h2.symm hyg with h3 | h3
              · exact h3
              · simp [states] at h3
            · obtain ⟨x, a, hsm, hx⟩ := isMinDist_pred hy
              have hxg : x ≠ goal := by
                rintro rfl
                have := IsMinDist_unique hx hmin
                omega
              have hxE := ihk (by omega) x hx hxg
              rcases clos x hxE y a (costH a)
                  (mem_get_successors.mpr ⟨hsm, rfl⟩) hyg with h3 | h3
              · exact h3
              · simp [states] at h3
      obtain ⟨m, hm⟩ : ∃ m, d = m + 1 := ⟨d - 1, by omega⟩
      obtain ⟨v, a, hsm, hv⟩ := isMinDist_pred (hm ▸ hmin)
      have hvg : v ≠ goal := by
        rintro rfl
        have := IsMinDist_unique hv hmin
        omega
      exact adj v (hall m (by omega) v hv hvg) a hsm
    | cons node rest =>
      rcases qa with - | ⟨node0, qa'⟩
      · simp only [List.nil_append] at hsplit
        exact absurd rfl
          (hba (by rw [← hsplit]; exact List.cons_ne_nil _ _))
      · rw [List.cons_append] at hsplit
        injection hsplit with e1 e2
        subst e1
        have hdep : node.depth = D := hqa node (List.mem_cons_self ..)
        have hnode : nodeOk gs start node := hok node (List.mem_cons_self ..)
        have hrestok : ∀ n ∈ rest, nodeOk gs start n :=
          fun n hn => hok n (List.mem_cons_of_mem _ hn)
        have hnd' : IsMinDist gs start node.state D :=
          hdep ▸ hdist node (List.mem_cons_self ..)
        have hgnode : goal ≠ node.state :=
          (hnotg node (List.mem_cons_self ..)).symm
        have hgrest : goal ∉ states rest := by
          intro hmm
          simp only [states, List.mem_map] at hmm
          obtain ⟨n, hn, hns⟩ := hmm
          exact hnotg n (List.mem_cons_of_mem _ hn) hns
        have hlev := bfsScan_level hnode hnd' hgE hgnode cov5 cov6
          (fun _ hx => hx)
          ⟨[], (List.append_nil rest).symm,
            fun n hn => absurd hn (List.not_mem_nil n)⟩
          hgrest
        rcases hscan : bfsScan goal node (get_successors node.state gs) rest
            (insert node.state E) with p | q'
        · right
          have hlen := hlev.1 p hscan
          refine ⟨p, ?_, ?_⟩
          · simp only [bfsLoop]
            rw [hscan]
          · rw [hlen, hdep]
            omega
        · obtain ⟨⟨chs, hq', hchs⟩, hSc, hSb, hSd⟩ := hlev.2 q' hscan
          have hok' : ∀ n ∈ q', nodeOk gs start n :=
            (bfsScan_ok hnode (fun _ hx => hx) hrestok).2 _ hscan
          have hstep : bfsLoop goal gs (fuel + 1) (node :: rest) E =
              bfsLoop goal gs fuel q' (insert node.state E) := by
            simp only [bfsLoop]
            rw [hscan]
          rw [hstep]
          have hgE' : goal ∉ insert node.state E := by
            rw [Finset.mem_insert]
            rintro (h1 | h1)
            · exact hgnode h1
            · exact hgE h1
          have hdist' : ∀ n ∈ q', IsMinDist gs start n.state n.depth := by
            intro n hn
            rw [hq'] at hn
            rcases List.mem_append.mp hn with h1 | h1
            · exact hdist n (List.mem_cons_of_mem _ h1)
            · obtain ⟨hd1, -, hd3⟩ := hchs n h1
              rw [hd1, hdep]
              exact hd3
          have hnotg' : ∀ n ∈ q', n.state ≠ goal := by
            intro n hn
            rw [hq'] at hn
            rcases List.mem_append.mp hn with h1 | h1
            · exact hnotg n (List.mem_cons_of_mem _ h1)
            · exact (hchs n h1).2.1
          have adj' : ∀ x ∈ insert node.state E, ∀ a2,
              stepMove gs x a2 ≠ some goal := by
            intro x hx a2 hsm
            rcases Finset.mem_insert.mp hx with h1 | h1
            · subst h1
              exact hSc goal a2 (costH a2)
                (mem_get_successors.mpr ⟨hsm, rfl⟩) rfl
            · exact adj x h1 a2 hsm
          have clos' : ∀ x ∈ insert node.state E, ∀ y a2 c2,
              (y, a2, c2) ∈ get_successors x gs → y ≠ goal →
              y ∈ insert node.state E ∨ y ∈ states q' := by
            intro x hx y a2 c2 hy hyg
            rcases Finset.mem_insert.mp hx with h1 | h1
            · subst h1
              exact hSb y a2 c2 hy
            · rcases clos x h1 y a2 c2 hy hyg with h2 | h2
              · exact Or.inl (Finset.mem_insert_of_mem h2)
              · simp only [states, List.map_cons] at h2
                rcases List.mem_cons.mp h2 with h3 | h3
                · exact Or.inl (by rw [h3]; exact Finset.mem_insert_self ..)
                · refine Or.inr ?_
                  rw [hq', states_append]
                  exact List.mem_append_left _ h3
          rcases qa' with - | ⟨n2, qa2⟩
          · -- the expanded node closed the current level
            simp only [List.nil_append] at e2
            have hD1d : D + 1 < d := by
              by_contra hcon
              push_neg at hcon
              have hdD : d = D + 1 := by omega
              obtain ⟨v, a2, hsm, hv⟩ := isMinDist_pred (hdD ▸ hmin)
              have hvg : v ≠ goal := by
                rintro rfl
                have := IsMinDist_unique hv hmin
                omega
              rcases cov6 v D hv rfl hvg with h1 | h1
              · exact adj v h1 a2 hsm
              · simp only [states, List.map_cons] at h1
                rcases List.mem_cons.mp h1 with h2 | h2
                · exact hSc goal a2 (costH a2)
                    (mem_get_successors.mpr ⟨by rw [← h2]; exact hsm, rfl⟩)
                    rfl
                · rw [e2] at h2
                  obtain ⟨n, hn, hns⟩ := List.mem_map.mp h2
                  have hnd2 := hdist n
                    (List.mem_cons_of_mem _ (by rw [e2]; exact hn))
                  rw [hns, hqb n hn] at hnd2
                  have := IsMinDist_unique hv hnd2
                  omega
            have cov5n : ∀ y k, IsMinDist gs start y k → k < D + 1 →
                y ≠ goal → y ∈ insert node.state E := by
              intro y k hy hk hyg
              rcases Nat.lt_or_ge k D with h1 | h1
              · exact Finset.mem_insert_of_mem (cov5 y k hy h1 hyg)
              · have hkD : k = D := by omega
                rcases cov6 y k hy hkD hyg with h2 | h2
                · exact Finset.mem_insert_of_mem h2
                · simp only [states, List.map_cons] at h2
                  rcases List.mem_cons.mp h2 with h3 | h3
                  · rw [h3]
                    exact Finset.mem_insert_self ..
                  · exfalso
                    rw [e2] at h3
                    obtain ⟨n, hn, hns⟩ := List.mem_map.mp h3
                    have hnd2 := hdist n
                      (List.mem_cons_of_mem _ (by rw [e2]; exact hn))
                    rw [hns, hqb n hn] at hnd2
                    have := IsMinDist_unique hy hnd2
                    omega
            have cov6n : ∀ y k, IsMinDist gs start y k → k = D + 1 →
                y ≠ goal → y ∈ insert node.state E ∨ y ∈ states q' := by
              intro y k hy hkeq hyg
              subst hkeq
              obtain ⟨x, a2, hsm, hx⟩ := isMinDist_pred hy
              have hxg : x ≠ goal := by
                rintro rfl
                have := IsMinDist_unique hx hmin
                omega
              rcases cov6 x D hx rfl hxg with h1 | h1
              · rcases clos x h1 y a2 (costH a2)
                    (mem_get_successors.mpr ⟨hsm, rfl⟩) hyg with h2 | h2
                · exact Or.inl (Finset.mem_insert_of_mem h2)
                · simp only [states, List.map_cons] at h2
                  rcases List.mem_cons.mp h2 with h3 | h3
                  · exfalso
                    have hnd2 := hnd'
                    rw [← h3] at hnd2
                    have := IsMinDist_unique hy hnd2
                    omega
                  · refine Or.inr ?_
                    rw [hq', states_append]
                    exact List.mem_append_left _ h3
              · simp only [states, List.map_cons] at h1
                rcases List.mem_cons.mp h1 with h3 | h3
                · exact hSb y a2 (costH a2)
                    (mem_get_successors.mpr ⟨by rw [← h3]; exact hsm, rfl⟩)
                · exfalso
                  rw [e2] at h3
                  obtain ⟨n, hn, hns⟩ := List.mem_map.mp h3
                  have hnd2 := hdist n
                    (List.mem_cons_of_mem _ (by rw [e2]; exact hn))
                  rw [hns, hqb n hn] at hnd2
                  have := IsMinDist_unique hx hnd2
                  omega
            refine ih q' (insert node.state E) (D + 1) (qb ++ chs) []
              ?_ ?_ ?_ ?_ hok' hdist' hnotg' hgE' hD1d cov5n cov6n clos' adj'
            · rw [hq', e2, List.append_nil]
            · intro n hn
              rcases List.mem_append.mp hn with h1 | h1
              · exact hqb n h1
              · obtain ⟨hd1, -, -⟩ := hchs n h1
                rw [hd1, hdep]
            · intro n hn
              cases hn
            · intro h0
              exact absurd rfl h0
          · -- the current level continues
            have cov6n : ∀ y k, IsMinDist gs start y k → k = D →
                y ≠ goal → y ∈ insert node.state E ∨ y ∈ states q' := by
              intro y k hy hk hyg
              rcases cov6 y k hy hk hyg with h1 | h1
              · exact Or.inl (Finset.mem_insert_of_mem h1)
              · simp only [states, List.map_cons] at h1
                rcases List.mem_cons.mp h1 with h2 | h2
                · exact Or.inl (by rw [h2]; exact Finset.mem_insert_self ..)
                · refine Or.inr ?_
                  rw [hq', states_append]
                  exact List.mem_append_left _ h2
            refine ih q' (insert node.state E) D (n2 :: qa2) (qb ++ chs)
              ?_ ?_ ?_ ?_ hok' hdist' hnotg' hgE' hDd ?_ cov6n clos' adj'
            · rw [hq', e2, List.append_assoc]
            · intro n hn
              exact hqa n (List.mem_cons_of_mem _ hn)
            · intro n hn
              rcases List.mem_append.mp hn with h1 | h1
              · exact hqb n h1
              · obtain ⟨hd1, -, -⟩ := hchs n h1
                rw [hd1, hdep]
            · intro _
              exact List.cons_ne_nil _ _
            · intro y k hy hk hyg
              exact Finset.mem_insert_of_mem (cov5 y k hy hk hyg)

/-- **C4.** For every pair of in-bounds cells on the (obstacle-free)
grid, `bfs` returns a path, and its number of moves is minimal over all
paths from `start` to `goal`. -/
theorem C4_bfs_minimal (start goal : Cell) (gs : GridSize)
    (hs : inBounds gs start) (hg : inBounds gs goal) :
    ∃ p, bfs start goal gs = .found p ∧ ValidPath gs start goal p ∧
      ∀ q, ValidPath gs start goal q → p.length ≤ q.length := by
  obtain ⟨d, hmin⟩ := reachable_of_inBounds hs hg
  by_cases hne : start = goal
  · subst hne
    refine ⟨[], ?_, rfl, ?_⟩
    · unfold bfs
      rw [if_pos rfl]
    · intro q _
      simp
  · have hd1 : 1 ≤ d := isMinDist_pos hmin hne
    have hloop := bfsLoop_min hmin (bfsFuel gs) [Node.root start] ∅ 0
      [Node.root start] [] (List.append_nil _).symm
      (fun n hn => by rw [List.mem_singleton.mp hn]; rfl)
      (fun n hn => absurd hn (List.not_mem_nil n))
      (fun h0 => absurd rfl h0)
      (fun n hn => by
        rw [List.mem_singleton.mp hn]; exact nodeOk_root gs start)
      (fun n hn => by
        rw [List.mem_singleton.mp hn]; exact isMinDist_self gs start)
      (fun n hn => by rw [List.mem_singleton.mp hn]; exact hne)
      (Finset.not_mem_empty goal)
      (by omega)
      (fun y k _ hk _ => absurd hk (Nat.not_lt_zero k))
      (fun y k hy hk _ => Or.inr (by
        have hy0 : y = start := isMinDist_zero (hk ▸ hy)
        rw [hy0]
        simp [states]))
      (fun x hx => absurd hx (Finset.not_mem_empty x))
      (fun x hx => absurd hx (Finset.not_mem_empty x))
    rcases hloop with hout | ⟨p, hfound, hle⟩
    · exfalso
      apply bfs_no_out start goal gs
      unfold bfs
      rw [if_neg hne]
      exact hout
    · have hb : bfs start goal gs = .found p := by
        unfold bfs
        rw [if_neg hne]
        exact hfound
      have hvalid := bfs_found_goalChain hb
      refine ⟨p, hb, hvalid, ?_⟩
      intro q hq
      have h1 : d ≤ q.length := hmin.2 q hq
      omega

/-- Witness for C4 on a 2×3 grid: the path found from `(0,0)` to `(1,2)`
is no longer than any other path (here 2 moves, one diagonal). -/
theorem C4_bfs_minimal_witness :
    (inBounds ((2 : Int), (3 : Int)) ((0 : Int), (0 : Int)) ∧
      inBounds ((2 : Int), (3 : Int)) ((1 : Int), (2 : Int))) ∧
    ∃ p, bfs (0, 0) (1, 2) ((2 : Int), (3 : Int)) = .found p ∧
      ValidPath ((2 : Int), (3 : Int)) (0, 0) (1, 2) p ∧
      ∀ q, ValidPath ((2 : Int), (3 : Int)) (0, 0) (1, 2) q →
        p.length ≤ q.length :=
  ⟨⟨by decide, by decide⟩,
    C4_bfs_minimal (0, 0) (1, 2) (2, 3) (by decide) (by decide)⟩

/-! ## The `heapq` functions maintain the heap invariant -/

theorem getD_set_self (l : List Node) (i : Nat) (v : Node)
    (h : i < l.length) : (l.set i v).getD i dummy = v := by
  rw [List.getD_eq_getElem?_getD, List.getElem?_set_self (by exact h),
    Option.getD_some]

theorem getD_set_ne (l : List Node) (i j : Nat) (v : Node) (h : i ≠ j) :
    (l.set i v).getD j dummy = l.getD j dummy := by
  rw [List.getD_eq_getElem?_getD, List.getElem?_set_ne h,
    ← List.getD_eq_getElem?_getD]

/-- A list is a permutation of any element consed onto its removal. -/
theorem perm_getD_eraseIdx (l : List Node) (i : Nat) (h : i < l.length) :
    List.Perm l (l.getD i dummy :: l.eraseIdx i) := by
  conv =>
    lhs
    rw [← List.take_append_drop i l, List.drop_eq_getElem_cons h]
  rw [List.eraseIdx_eq_take_drop_succ, List.getD_eq_getElem l dummy h]
  exact List.perm_middle

theorem perm_set (l : List Node) (i : Nat) (v : Node) (h : i < l.length) :
    List.Perm (l.set i v) (v :: l.eraseIdx i) := by
  rw [List.set_eq_take_append_cons_drop, if_pos h,
    List.eraseIdx_eq_take_drop_succ]
  exact List.perm_middle

/-- In a heap the root is a minimum. -/
theorem heapProp_root_le {l : List Node} (hh : heapProp l) :
    ∀ i, i < l.length → (l.getD 0 dummy).cost ≤ (l.getD i dummy).cost := by
  intro i
  induction i using Nat.strong_induction_on with
  | _ i ih =>
    intro hi
    rcases Nat.eq_zero_or_pos i with rfl | hpos
    · exact le_rfl
    · exact le_trans (ih ((i - 1) / 2) (by omega) (by omega)) (hh i hpos hi)

/-- `_siftdown` restores the heap shape: provided the array is a heap
away from the vacancy `pos`, the vacancy's children exceed both the
grandparent and the new item, sifting the new item in yields a heap. -/
theorem siftdown_heapProp (ni : Node) :
    ∀ (pos : Nat) (l : List Node), pos < l.length →
      (∀ i, 0 < i → i < l.length → i ≠ pos → (i - 1) / 2 ≠ pos →
        (l.getD ((i - 1) / 2) dummy).cost ≤ (l.getD i dummy).cost) →
      (∀ i, i < l.length → (i - 1) / 2 = pos → 0 < pos →
        (l.getD ((pos - 1) / 2) dummy).cost ≤ (l.getD i dummy).cost) →
      (∀ i, i < l.length → (i - 1) / 2 = pos → 0 < i →
        ni.cost ≤ (l.getD i dummy).cost) →
      heapProp (siftdown ni 0 pos l) := by
  intro pos
  induction pos using Nat.strong_induction_on with
  | _ pos ih =>
    intro l hpos hA hB hC
    rw [siftdown]
    split
    · rename_i hsp
      split
      · rename_i hlt
        refine ih ((pos - 1) / 2) (by omega) _ ?_ ?_ ?_ ?_
        · rw [List.length_set]
          omega
        · -- pairs away from the new vacancy
          intro i h0 hi hine hpne
          rw [List.length_set] at hi
          by_cases hip : i = pos
          · exact absurd (hip ▸ rfl) hpne
          · rw [getD_set_ne _ _ _ _ (fun he => hip he.symm)]
            by_cases hpp : (i - 1) / 2 = pos
            · rw [hpp, getD_set_self _ _ _ hpos]
              exact hB i hi hpp hsp
            · rw [getD_set_ne _ _ _ _ (fun he => hpp he.symm)]
              exact hA i h0 hi hip hpp
        · -- children of the new vacancy exceed its parent
          intro i hi hpar hq
          rw [List.length_set] at hi
          have hqpos : (pos - 1) / 2 < pos := by omega
          rw [getD_set_ne _ _ _ _ (fun he => by omega)]
          by_cases hip : i = pos
          · subst hip
            rw [getD_set_self _ _ _ hpos]
            exact hA ((i - 1) / 2) hq (by omega) (by omega) (by omega)
          · rw [getD_set_ne _ _ _ _ (fun he => hip he.symm)]
            have s1 := hA ((pos - 1) / 2) hq (by omega) (by omega) (by omega)
            have s2 := hA i (by omega) hi hip (by omega)
            rw [hpar] at s2
            omega
        · -- children of the new vacancy exceed the new item
          intro i hi hpar h0
          rw [List.length_set] at hi
          by_cases hip : i = pos
          · subst hip
            rw [getD_set_self _ _ _ hpos]
            omega
          · rw [getD_set_ne _ _ _ _ (fun he => hip he.symm)]
            have h1 := hA i h0 hi hip (by omega)
            rw [hpar] at h1
            omega
      · rename_i hge
        intro i h0 hi
        rw [List.length_set] at hi
        by_cases hip : i = pos
        · subst hip
          rw [getD_set_self _ _ _ hpos,
            getD_set_ne _ _ _ _ (fun he => by omega)]
          omega
        · rw [getD_set_ne _ _ _ _ (fun he => hip he.symm)]
          by_cases hpp : (i - 1) / 2 = pos
          · rw [hpp, getD_set_self _ _ _ hpos]
            exact hC i hi hpp h0
          · rw [getD_set_ne _ _ _ _ (fun he => hpp he.symm)]
            exact hA i h0 hi hip hpp
    · rename_i hsp
      have hpos0 : pos = 0 := by omega
      subst hpos0
      intro i h0 hi
      rw [List.length_set] at hi
      have hipos : i ≠ 0 := by omega
      rw [getD_set_ne _ _ _ _ (fun he => hipos he.symm)]
      by_cases hpp : (i - 1) / 2 = 0
      · rw [hpp, getD_set_self _ _ _ hpos]
        exact hC i hi hpp h0
      · rw [getD_set_ne _ _ _ _ (fun he => hpp he.symm)]
        exact hA i h0 hi hipos hpp

theorem siftupChild_eq {len pos : Nat} (l : List Node)
    (_h : 2 * pos + 1 < len) :
    siftupChild len pos l = 2 * pos + 1 ∨ siftupChild len pos l = 2 * pos + 2 := by
  unfold siftupChild
  split
  · right; rfl
  · left; rfl

/-- `_siftup`'s inner loop follows the smaller child. -/
theorem siftupChild_min {len pos : Nat} (l : List Node)
    (_h : 2 * pos + 1 < len) :
    ∀ j, 0 < j → j < len → (j - 1) / 2 = pos →
      (l.getD (siftupChild len pos l) dummy).cost ≤ (l.getD j dummy).cost := by
  intro j hj0 hj hpar
  have hj2 : j = 2 * pos + 1 ∨ j = 2 * pos + 1 + 1 := by omega
  unfold siftupChild
  split
  · rename_i hcond
    rcases hj2 with rfl | rfl
    · exact Nat.le_of_not_lt hcond.2
    · exact le_rfl
  · rename_i hcond
    rcases hj2 with rfl | rfl
    · exact le_rfl
    · have hlt : (l.getD (2 * pos + 1) dummy).cost <
          (l.getD (2 * pos + 1 + 1) dummy).cost := by
        by_contra hno
        exact hcond ⟨hj, hno⟩
      omega

/-- The hole-moving loop of `_siftup` ends at a leaf and keeps the heap
shape away from the hole. -/
theorem siftupLoop_heap (len : Nat) :
    ∀ (pos : Nat) (l : List Node), len = l.length → pos < len →
      (∀ i, 0 < i → i < len → (i - 1) / 2 ≠ pos →
        (l.getD ((i - 1) / 2) dummy).cost ≤ (l.getD i dummy).cost) →
      (∀ i, i < len → (i - 1) / 2 = pos → 0 < pos →
        (l.getD ((pos - 1) / 2) dummy).cost ≤ (l.getD i dummy).cost) →
      ¬ 2 * (siftupLoop len pos l).1 + 1 < len ∧
      (∀ i, 0 < i → i < len → (i - 1) / 2 ≠ (siftupLoop len pos l).1 →
        ((siftupLoop len pos l).2.getD ((i - 1) / 2) dummy).cost ≤
          ((siftupLoop len pos l).2.getD i dummy).cost) := by
  have key : ∀ (k pos : Nat) (l : List Node), len - pos ≤ k →
      len = l.length → pos < len →
      (∀ i, 0 < i → i < len → (i - 1) / 2 ≠ pos →
        (l.getD ((i - 1) / 2) dummy).cost ≤ (l.getD i dummy).cost) →
      (∀ i, i < len → (i - 1) / 2 = pos → 0 < pos →
        (l.getD ((pos - 1) / 2) dummy).cost ≤ (l.getD i dummy).cost) →
      ¬ 2 * (siftupLoop len pos l).1 + 1 < len ∧
      (∀ i, 0 < i → i < len → (i - 1) / 2 ≠ (siftupLoop len pos l).1 →
        ((siftupLoop len pos l).2.getD ((i - 1) / 2) dummy).cost ≤
          ((siftupLoop len pos l).2.getD i dummy).cost) := by
    intro k
    induction k with
    | zero =>
      intro pos l hk _ hpos
      exfalso
      omega
    | succ k ihk =>
      intro pos l hk hlen hpos hA2 hE
      rw [siftupLoop]
      split
      · rename_i hchild
        obtain ⟨hgt, hlt⟩ := siftupChild_bounds l hchild
        have hpareq : (siftupChild len pos l - 1) / 2 = pos := by
          rcases siftupChild_eq l hchild with he | he <;> rw [he] <;> omega
        have hlen' : len =
            (l.set pos (l.getD (siftupChild len pos l) dummy)).length := by
          rw [List.length_set]
          exact hlen
        refine ihk (siftupChild len pos l) _ (by omega) hlen' hlt ?_ ?_
        · -- heap shape away from the new hole
          intro i h0 hi hne
          have hposlen : pos < l.length := by omega
          by_cases hip : i = pos
          · subst hip
            rw [getD_set_self _ _ _ hposlen,
              getD_set_ne _ _ _ _ (fun he => by omega)]
            exact hE (siftupChild len i l) hlt hpareq h0
          · rw [getD_set_ne _ _ _ _ (fun he => hip he.symm)]
            by_cases hpp : (i - 1) / 2 = pos
            · rw [hpp, getD_set_self _ _ _ hposlen]
              exact siftupChild_min l hchild i h0 hi hpp
            · rw [getD_set_ne _ _ _ _ (fun he => hpp he.symm)]
              exact hA2 i h0 hi hpp
        · -- children of the new hole exceed its parent (the old hole)
          intro i hi hpar hq
          have hposlen : pos < l.length := by omega
          rw [hpareq, getD_set_self _ _ _ hposlen,
            getD_set_ne _ _ _ _ (fun he => by omega)]
          have hres := hA2 i (by omega) hi (by omega)
          rw [hpar] at hres
          exact hres
      · rename_i hleaf
        exact ⟨hleaf, fun i h0 hi hne => hA2 i h0 hi hne⟩
  intro pos l hlen hpos hA2 hE
  exact key (len - pos) pos l le_rfl hlen hpos hA2 hE

/-- `_siftup` at the root restores the heap shape. -/
theorem siftup_heapProp (l : List Node) (h0 : 0 < l.length)
    (hA : ∀ i, 0 < i → i < l.length → (i - 1) / 2 ≠ 0 →
      (l.getD ((i - 1) / 2) dummy).cost ≤ (l.getD i dummy).cost) :
    heapProp (siftup 0 l) := by
  rw [siftup]
  obtain ⟨hleaf, hA2⟩ := siftupLoop_heap l.length 0 l rfl h0 hA
    (fun i _ _ hfalse => absurd hfalse (lt_irrefl 0))
  obtain ⟨hfp, hlen2, -⟩ := siftupLoop_facts l.length 0 l rfl h0
  apply siftdown_heapProp
  · rw [List.length_set, hlen2]
    exact hfp
  · intro i h0' hi hine hpne
    rw [List.length_set, hlen2] at hi
    rw [getD_set_ne _ _ _ _ (fun he => hine he.symm),
      getD_set_ne _ _ _ _ (fun he => hpne he.symm)]
    exact hA2 i h0' hi hpne
  · intro i hi hpar hq
    rw [List.length_set, hlen2] at hi
    omega
  · intro i hi hpar h0'
    rw [List.length_set, hlen2] at hi
    omega

theorem getD_append_left (l : List Node) (v : Node) (i : Nat)
    (h : i < l.length) : (l ++ [v]).getD i dummy = l.getD i dummy := by
  rw [List.getD_eq_getElem?_getD, List.getElem?_append, if_pos h,
    ← List.getD_eq_getElem?_getD]

theorem getD_append_last (l : List Node) (v : Node) :
    (l ++ [v]).getD l.length dummy = v := by
  rw [List.getD_eq_getElem?_getD, List.getElem?_append, if_neg (by omega)]
  simp

theorem getD_dropLast (l : List Node) (i : Nat) (h : i + 1 < l.length) :
    (l.dropLast).getD i dummy = l.getD i dummy := by
  rw [List.dropLast_eq_take, List.getD_eq_getElem?_getD, List.getElem?_take,
    if_pos (by omega), ← List.getD_eq_getElem?_getD]

/-- `heappush` keeps the heap invariant. -/
theorem heappush_heapProp {l : List Node} (hh : heapProp l) (item : Node) :
    heapProp (heappush l item) := by
  rw [heappush]
  apply siftdown_heapProp
  · rw [List.length_append]
    simp
  · intro i h0 hi hine hpne
    rw [List.length_append, List.length_singleton] at hi
    have hi' : i < l.length := by omega
    rw [getD_append_left _ _ _ hi', getD_append_left _ _ _ (by omega)]
    exact hh i h0 hi'
  · intro i hi hpar hq
    rw [List.length_append, List.length_singleton] at hi
    omega
  · intro i hi hpar h0
    rw [List.length_append, List.length_singleton] at hi
    omega

/-- `heappop` keeps the heap invariant. -/
theorem heappop_heapProp {l : List Node} (hh : heapProp l) {n : Node}
    {l' : List Node} (h : heappop l = some (n, l')) : heapProp l' := by
  unfold heappop at h
  split at h
  · cases h
  · rename_i lastelt hlast
    split at h
    · cases h
      intro i h0 hi
      simp at hi
    · rename_i hemp
      cases h
      have hdlne : l.dropLast ≠ [] := fun he => hemp (by rw [he]; rfl)
      have hd0 : 0 < l.dropLast.length := List.length_pos.mpr hdlne
      apply siftup_heapProp
      · rw [List.length_set]
        exact hd0
      · intro i h0 hi hpne
        rw [List.length_set] at hi
        rw [getD_set_ne _ _ _ _ (fun he => by omega),
          getD_set_ne _ _ _ _ (fun he => by omega)]
        have hll := List.length_dropLast l
        rw [getD_dropLast _ _ (by omega), getD_dropLast _ _ (by omega)]
        exact hh i h0 (by omega)

/-- `heappop` hands back the root of the heap. -/
theorem heappop_root {l : List Node} {n : Node} {l' : List Node}
    (h : heappop l = some (n, l')) : n = l.getD 0 dummy := by
  unfold heappop at h
  split at h
  · cases h
  · rename_i lastelt hlast
    have hlne : l ≠ [] := by
      rintro rfl
      cases hlast
    have hgl : l.getLast hlne = lastelt := by
      have hq := List.getLast?_eq_getLast l hlne
      rw [hq] at hlast
      injection hlast
    split at h
    · rename_i hemp
      cases h
      have hdl : l.dropLast = [] := List.isEmpty_iff.mp hemp
      have hdec := List.dropLast_append_getLast hlne
      rw [hdl, hgl] at hdec
      rw [← hdec]
      rfl
    · rename_i hemp
      cases h
      have hdlne : l.dropLast ≠ [] := fun he => hemp (by rw [he]; rfl)
      have hd0 : 0 < l.dropLast.length := List.length_pos.mpr hdlne
      have hll := List.length_dropLast l
      exact getD_dropLast l 0 (by omega)

/-- The popped node has minimal cost in the heap. -/
theorem heappop_min {l : List Node} (hh : heapProp l) {n : Node}
    {l' : List Node} (h : heappop l = some (n, l')) :
    ∀ m ∈ l, n.cost ≤ m.cost := by
  intro m hm
  obtain ⟨j, hj, hjm⟩ := List.mem_iff_getElem.mp hm
  have hle := heapProp_root_le hh j hj
  rw [List.getD_eq_getElem l dummy hj, hjm] at hle
  rw [heappop_root h]
  exact hle

/-- `_siftdown` permutes: the new item replaces the vacancy. -/
theorem siftdown_perm (ni : Node) (sp : Nat) :
    ∀ (pos : Nat) (l : List Node), pos < l.length →
      List.Perm (siftdown ni sp pos l) (ni :: l.eraseIdx pos) := by
  intro pos
  induction pos using Nat.strong_induction_on with
  | _ pos ih =>
    intro l hpos
    rw [siftdown]
    split
    · rename_i hsp
      split
      · rename_i hlt
        have hq : (pos - 1) / 2 <
            (l.set pos (l.getD ((pos - 1) / 2) dummy)).length := by
          rw [List.length_set]
          omega
        refine (ih _ (by omega) _ hq).trans ?_
        apply List.Perm.cons
        have e1 := perm_getD_eraseIdx
          (l.set pos (l.getD ((pos - 1) / 2) dummy)) ((pos - 1) / 2) hq
        rw [getD_set_ne _ _ _ _ (fun he => by omega)] at e1
        have e2 := perm_set l pos (l.getD ((pos - 1) / 2) dummy) hpos
        exact (e1.symm.trans e2).cons_inv
      · exact perm_set l pos ni hpos
    · exact perm_set l pos ni hpos

/-- The `_siftup` hole-moving loop permutes: filling the final hole with
any `v` recovers the original elements with position `pos` replaced. -/
theorem siftupLoop_perm (len : Nat) :
    ∀ (pos : Nat) (l : List Node), len = l.length → pos < len →
      ∀ v, List.Perm
        ((siftupLoop len pos l).2.set (siftupLoop len pos l).1 v)
        (v :: l.eraseIdx pos) := by
  have key : ∀ (k pos : Nat) (l : List Node), len - pos ≤ k →
      len = l.length → pos < len → ∀ v, List.Perm
        ((siftupLoop len pos l).2.set (siftupLoop len pos l).1 v)
        (v :: l.eraseIdx pos) := by
    intro k
    induction k with
    | zero =>
      intro pos l hk hlen hpos v
      exfalso
      omega
    | succ k ihk =>
      intro pos l hk hlen hpos v
      rw [siftupLoop]
      split
      · rename_i hchild
        obtain ⟨hgt, hlt⟩ := siftupChild_bounds l hchild
        have hlen' : len =
            (l.set pos (l.getD (siftupChild len pos l) dummy)).length := by
          rw [List.length_set]
          exact hlen
        refine (ihk (siftupChild len pos l) _ (by omega) hlen' hlt v).trans ?_
        apply List.Perm.cons
        have hchlen : siftupChild len pos l <
            (l.set pos (l.getD (siftupChild len pos l) dummy)).length := by
          rw [List.length_set]
          omega
        have e1 := perm_getD_eraseIdx
          (l.set pos (l.getD (siftupChild len pos l) dummy))
          (siftupChild len pos l) hchlen
        rw [getD_set_ne _ _ _ _ (fun he => by omega)] at e1
        have e2 := perm_set l pos (l.getD (siftupChild len pos l) dummy)
          (by omega)
        exact (e1.symm.trans e2).cons_inv
      · exact perm_set l pos v (by omega)
  intro pos l hlen hpos
  exact key (len - pos) pos l le_rfl hlen hpos

/-- `_siftup` at the root permutes the heap. -/
theorem siftup_perm (l : List Node) (h0 : 0 < l.length) :
    List.Perm (siftup 0 l) l := by
  rw [siftup]
  obtain ⟨hfp, hlen2, -⟩ := siftupLoop_facts l.length 0 l rfl h0
  have hfp' : (siftupLoop l.length 0 l).1 <
      ((siftupLoop l.length 0 l).2.set (siftupLoop l.length 0 l).1
        (l.getD 0 dummy)).length := by
    rw [List.length_set, hlen2]
    exact hfp
  refine (siftdown_perm (l.getD 0 dummy) 0 _ _ hfp').trans ?_
  have e1 := perm_getD_eraseIdx
    ((siftupLoop l.length 0 l).2.set (siftupLoop l.length 0 l).1
      (l.getD 0 dummy)) (siftupLoop l.length 0 l).1 hfp'
  rw [getD_set_self _ _ _ (by rw [hlen2]; exact hfp)] at e1
  have e2 := siftupLoop_perm l.length 0 l rfl h0 (l.getD 0 dummy)
  have e3 := (e1.symm.trans e2).cons_inv
  exact (List.Perm.cons _ e3).trans (perm_getD_eraseIdx l 0 h0).symm

theorem heappush_perm (l : List Node) (item : Node) :
    List.Perm (heappush l item) (item :: l) := by
  rw [heappush]
  have h1 : l.length < (l ++ [item]).length := by
    rw [List.length_append]
    simp
  refine (siftdown_perm item 0 l.length (l ++ [item]) h1).trans ?_
  apply List.Perm.cons
  rw [List.eraseIdx_eq_take_drop_succ, List.take_left,
    List.drop_eq_nil_of_le (by rw [List.length_append]; simp),
    List.append_nil]

theorem heappop_perm {l : List Node} {n : Node} {l' : List Node}
    (h : heappop l = some (n, l')) : List.Perm (n :: l') l := by
  unfold heappop at h
  split at h
  · cases h
  · rename_i lastelt hlast
    have hlne : l ≠ [] := by
      rintro rfl
      cases hlast
    have hgl : l.getLast hlne = lastelt := by
      have hq := List.getLast?_eq_getLast l hlne
      rw [hq] at hlast
      injection hlast
    have hdec := List.dropLast_append_getLast hlne
    rw [hgl] at hdec
    split at h
    · rename_i hemp
      cases h
      have hdl : l.dropLast = [] := List.isEmpty_iff.mp hemp
      rw [hdl] at hdec
      rw [← hdec]
      exact List.Perm.refl _
    · rename_i hemp
      cases h
      have hdlne : l.dropLast ≠ [] := fun he => hemp (by rw [he]; rfl)
      have hd0 : 0 < l.dropLast.length := List.length_pos.mpr hdlne
      have hs := siftup_perm (l.dropLast.set 0 lastelt)
        (by rw [List.length_set]; exact hd0)
      refine (List.Perm.cons _ hs).trans ?_
      have e2 := perm_set l.dropLast 0 lastelt hd0
      refine ((List.Perm.cons _ e2).trans ?_)
      refine (List.Perm.swap lastelt _ _).trans ?_
      have e3 := (perm_getD_eraseIdx l.dropLast 0 hd0).symm
      refine (List.Perm.cons _ e3).trans ?_
      conv_rhs => rw [← hdec]
      exact (List.perm_append_singleton ..).symm

/-- Pushing `ucs` children preserves the heap invariant. -/
theorem ucsPush_heapProp {node : Node} {gs : GridSize} {E : Finset Cell}
    {h : List Node} (hh : heapProp h) : heapProp (ucsPush node gs E h) := by
  rw [ucsPush]
  have main : ∀ (succs : List (Cell × Action × Nat)) (h0 : List Node),
      heapProp h0 →
      heapProp (succs.foldl (fun hp sac =>
        if sac.1 ∈ E then hp
        else heappush hp
          (Node.child sac.1 node sac.2.1 (node.cost + sac.2.2)
            (node.depth + 1))) h0) := by
    intro succs
    induction succs with
    | nil => intro h0 hh0; exact hh0
    | cons sac rest ihs =>
      intro h0 hh0
      rw [List.foldl_cons]
      refine ihs _ ?_
      split
      · exact hh0
      · exact heappush_heapProp hh0 _
  exact main _ _ hh

/-- Pushing `ucs` children only adds nodes. -/
theorem ucsPush_mono {node : Node} {gs : GridSize} {E : Finset Cell}
    {h : List Node} : ∀ m ∈ h, m ∈ ucsPush node gs E h := by
  rw [ucsPush]
  have main : ∀ (succs : List (Cell × Action × Nat)) (h0 : List Node),
      ∀ m ∈ h0, m ∈ succs.foldl (fun hp sac =>
        if sac.1 ∈ E then hp
        else heappush hp
          (Node.child sac.1 node sac.2.1 (node.cost + sac.2.2)
            (node.depth + 1))) h0 := by
    intro succs
    induction succs with
    | nil => intro h0 m hm; exact hm
    | cons sac rest ihs =>
      intro h0 m hm
      rw [List.foldl_cons]
      refine ihs _ m ?_
      split
      · exact hm
      · exact ((heappush_perm ..).mem_iff).mpr (List.mem_cons_of_mem _ hm)
  exact main _ _

/-- Every unexplored successor of the expanded node is covered by a
pushed child carrying the exact accumulated cost. -/
theorem ucsPush_covers {node : Node} {gs : GridSize} {E : Finset Cell}
    {h : List Node} :
    ∀ y a c, (y, a, c) ∈ get_successors node.state gs → y ∉ E →
      ∃ m ∈ ucsPush node gs E h, m.state = y ∧ m.cost = node.cost + c := by
  rw [ucsPush]
  have main : ∀ (succs : List (Cell × Action × Nat)) (h0 : List Node),
      ∀ y a c, (y, a, c) ∈ succs → y ∉ E →
      ∃ m ∈ succs.foldl (fun hp sac =>
        if sac.1 ∈ E then hp
        else heappush hp
          (Node.child sac.1 node sac.2.1 (node.cost + sac.2.2)
            (node.depth + 1))) h0, m.state = y ∧ m.cost = node.cost + c := by
    intro succs
    induction succs with
    | nil =>
      intro h0 y a c hm
      cases hm
    | cons sac rest ihs =>
      intro h0 y a c hm hy
      rw [List.foldl_cons]
      rcases List.mem_cons.mp hm with heq | hm'
      · subst heq
        rw [if_neg hy]
        have hself : Node.child y node a (node.cost + c) (node.depth + 1) ∈
            heappush h0 (Node.child y node a (node.cost + c)
              (node.depth + 1)) :=
          ((heappush_perm ..).mem_iff).mpr (List.mem_cons_self ..)
        have hmono : ∀ m ∈ heappush h0 (Node.child y node a (node.cost + c)
            (node.depth + 1)), m ∈ rest.foldl (fun hp sac =>
              if sac.1 ∈ E then hp
              else heappush hp (Node.child sac.1 node sac.2.1
                (node.cost + sac.2.2) (node.depth + 1)))
              (heappush h0 (Node.child y node a (node.cost + c)
                (node.depth + 1))) := by
          intro m hm0
          have aux : ∀ (ss : List (Cell × Action × Nat)) (hb : List Node),
              ∀ m ∈ hb, m ∈ ss.foldl (fun hp sac =>
                if sac.1 ∈ E then hp
                else heappush hp (Node.child sac.1 node sac.2.1
                  (node.cost + sac.2.2) (node.depth + 1))) hb := by
            intro ss
            induction ss with
            | nil => intro hb m hm1; exact hm1
            | cons s2 r2 ih2 =>
              intro hb m hm1
              rw [List.foldl_cons]
              refine ih2 _ m ?_
              split
              · exact hm1
              · exact ((heappush_perm ..).mem_iff).mpr
                  (List.mem_cons_of_mem _ hm1)
          exact aux rest _ m hm0
        exact ⟨_, hmono _ hself, rfl, rfl⟩
      · exact ihs _ y a c hm' hy
  exact main _ _

/-! ## Minimal path costs -/

theorem IsMinCost_unique {gs : GridSize} {s y : Cell} {c c' : Nat}
    (h : IsMinCost gs s y c) (h' : IsMinCost gs s y c') : c = c' := by
  obtain ⟨⟨p, hp, hc⟩, hmin⟩ := h
  obtain ⟨⟨p', hp', hc'⟩, hmin'⟩ := h'
  have h1 := hmin p' hp'
  have h2 := hmin' p hp
  omega

theorem exists_isMinCost {gs : GridSize} {s y : Cell} {p : List Action}
    (hp : ValidPath gs s y p) : ∃ c, IsMinCost gs s y c := by
  classical
  have hex : ∃ c, ∃ q, ValidPath gs s y q ∧ costOf q = c :=
    ⟨costOf p, p, hp, rfl⟩
  refine ⟨Nat.find hex, Nat.find_spec hex, ?_⟩
  intro q hq
  by_contra hcon
  push_neg at hcon
  exact Nat.find_min hex hcon ⟨q, hq, rfl⟩

theorem heappop_mem_of_ne {heap : List Node} {n : Node} {heap' : List Node}
    (h : heappop heap = some (n, heap')) {m : Node} (hm : m ∈ heap)
    (hne : m ≠ n) : m ∈ heap' := by
  have hp := heappop_perm h
  rcases List.mem_cons.mp (hp.mem_iff.mpr hm) with h1 | h1
  · exact absurd h1 hne
  · exact h1

/-- Dijkstra cover: any valid path ending outside the explored set is
matched by a heap node of no greater cost. -/
theorem ucs_cover {gs : GridSize} {start : Cell} {heap : List Node}
    {E : Finset Cell}
    (hstart : start ∈ E ∨ ∃ n ∈ heap, n.state = start ∧ n.cost = 0)
    (hclos : ∀ x ∈ E, ∀ c, IsMinCost gs start x c →
      ∀ y a w, (y, a, w) ∈ get_successors x gs → y ∉ E →
      ∃ n ∈ heap, n.state = y ∧ n.cost ≤ c + w) :
    ∀ (p : List Action) (z : Cell), replay gs start p = some z → z ∉ E →
      ∃ m ∈ heap, m.cost ≤ costOf p := by
  intro p
  induction p using List.reverseRecOn with
  | nil =>
    intro z hz hzE
    rw [replay] at hz
    cases hz
    rcases hstart with h1 | ⟨n, hn, hns, hnc⟩
    · exact absurd h1 hzE
    · refine ⟨n, hn, ?_⟩
      rw [hnc]
      exact Nat.zero_le _
  | append_singleton p' a ih =>
    intro z hz hzE
    rw [replay_append] at hz
    rcases hx : replay gs start p' with - | x
    · rw [hx] at hz
      cases hz
    · rw [hx] at hz
      have hz' : replay gs x [a] = some z := hz
      rw [replay] at hz'
      rcases hsm : stepMove gs x a with - | t
      · rw [hsm] at hz'
        cases hz'
      · rw [hsm] at hz'
        have ht : t = z := by
          have h2 : some t = some z := hz'
          injection h2
        subst ht
        have h4 : costOf (p' ++ [a]) = costOf p' + costH a := by
          simp [costOf]
        by_cases hxE : x ∈ E
        · obtain ⟨cx, hcx⟩ :=
            exists_isMinCost (show ValidPath gs start x p' from hx)
          obtain ⟨n, hn, hns, hnc⟩ := hclos x hxE cx hcx t a (costH a)
            (mem_get_successors.mpr ⟨hsm, rfl⟩) hzE
          refine ⟨n, hn, ?_⟩
          have h3 : cx ≤ costOf p' := hcx.2 p' hx
          omega
        · obtain ⟨m, hm, hmc⟩ := ih x hx hxE
          refine ⟨m, hm, ?_⟩
          omega

/-- A node popped at an unexplored state carries exactly the minimal
path cost of its state. -/
theorem ucs_pop_exact {gs : GridSize} {start : Cell} {heap : List Node}
    {E : Finset Cell} {n : Node} {heap' : List Node}
    (hheap : heapProp heap)
    (hok : ∀ m ∈ heap, nodeOk gs start m)
    (hstart : start ∈ E ∨ ∃ m ∈ heap, m.state = start ∧ m.cost = 0)
    (hclos : ∀ x ∈ E, ∀ c, IsMinCost gs start x c →
      ∀ y a w, (y, a, w) ∈ get_successors x gs → y ∉ E →
      ∃ m ∈ heap, m.state = y ∧ m.cost ≤ c + w)
    (hpop : heappop heap = some (n, heap'))
    (hnE : n.state ∉ E) :
    IsMinCost gs start n.state n.cost := by
  have hn := hok n (heappop_mem hpop).1
  have hvalid : ValidPath gs start n.state (reconstruct_path n) :=
    chainOk_replay hn.1
  have hcost : costOf (reconstruct_path n) = n.cost := (chainOk_cost hn.1).symm
  obtain ⟨c, hc⟩ := exists_isMinCost hvalid
  obtain ⟨p0, hp0, hpc⟩ := hc.1
  obtain ⟨m, hm, hmc⟩ := ucs_cover hstart hclos p0 n.state hp0 hnE
  have h1 : n.cost ≤ m.cost := heappop_min hheap hpop m hm
  have h2 : c ≤ n.cost := by
    rw [← hcost]
    exact hc.2 _ hvalid
  have h3 : n.cost = c := by omega
  rw [h3]
  exact hc

/-- Under the Dijkstra invariant the `ucs` loop either runs out of fuel
or finds a path of exactly the minimal cost `cg`. -/
theorem ucsLoop_min {gs : GridSize} {start goal : Cell} {cg : Nat}
    (hmin : IsMinCost gs start goal cg) :
    ∀ (fuel : Nat) (heap : List Node) (E : Finset Cell),
      heapProp heap →
      (∀ m ∈ heap, nodeOk gs start m) →
      goal ∉ E →
      (start ∈ E ∨ ∃ m ∈ heap, m.state = start ∧ m.cost = 0) →
      (∀ x ∈ E, ∀ c, IsMinCost gs start x c →
        ∀ y a w, (y, a, w) ∈ get_successors x gs → y ∉ E →
        ∃ m ∈ heap, m.state = y ∧ m.cost ≤ c + w) →
      ucsLoop goal gs fuel heap E = .out ∨
        ∃ p, ucsLoop goal gs fuel heap E = .found p ∧
          ValidPath gs start goal p ∧ costOf p = cg := by
  intro fuel
  induction fuel with
  | zero =>
    intro heap E _ _ _ _ _
    exact Or.inl rfl
  | succ fuel ih =>
    intro heap E hheap hok hgE hstart hclos
    rw [ucsLoop]
    split
    · -- empty heap would miss the goal's cover
      rename_i hpop
      exfalso
      obtain ⟨p0, hp0, -⟩ := hmin.1
      obtain ⟨m, hm, -⟩ := ucs_cover hstart hclos p0 goal hp0 hgE
      have hemp : heap = [] := by
        unfold heappop at hpop
        rcases hl : heap.getLast? with - | x
        · exact List.getLast?_eq_none_iff.mp hl
        · simp only [hl] at hpop
          by_cases hb : heap.dropLast.isEmpty = true
          · rw [if_pos hb] at hpop
            cases hpop
          · rw [if_neg hb] at hpop
            cases hpop
      rw [hemp] at hm
      cases hm
    · rename_i node heap' hpop
      have hmem := (heappop_mem hpop).1
      have hok' : ∀ m ∈ heap', nodeOk gs start m :=
        fun m hm => hok m ((heappop_mem hpop).2 m hm)
      have hheap' := heappop_heapProp hheap hpop
      split
      · rename_i hgoal
        right
        have hn := hok node hmem
        have hnE2 : node.state ∉ E := by
          rw [hgoal]
          exact hgE
        have hexact := ucs_pop_exact hheap hok hstart hclos hpop hnE2
        rw [hgoal] at hexact
        have hceq : node.cost = cg := IsMinCost_unique hexact hmin
        refine ⟨reconstruct_path node, rfl, ?_, ?_⟩
        · have hrep := chainOk_replay hn.1
          rw [hgoal] at hrep
          exact hrep
        · rw [← chainOk_cost hn.1]
          exact hceq
      · rename_i hngoal
        split
        · -- stale pop: the state was already settled
          rename_i hnEin
          refine ih heap' E hheap' hok' hgE ?_ ?_
          · by_cases hsE : start ∈ E
            · exact Or.inl hsE
            · rcases hstart with h1 | ⟨m, hm, hms, hmc⟩
              · exact absurd h1 hsE
              · refine Or.inr ⟨m, ?_, hms, hmc⟩
                refine heappop_mem_of_ne hpop hm ?_
                rintro rfl
                exact hsE (hms ▸ hnEin)
          · intro x hx c hc y a w hyw hyE
            obtain ⟨m, hm, hms, hmc⟩ := hclos x hx c hc y a w hyw hyE
            refine ⟨m, ?_, hms, hmc⟩
            refine heappop_mem_of_ne hpop hm ?_
            rintro rfl
            exact hyE (hms ▸ hnEin)
        · -- fresh expansion
          rename_i hnEout
          have hexact := ucs_pop_exact hheap hok hstart hclos hpop hnEout
          refine ih _ _ (ucsPush_heapProp hheap')
            (ucsPush_ok (hok node hmem) _ hok') ?_ ?_ ?_
          · rw [Finset.mem_insert]
            rintro (h1 | h1)
            · exact hngoal h1.symm
            · exact hgE h1
          · by_cases hsE : start ∈ insert node.state E
            · exact Or.inl hsE
            · rcases hstart with h1 | ⟨m, hm, hms, hmc⟩
              · exact absurd (Finset.mem_insert_of_mem h1) hsE
              · refine Or.inr ⟨m, ?_, hms, hmc⟩
                refine ucsPush_mono m (heappop_mem_of_ne hpop hm ?_)
                rintro rfl
                exact hsE (hms ▸ Finset.mem_insert_self ..)
          · intro x hx c hc y a w hyw hyE'
            rcases Finset.mem_insert.mp hx with h1 | h1
            · subst h1
              have hceq : c = node.cost := IsMinCost_unique hc hexact
              obtain ⟨m, hm, hms, hmc⟩ := ucsPush_covers y a w hyw hyE'
              refine ⟨m, hm, hms, ?_⟩
              rw [hmc, hceq]
            · have hyE : y ∉ E := fun hin => hyE' (Finset.mem_insert_of_mem hin)
              obtain ⟨m, hm, hms, hmc⟩ := hclos x h1 c hc y a w hyw hyE
              refine ⟨m, ?_, hms, hmc⟩
              refine ucsPush_mono m (heappop_mem_of_ne hpop hm ?_)
              rintro rfl
              exact hyE' (hms ▸ Finset.mem_insert_self ..)

/-! ## Cost geometry: diagonal moves versus orthogonal detours -/

theorem costOf_cons (a : Action) (p : List Action) :
    costOf (a :: p) = costH a + costOf p := by
  simp [costOf]

theorem costOf_append (p q : List Action) :
    costOf (p ++ q) = costOf p + costOf q := by
  simp [costOf]

theorem costOf_replicate (n : Nat) (a : Action) :
    costOf (List.replicate n a) = n * costH a := by
  induction n with
  | zero => simp [costOf]
  | succ n ih =>
    rw [List.replicate_succ, costOf_cons, ih]
    ring

theorem length_eq_counts (p : List Action) :
    p.length = countA .up p + countA .right p + countA .bottom p +
      countA .bottomRight p + countA .left p + countA .topLeft p := by
  induction p with
  | nil => rfl
  | cons a p ih =>
    rw [List.length_cons, ih]
    cases a <;> simp [countA] <;> omega

theorem costOf_eq_counts (p : List Action) :
    costOf p = 2 * p.length + countA .bottomRight p + countA .topLeft p := by
  induction p with
  | nil => rfl
  | cons a p ih =>
    rw [costOf_cons, ih, List.length_cons]
    cases a <;> simp [countA, costH] <;> omega

/-- The endpoint of a bounded replay as a function of the move counts. -/
theorem replay_counts (gs : GridSize) :
    ∀ (p : List Action) (s g : Cell), replay gs s p = some g →
      g.1 = s.1 + ((countA .bottom p : Int) + countA .bottomRight p) -
        ((countA .up p : Int) + countA .topLeft p) ∧
      g.2 = s.2 + ((countA .right p : Int) + countA .bottomRight p) -
        ((countA .left p : Int) + countA .topLeft p) := by
  intro p
  induction p with
  | nil =>
    intro s g h
    rw [replay] at h
    cases h
    simp [countA]
  | cons a p ih =>
    intro s g h
    rw [replay] at h
    rcases hsm : stepMove gs s a with - | t
    · rw [hsm] at h
      cases h
    · rw [hsm] at h
      have ht := ih t g h
      have hta : t = applyMove s a := by
        rw [stepMove] at hsm
        split at hsm
        · injection hsm with h2
          exact h2.symm
        · cases hsm
      subst hta
      cases a <;>
        simp [countA, applyMove, delta] at ht ⊢ <;>
        omega

theorem countA_eq_zero {a : Action} {p : List Action}
    (h : ∀ b ∈ p, b ≠ a) : countA a p = 0 := by
  induction p with
  | nil => rfl
  | cons b p ih =>
    simp only [countA]
    rw [if_neg (h b (List.mem_cons_self b p)),
      ih fun c hc => h c (List.mem_cons_of_mem b hc)]

theorem one_le_countA {a : Action} {p : List Action} (h : a ∈ p) :
    1 ≤ countA a p := by
  induction p with
  | nil => cases h
  | cons b p ih =>
    by_cases hb : b = a
    · rw [hb]
      have hh : countA a (a :: p) = countA a p + 1 := by simp [countA]
      rw [hh]
      omega
    · rcases List.mem_cons.mp h with h1 | h2
      · exact absurd h1.symm hb
      · have hh : countA a (b :: p) =
            countA a p + (if b = a then 1 else 0) := rfl
        rw [hh, if_neg hb]
        have := ih h2
        omega

/-- A path is orthogonal exactly when it counts no diagonal move. -/
theorem orthogonal_iff {p : List Action} :
    Orthogonal p ↔ countA .bottomRight p + countA .topLeft p = 0 := by
  constructor
  · intro h
    rw [countA_eq_zero fun b hb => (h b hb).1,
      countA_eq_zero fun b hb => (h b hb).2]
  · intro h a ha
    constructor
    · rintro rfl
      have := one_le_countA ha
      omega
    · rintro rfl
      have := one_le_countA ha
      omega

/-- When the displacement has no same-sign overlap, any path containing a
diagonal move costs strictly more than twice the taxicab distance. -/
theorem diag_costly {gs : GridSize} {s g : Cell} {p : List Action}
    (h : replay gs s p = some g)
    (hsign : ¬((0 < g.1 - s.1 ∧ 0 < g.2 - s.2) ∨
      (g.1 - s.1 < 0 ∧ g.2 - s.2 < 0)))
    (hk : 1 ≤ countA .bottomRight p + countA .topLeft p) :
    2 * ((g.1 - s.1).natAbs + (g.2 - s.2).natAbs) + 1 ≤ costOf p := by
  obtain ⟨h1, h2⟩ := replay_counts gs p s g h
  have h3 := costOf_eq_counts p
  have h4 := length_eq_counts p
  omega

/-- An orthogonal path costs at least twice the taxicab distance. -/
theorem orth_cost_lb {gs : GridSize} {s g : Cell} {q : List Action}
    (h : replay gs s q = some g) (ho : Orthogonal q) :
    2 * ((g.1 - s.1).natAbs + (g.2 - s.2).natAbs) ≤ costOf q := by
  obtain ⟨h1, h2⟩ := replay_counts gs q s g h
  have h3 := costOf_eq_counts q
  have h4 := length_eq_counts q
  have h5 := orthogonal_iff.mp ho
  omega

theorem costOf_staircase (s g : Cell) :
    costOf (staircase s g) =
      2 * ((g.1 - s.1).natAbs + (g.2 - s.2).natAbs) := by
  rw [staircase, costOf_append, costOf_replicate, costOf_replicate]
  have h1 : costH (vAct (g.1 - s.1)) = 2 := by
    rw [vAct]
    split <;> rfl
  have h2 : costH (hAct (g.2 - s.2)) = 2 := by
    rw [hAct]
    split <;> rfl
  rw [h1, h2]
  ring

theorem replay_rep_br {gs : GridSize} :
    ∀ (n : Nat) (x y : Int), inBounds gs (x, y) →
      inBounds gs (x + n, y + n) →
      replay gs (x, y) (List.replicate n .bottomRight) =
        some (x + n, y + n) := by
  intro n
  induction n with
  | zero =>
    intro x y _ _
    rw [List.replicate, replay]
    simp
  | succ n ih =>
    intro x y h0 h1
    have hc : (((n : Nat) + 1 : Nat) : Int) = (n : Int) + 1 := by
      push_cast; ring
    have hmid : inBounds gs (x + 1, y + 1) := by
      obtain ⟨a0, a1, a2, a3⟩ := h0
      obtain ⟨b0, b1, b2, b3⟩ := h1
      exact ⟨by omega, by omega, by omega, by omega⟩
    rw [List.replicate, replay]
    have hsm : stepMove gs (x, y) .bottomRight = some (x + 1, y + 1) := by
      rw [stepMove]
      have ha : applyMove (x, y) Action.bottomRight = (x + 1, y + 1) := by
        simp [applyMove, delta]
      rw [ha, if_pos hmid]
    rw [hsm]
    have hxy : x + 1 + (n : Int) = x + ((n : Nat) + 1 : Nat) := by
      push_cast; ring
    have hxy2 : y + 1 + (n : Int) = y + ((n : Nat) + 1 : Nat) := by
      push_cast; ring
    have := ih (x + 1) (y + 1) hmid (by rw [hxy, hxy2]; exact h1)
    show replay gs (x + 1, y + 1) (List.replicate n .bottomRight) =
      some (x + (((n : Nat) + 1 : Nat) : Int), y + (((n : Nat) + 1 : Nat) : Int))
    rw [this, hxy, hxy2]

theorem replay_rep_tl {gs : GridSize} :
    ∀ (n : Nat) (x y : Int), inBounds gs (x, y) →
      inBounds gs (x - n, y - n) →
      replay gs (x, y) (List.replicate n .topLeft) =
        some (x - n, y - n) := by
  intro n
  induction n with
  | zero =>
    intro x y _ _
    rw [List.replicate, replay]
    simp
  | succ n ih =>
    intro x y h0 h1
    have hc : (((n : Nat) + 1 : Nat) : Int) = (n : Int) + 1 := by
      push_cast; ring
    have hmid : inBounds gs (x - 1, y - 1) := by
      obtain ⟨a0, a1, a2, a3⟩ := h0
      obtain ⟨b0, b1, b2, b3⟩ := h1
      exact ⟨by omega, by omega, by omega, by omega⟩
    rw [List.replicate, replay]
    have hsm : stepMove gs (x, y) .topLeft = some (x - 1, y - 1) := by
      rw [stepMove]
      have ha : applyMove (x, y) Action.topLeft = (x - 1, y - 1) := by
        simp [applyMove, delta]
        constructor <;> ring
      rw [ha, if_pos hmid]
    rw [hsm]
    have hxy : x - 1 - (n : Int) = x - ((n : Nat) + 1 : Nat) := by
      push_cast; ring
    have hxy2 : y - 1 - (n : Int) = y - ((n : Nat) + 1 : Nat) := by
      push_cast; ring
    have := ih (x - 1) (y - 1) hmid (by rw [hxy, hxy2]; exact h1)
    show replay gs (x - 1, y - 1) (List.replicate n .topLeft) =
      some (x - (((n : Nat) + 1 : Nat) : Int), y - (((n : Nat) + 1 : Nat) : Int))
    rw [this, hxy, hxy2]

/-- When the displacement points the same way on both axes, taking
`min |Δr| |Δc|` diagonal steps then a staircase yields a path of cost
`2 (|Δr| + |Δc|) - min |Δr| |Δc|`. -/
theorem diag_cheap {gs : GridSize} {s g : Cell}
    (hs : inBounds gs s) (hg : inBounds gs g)
    (hsign : (0 < g.1 - s.1 ∧ 0 < g.2 - s.2) ∨
      (g.1 - s.1 < 0 ∧ g.2 - s.2 < 0)) :
    ∃ q, ValidPath gs s g q ∧
      costOf q = 2 * ((g.1 - s.1).natAbs + (g.2 - s.2).natAbs) -
        min (g.1 - s.1).natAbs (g.2 - s.2).natAbs := by
  obtain ⟨sx, sy⟩ := s
  obtain ⟨gx, gy⟩ := g
  rcases hsign with ⟨ha, hb⟩ | ⟨ha, hb⟩
  · refine ⟨List.replicate (min (gx - sx).natAbs (gy - sy).natAbs)
      .bottomRight ++
      staircase (sx + ((min (gx - sx).natAbs (gy - sy).natAbs : Nat) : Int),
        sy + ((min (gx - sx).natAbs (gy - sy).natAbs : Nat) : Int)) (gx, gy),
      ?_, ?_⟩
    · have c0 := hs.1
      have c1 := hs.2.1
      have c2 := hs.2.2.1
      have c3 := hs.2.2.2
      have d1 := hg.2.1
      have d3 := hg.2.2.2
      have hmid : inBounds gs
          (sx + ((min (gx - sx).natAbs (gy - sy).natAbs : Nat) : Int),
            sy + ((min (gx - sx).natAbs (gy - sy).natAbs : Nat) : Int)) :=
        ⟨by omega, by omega, by omega, by omega⟩
      show replay gs (sx, sy) _ = some (gx, gy)
      rw [replay_append,
        replay_rep_br (min (gx - sx).natAbs (gy - sy).natAbs) sx sy hs hmid]
      show replay gs
        (sx + ((min (gx - sx).natAbs (gy - sy).natAbs : Nat) : Int),
          sy + ((min (gx - sx).natAbs (gy - sy).natAbs : Nat) : Int))
        (staircase _ (gx, gy)) = some (gx, gy)
      exact staircase_valid hmid hg
    · rw [costOf_append, costOf_replicate, costOf_staircase]
      show _ * costH Action.bottomRight + _ = _
      have h3 : costH Action.bottomRight = 3 := rfl
      rw [h3]
      omega
  · refine ⟨List.replicate (min (gx - sx).natAbs (gy - sy).natAbs)
      .topLeft ++
      staircase (sx - ((min (gx - sx).natAbs (gy - sy).natAbs : Nat) : Int),
        sy - ((min (gx - sx).natAbs (gy - sy).natAbs : Nat) : Int)) (gx, gy),
      ?_, ?_⟩
    · have c1 := hs.2.1
      have c3 := hs.2.2.2
      have d0 := hg.1
      have d1 := hg.2.1
      have d2 := hg.2.2.1
      have d3 := hg.2.2.2
      have hmid : inBounds gs
          (sx - ((min (gx - sx).natAbs (gy - sy).natAbs : Nat) : Int),
            sy - ((min (gx - sx).natAbs (gy - sy).natAbs : Nat) : Int)) :=
        ⟨by omega, by omega, by omega, by omega⟩
      show replay gs (sx, sy) _ = some (gx, gy)
      rw [replay_append,
        replay_rep_tl (min (gx - sx).natAbs (gy - sy).natAbs) sx sy hs hmid]
      show replay gs
        (sx - ((min (gx - sx).natAbs (gy - sy).natAbs : Nat) : Int),
          sy - ((min (gx - sx).natAbs (gy - sy).natAbs : Nat) : Int))
        (staircase _ (gx, gy)) = some (gx, gy)
      exact staircase_valid hmid hg
    · rw [costOf_append, costOf_replicate, costOf_staircase]
      show _ * costH Action.topLeft + _ = _
      have h3 : costH Action.topLeft = 3 := rfl
      rw [h3]
      omega

/-- C3: for in-bounds `start` and `goal`, `ucs` returns a path whose total
cost (scaled move costs: orthogonal `1 ↦ 2`, diagonal `1.5 ↦ 3`) is minimal
over all paths from `start` to `goal`; and whenever some orthogonal path is
no more expensive than the returned path, the returned path is itself
orthogonal (never diagonal-heavy when an equal-or-cheaper orthogonal path
exists). -/
theorem C3_ucs_minimal_cost (start goal : Cell) (gs : GridSize)
    (hs : inBounds gs start) (hg : inBounds gs goal) :
    ∃ p, ucs start goal gs = .found p ∧ ValidPath gs start goal p ∧
      (∀ q, ValidPath gs start goal q → costOf p ≤ costOf q) ∧
      (∀ q, ValidPath gs start goal q → Orthogonal q →
        costOf q ≤ costOf p → Orthogonal p) := by
  obtain ⟨cg, hmin⟩ := exists_isMinCost (staircase_valid hs hg)
  have hloop := ucsLoop_min hmin (ucsFuel gs) [Node.root start] ∅
    (by
      intro i h1 h2
      simp at h2
      omega)
    (fun m hm => by
      rw [List.mem_singleton.mp hm]
      exact nodeOk_root gs start)
    (Finset.not_mem_empty goal)
    (Or.inr ⟨Node.root start, List.mem_singleton.mpr rfl, rfl, rfl⟩)
    (fun x hx => absurd hx (Finset.not_mem_empty x))
  rcases hloop with hout | ⟨p, hfound, hvalid, hcost⟩
  · exfalso
    apply ucs_no_out start goal gs
    unfold ucs
    exact hout
  · refine ⟨p, ?_, hvalid, ?_, ?_⟩
    · unfold ucs
      exact hfound
    · intro q hq
      rw [hcost]
      exact hmin.2 q hq
    · intro q hq hqorth hqle
      by_cases hsign : (0 < goal.1 - start.1 ∧ 0 < goal.2 - start.2) ∨
          (goal.1 - start.1 < 0 ∧ goal.2 - start.2 < 0)
      · exfalso
        obtain ⟨q2, hq2, hq2c⟩ := diag_cheap hs hg hsign
        have h1 : costOf p ≤ costOf q2 := by
          rw [hcost]
          exact hmin.2 q2 hq2
        have h2 : 2 * ((goal.1 - start.1).natAbs +
            (goal.2 - start.2).natAbs) ≤ costOf q :=
          orth_cost_lb hq hqorth
        have h3 : 1 ≤ min (goal.1 - start.1).natAbs
            (goal.2 - start.2).natAbs := by
          rcases hsign with ⟨ha, hb⟩ | ⟨ha, hb⟩ <;> omega
        omega
      · by_cases hk : countA .bottomRight p + countA .topLeft p = 0
        · exact orthogonal_iff.mpr hk
        · exfalso
          have hk1 : 1 ≤ countA .bottomRight p + countA .topLeft p := by
            omega
          have h1 := diag_costly hvalid hsign hk1
          have h2 : costOf p ≤ costOf (staircase start goal) := by
            rw [hcost]
            exact hmin.2 _ (staircase_valid hs hg)
          rw [costOf_staircase] at h2
          omega

/-- Witness for C3 on a 2×3 grid from `(0,0)` to `(1,2)`: the found path
has minimal cost among all paths, and the orthogonal-preference clause
holds. -/
theorem C3_ucs_minimal_cost_witness :
    (inBounds ((2 : Int), (3 : Int)) ((0 : Int), (0 : Int)) ∧
      inBounds ((2 : Int), (3 : Int)) ((1 : Int), (2 : Int))) ∧
    ∃ p, ucs (0, 0) (1, 2) ((2 : Int), (3 : Int)) = .found p ∧
      ValidPath ((2 : Int), (3 : Int)) (0, 0) (1, 2) p ∧
      (∀ q, ValidPath ((2 : Int), (3 : Int)) (0, 0) (1, 2) q →
        costOf p ≤ costOf q) ∧
      (∀ q, ValidPath ((2 : Int), (3 : Int)) (0, 0) (1, 2) q →
        Orthogonal q → costOf q ≤ costOf p → Orthogonal p) :=
  ⟨⟨by decide, by decide⟩,
    C3_ucs_minimal_cost (0, 0) (1, 2) (2, 3) (by decide) (by decide)⟩

end SearchViz
